import Mathlib

/-!
# Verification of the Merise model-transformation toolchain

A shallow embedding, in Lean 4, of the core of the `obsidian-merise-plugin`
repository: the MCD/MLD/MPD data models, the block parser, the two model
converters, the SQL table-ordering pass and the validators, together with
theorems settling the specification claims about them.

Strings are embedded as lists of characters (`Str`), and the JavaScript
string/`Map` operations used by the source are reproduced as executable
functions on them.
-/

namespace Merise

/-- Strings of the embedded program: lists of characters. -/
abbrev Str := List Char

/-- JavaScript `\w` character class: ASCII letters, digits and underscore. -/
def isWordChar (c : Char) : Bool :=
  c.isAlpha || c.isDigit || c = '_'

/-- JavaScript whitespace test used by `trim` / `\s` (the source only ever
meets spaces, tabs and newlines). -/
def isSpaceChar (c : Char) : Bool :=
  c = ' ' || c = '\t' || c = '\n' || c = '\r'

/-- `String.prototype.trim` (leading and trailing whitespace removed). -/
def sTrim (s : Str) : Str :=
  (s.dropWhile isSpaceChar).reverse.dropWhile isSpaceChar |>.reverse

/-- `String.prototype.startsWith`. -/
def sStarts (pre s : Str) : Bool :=
  pre.isPrefixOf s

/-- `String.prototype.endsWith`. -/
def sEnds (suf s : Str) : Bool :=
  suf.reverse.isPrefixOf s.reverse

/-- `String.prototype.includes` (substring containment). -/
def sHas (s pat : Str) : Bool :=
  match s with
  | [] => pat.isPrefixOf ([] : Str)
  | _ :: rest => pat.isPrefixOf s || sHas rest pat

/-- `String.prototype.toLowerCase` (ASCII, which is all the source uses). -/
def sLower (s : Str) : Str :=
  s.map Char.toLower

/-- Split a string at every occurrence of a separator character
(`String.prototype.split`). -/
def splitChar (s : Str) (sep : Char) : List Str :=
  match s with
  | [] => [[]]
  | c :: rest =>
    let r := splitChar rest sep
    if c = sep then [] :: r
    else match r with
      | [] => [[c]]
      | h :: t => (c :: h) :: t

/-- Decimal rendering of a natural number (JS template `${n}`). -/
def natStr (n : Nat) : Str :=
  Nat.toDigits 10 n

/-- JavaScript string comparison (`<` on strings, used by `Array.sort`):
lexicographic on code points. -/
def sLt (a b : Str) : Bool :=
  match a, b with
  | [], [] => false
  | [], _ :: _ => true
  | _ :: _, [] => false
  | x :: xs, y :: ys =>
    if x.toNat < y.toNat then true
    else if y.toNat < x.toNat then false
    else sLt xs ys

/-- A JavaScript `Map<string, β>` value: association list in insertion
order; `set` on an existing key overwrites in place. -/
def MapS (β : Type) := List (Str × β)

/-- `Map.prototype.get`. -/
def mget {β : Type} (m : MapS β) (k : Str) : Option β :=
  match m with
  | [] => none
  | (k', v) :: rest => if k' = k then some v else mget rest k

/-- `Map.prototype.set`: overwrite the value at an existing key (keeping
its position), or append the new binding. -/
def mset {β : Type} (m : MapS β) (k : Str) (v : β) : MapS β :=
  match m with
  | [] => [(k, v)]
  | (k', v') :: rest => if k' = k then (k, v) :: rest else (k', v') :: mset rest k v

/-- `Map.prototype.has`. -/
def mhas {β : Type} (m : MapS β) (k : Str) : Bool :=
  (mget m k).isSome

/-! ## Data model (`models/types.ts`) -/

/-- Merise cardinalities, `'0,1' | '1,1' | '0,n' | '1,n'`. -/
inductive Cardinality where
  | c01 | c11 | c0n | c1n
  deriving DecidableEq, Repr

/-- The literal text of a cardinality. -/
def Cardinality.str : Cardinality → Str
  | .c01 => "0,1".data
  | .c11 => "1,1".data
  | .c0n => "0,n".data
  | .c1n => "1,n".data

/-- Inheritance conversion strategies. -/
inductive InheritanceStrategy where
  | table_per_class | single_table | table_per_subclass
  deriving DecidableEq, Repr

/-- SQL dialects supported by the generator. -/
inductive SqlDialect where
  | mariadb | mysql | postgresql
  deriving DecidableEq, Repr

/-- FK referential actions (`ReferentialAction`). -/
inductive ReferentialAction where
  | cascade | setNull | setDefault | restrict | noAction
  deriving DecidableEq, Repr

/-- The literal text of a referential action. -/
def ReferentialAction.str : ReferentialAction → Str
  | .cascade => "CASCADE".data
  | .setNull => "SET NULL".data
  | .setDefault => "SET DEFAULT".data
  | .restrict => "RESTRICT".data
  | .noAction => "NO ACTION".data

/-- `McdAttribute`. -/
structure McdAttribute where
  name : Str
  isPrimaryKey : Bool
  isDerived : Bool
  deriving DecidableEq, Repr

/-- `McdEntity`. -/
structure McdEntity where
  name : Str
  attributes : List McdAttribute
  deriving DecidableEq, Repr

/-- `McdRelationParticipant`. -/
structure McdRelationParticipant where
  entityName : Str
  cardinality : Cardinality
  deriving DecidableEq, Repr

/-- `McdRelation`. -/
structure McdRelation where
  name : Str
  participants : List McdRelationParticipant
  attributes : List McdAttribute
  deriving DecidableEq, Repr

/-- `McdInheritance`. -/
structure McdInheritance where
  name : Str
  parentEntity : Str
  childEntities : List Str
  strategy : Option InheritanceStrategy
  deriving DecidableEq, Repr

/-- `McdAssociativeEntity`. -/
structure McdAssociativeEntity where
  name : Str
  relationName : Str
  attributes : List McdAttribute
  deriving DecidableEq, Repr

/-- `McdModel`. -/
structure McdModel where
  entities : List McdEntity
  relations : List McdRelation
  inheritances : List McdInheritance
  associativeEntities : List McdAssociativeEntity
  deriving DecidableEq, Repr

/-- `MldForeignKey`. -/
structure MldForeignKey where
  columnName : Str
  referencedTable : Str
  referencedColumn : Str
  deriving DecidableEq, Repr

/-- `MldColumn`. -/
structure MldColumn where
  name : Str
  isPrimaryKey : Bool
  foreignKey : Option MldForeignKey := none
  deriving DecidableEq, Repr

/-- `MldTable`. -/
structure MldTable where
  name : Str
  columns : List MldColumn
  deriving DecidableEq, Repr

/-- `MldModel`. -/
structure MldModel where
  tables : List MldTable
  deriving DecidableEq, Repr

/-- `MpdConstraint` kinds. -/
inductive ConstraintKind where
  | notNull | unique | check
  deriving DecidableEq, Repr

/-- `MpdConstraint`. -/
structure MpdConstraint where
  kind : ConstraintKind
  expression : Option Str := none
  deriving DecidableEq, Repr

/-- `MpdForeignKey`. -/
structure MpdForeignKey where
  columnName : Str
  referencedTable : Str
  referencedColumn : Str
  onDelete : Option ReferentialAction := none
  onUpdate : Option ReferentialAction := none
  deriving DecidableEq, Repr

/-- `MpdColumn`. -/
structure MpdColumn where
  name : Str
  sqlType : Str
  isPrimaryKey : Bool
  foreignKey : Option MpdForeignKey := none
  constraints : List MpdConstraint
  deriving DecidableEq, Repr

/-- `MpdTable`. -/
structure MpdTable where
  name : Str
  columns : List MpdColumn
  deriving DecidableEq, Repr

/-- `MpdModel`. -/
structure MpdModel where
  tables : List MpdTable
  deriving DecidableEq, Repr

/-! ## `converter/mldToMpd.ts` -/

/-- `inferSqlType`: deduce an SQL type from a column name
(used for non-FK columns; FK columns inherit the referenced PK's type). -/
def inferSqlType (colName : Str) (isPrimaryKey : Bool) (dialect : SqlDialect)
    (defaultVarcharLength : Nat) : Str :=
  let name := sLower colName
  if isPrimaryKey && (sStarts "id".data name || sEnds "id".data name) then
    (if dialect = .postgresql then "SERIAL".data else "INT".data)
  else if sStarts "id_".data name || sEnds "_id".data name || name = "id".data then
    "INT".data
  else if sStarts "ref_".data name || sEnds "_ref".data name || name = "ref".data then
    "VARCHAR(20)".data
  else if sHas name "datetime".data || sHas name "timestamp".data then
    (if dialect = .postgresql then "TIMESTAMP".data else "DATETIME".data)
  else if sStarts "date_".data name || sEnds "_date".data name || name = "date".data then
    "DATE".data
  else if sStarts "prix".data name || sStarts "montant".data name
      || sStarts "total".data name || sStarts "price".data name
      || sStarts "amount".data name then
    "DECIMAL(10,2)".data
  else if sStarts "quantite".data name || sStarts "nombre".data name
      || sStarts "nb_".data name || sStarts "quantity".data name
      || sStarts "count".data name || sStarts "num_".data name then
    "INT".data
  else if sEnds "_bool".data name || sStarts "est_".data name
      || sStarts "is_".data name || sStarts "has_".data name
      || sStarts "a_".data name then
    "BOOLEAN".data
  else if name = "description".data || name = "contenu".data
      || name = "content".data || name = "commentaire".data then
    "TEXT".data
  else if name = "type_discriminator".data || name = "type".data then
    "VARCHAR(50)".data
  else
    "VARCHAR(".data ++ natStr defaultVarcharLength ++ ")".data

/-- The `tableName.columnName` key used by the type-resolution map. -/
def typeKey (tableName colName : Str) : Str :=
  tableName ++ '.' :: colName

/-- First resolution pass: record the inferred type of every non-FK column,
keyed by `table.column`. -/
def resolvePass1 (tables : List MldTable) (dialect : SqlDialect) (len : Nat) :
    MapS Str :=
  tables.foldl (fun m t =>
    t.columns.foldl (fun m c =>
      match c.foreignKey with
      | some _ => m
      | none => mset m (typeKey t.name c.name)
          (inferSqlType c.name c.isPrimaryKey dialect len)) m) []

/-- The type an FK column receives from a resolved referenced type:
`SERIAL` PKs propagate as plain `INT`. -/
def serialFix (refType : Str) : Str :=
  if refType = "SERIAL".data then "INT".data else refType

/-- Second resolution pass: propagate referenced-PK types to FK columns,
recording each result in the same map as it goes. -/
def resolvePass2 (tables : List MldTable) (dialect : SqlDialect) (len : Nat)
    (m0 : MapS Str) : MapS Str :=
  tables.foldl (fun m t =>
    t.columns.foldl (fun m c =>
      match c.foreignKey with
      | none => m
      | some fk =>
        let refKey := typeKey fk.referencedTable fk.referencedColumn
        let refType :=
          match mget m refKey with
          | some rt => serialFix rt
          | none => inferSqlType fk.referencedColumn false dialect len
        mset m (typeKey t.name c.name) refType) m) m0

/-- Constraint assembly and column construction for one MLD column,
given the final resolution map. -/
def buildMpdColumn (resolved : MapS Str) (tName : Str) (c : MldColumn)
    (dialect : SqlDialect) (len : Nat) : MpdColumn :=
  let sqlType :=
    match mget resolved (typeKey tName c.name) with
    | some t => t
    | none => inferSqlType c.name c.isPrimaryKey dialect len
  let constraints :=
    (if c.isPrimaryKey then [({ kind := .notNull } : MpdConstraint)] else [])
    ++ (if sHas (sLower c.name) "email".data then
          [({ kind := .unique } : MpdConstraint)] else [])
  match c.foreignKey with
  | none =>
    { name := c.name, sqlType := sqlType, isPrimaryKey := c.isPrimaryKey,
      foreignKey := none, constraints := constraints }
  | some fk =>
    let constraints :=
      if (constraints.find? (fun k => k.kind = .notNull)).isSome then constraints
      else constraints ++ [({ kind := .notNull } : MpdConstraint)]
    { name := c.name, sqlType := sqlType, isPrimaryKey := c.isPrimaryKey,
      foreignKey := some { columnName := fk.columnName,
                           referencedTable := fk.referencedTable,
                           referencedColumn := fk.referencedColumn,
                           onDelete := some .cascade, onUpdate := some .cascade },
      constraints := constraints }

/-- `convertMldToMpd`: two type-resolution passes followed by model
construction. -/
def convertMldToMpd (mld : MldModel) (dialect : SqlDialect := .mysql)
    (defaultVarcharLength : Nat := 255) : MpdModel :=
  let resolved := resolvePass2 mld.tables dialect defaultVarcharLength
    (resolvePass1 mld.tables dialect defaultVarcharLength)
  { tables := mld.tables.map (fun t =>
      { name := t.name,
        columns := t.columns.map (fun c =>
          buildMpdColumn resolved t.name c dialect defaultVarcharLength) }) }

/-! ## Association-list map lemmas -/

/-- Keys of a map, in order. -/
def mdom {β : Type} (m : MapS β) : List Str := m.map Prod.fst

theorem mget_mset_self {β : Type} (m : MapS β) (k : Str) (v : β) :
    mget (mset m k v) k = some v := by
  induction m with
  | nil => simp [mset, mget]
  | cons hd tl ih =>
    obtain ⟨k', v'⟩ := hd
    by_cases h : k' = k
    · simp [mset, mget, h]
    · simp [mset, mget, h, ih]

theorem mget_mset_of_ne {β : Type} (m : MapS β) {k k' : Str} (v : β)
    (h : k' ≠ k) : mget (mset m k v) k' = mget m k' := by
  have h' : k ≠ k' := Ne.symm h
  induction m with
  | nil => simp [mset, mget, h']
  | cons hd tl ih =>
    obtain ⟨k0, v0⟩ := hd
    by_cases h0 : k0 = k
    · subst h0
      simp [mset, mget, h']
    · simp only [mset, if_neg h0, mget]
      by_cases h1 : k0 = k'
      · simp [h1]
      · simp [h1, ih]

theorem mem_mdom_of_mget {β : Type} {m : MapS β} {k : Str} {v : β}
    (h : mget m k = some v) : k ∈ mdom m := by
  induction m with
  | nil => simp [mget] at h
  | cons hd tl ih =>
    obtain ⟨k', v'⟩ := hd
    by_cases hk : k' = k
    · subst hk
      exact List.mem_map_of_mem Prod.fst (List.mem_cons_self _ _)
    · simp only [mget, if_neg hk] at h
      have := ih h
      simp only [mdom, List.map_cons, List.mem_cons]
      exact Or.inr this

theorem mget_eq_none_of_not_mem {β : Type} {m : MapS β} {k : Str}
    (h : k ∉ mdom m) : mget m k = none := by
  cases hg : mget m k with
  | none => rfl
  | some v => exact absurd (mem_mdom_of_mget hg) h

theorem mget_isSome_of_mem_mdom {β : Type} {m : MapS β} {k : Str}
    (h : k ∈ mdom m) : (mget m k).isSome := by
  induction m with
  | nil => simp [mdom] at h
  | cons hd tl ih =>
    obtain ⟨k', v'⟩ := hd
    by_cases hk : k' = k
    · simp [mget, hk]
    · rcases List.mem_cons.mp h with h1 | h1
      · exact absurd h1.symm hk
      · simp only [mget, if_neg hk]
        exact ih h1

theorem mdom_mset_subset {β : Type} (m : MapS β) (k : Str) (v : β) :
    mdom (mset m k v) ⊆ k :: mdom m := by
  induction m with
  | nil => simp [mset, mdom]
  | cons hd tl ih =>
    obtain ⟨k', v'⟩ := hd
    by_cases h : k' = k
    · simp only [mset, if_pos h, mdom, List.map_cons]
      intro x hx
      simp only [List.mem_cons] at hx ⊢
      rcases hx with hx | hx
      · exact Or.inl hx
      · exact Or.inr (Or.inr hx)
    · simp only [mset, if_neg h, mdom, List.map_cons]
      intro x hx
      simp only [List.mem_cons] at hx ⊢
      rcases hx with hx | hx
      · exact Or.inr (Or.inl hx)
      · rcases List.mem_cons.mp (ih hx) with h1 | h1
        · exact Or.inl h1
        · exact Or.inr (Or.inr h1)

/-! ## Flattened form of the two resolution passes (claim C1) -/

/-- All `(tableName, column)` pairs of a table list, in source iteration
order. -/
def colPairs (tables : List MldTable) : List (Str × MldColumn) :=
  tables.flatMap (fun t => t.columns.map (fun c => (t.name, c)))

/-- The resolution-map key of a `(tableName, column)` pair. -/
def pairKeyOf (p : Str × MldColumn) : Str := typeKey p.1 p.2.name

/-- All `table.column` keys of a model. -/
def colKeys (mld : MldModel) : List Str :=
  (colPairs mld.tables).map pairKeyOf

/-- One step of the first resolution pass over a flattened pair. -/
def pass1Step (dialect : SqlDialect) (len : Nat) (m : MapS Str)
    (p : Str × MldColumn) : MapS Str :=
  match p.2.foreignKey with
  | some _ => m
  | none => mset m (pairKeyOf p) (inferSqlType p.2.name p.2.isPrimaryKey dialect len)

/-- One step of the second resolution pass over a flattened pair. -/
def pass2Step (dialect : SqlDialect) (len : Nat) (m : MapS Str)
    (p : Str × MldColumn) : MapS Str :=
  match p.2.foreignKey with
  | none => m
  | some fk =>
    let refKey := typeKey fk.referencedTable fk.referencedColumn
    let refType :=
      match mget m refKey with
      | some rt => serialFix rt
      | none => inferSqlType fk.referencedColumn false dialect len
    mset m (pairKeyOf p) refType

theorem colPairs_cons (t : MldTable) (ts : List MldTable) :
    colPairs (t :: ts) = t.columns.map (fun c => (t.name, c)) ++ colPairs ts := by
  simp [colPairs]

theorem resolvePass1_eq_foldl (tables : List MldTable) (d : SqlDialect) (len : Nat) :
    resolvePass1 tables d len = (colPairs tables).foldl (pass1Step d len) [] := by
  suffices h : ∀ (ts : List MldTable) (init : MapS Str),
      ts.foldl (fun m t =>
        t.columns.foldl (fun m c =>
          match c.foreignKey with
          | some _ => m
          | none => mset m (typeKey t.name c.name)
              (inferSqlType c.name c.isPrimaryKey d len)) m) init
      = (colPairs ts).foldl (pass1Step d len) init by
    exact h tables []
  intro ts
  induction ts with
  | nil => intro init; simp [colPairs]
  | cons t ts ih =>
    intro init
    rw [List.foldl_cons, ih, colPairs_cons, List.foldl_append, List.foldl_map]
    rfl

theorem resolvePass2_eq_foldl (tables : List MldTable) (d : SqlDialect) (len : Nat)
    (m0 : MapS Str) :
    resolvePass2 tables d len m0 = (colPairs tables).foldl (pass2Step d len) m0 := by
  induction tables generalizing m0 with
  | nil => rfl
  | cons t ts ih =>
    rw [show resolvePass2 (t :: ts) d len m0
        = resolvePass2 ts d len
            (t.columns.foldl (fun m c =>
              match c.foreignKey with
              | none => m
              | some fk =>
                mset m (typeKey t.name c.name)
                  (match mget m (typeKey fk.referencedTable fk.referencedColumn) with
                   | some rt => serialFix rt
                   | none => inferSqlType fk.referencedColumn false d len)) m0)
      from rfl, ih, colPairs_cons, List.foldl_append, List.foldl_map]
    rfl

section PassLemmas

variable {d : SqlDialect} {len : Nat}

theorem pass1Step_mget_ne (m : MapS Str) (p : Str × MldColumn) {k : Str}
    (h : k ≠ pairKeyOf p) : mget (pass1Step d len m p) k = mget m k := by
  unfold pass1Step
  cases p.2.foreignKey with
  | some fk => rfl
  | none => exact mget_mset_of_ne m _ h

theorem pass2Step_mget_ne (m : MapS Str) (p : Str × MldColumn) {k : Str}
    (h : k ≠ pairKeyOf p) : mget (pass2Step d len m p) k = mget m k := by
  unfold pass2Step
  cases p.2.foreignKey with
  | none => rfl
  | some fk => exact mget_mset_of_ne m _ h

theorem pass1_foldl_stable (ps : List (Str × MldColumn)) (m0 : MapS Str) {k : Str}
    (hk : k ∉ ps.map pairKeyOf) :
    mget (ps.foldl (pass1Step d len) m0) k = mget m0 k := by
  induction ps generalizing m0 with
  | nil => rfl
  | cons p ps ih =>
    simp only [List.map_cons, List.mem_cons] at hk
    push_neg at hk
    rw [List.foldl_cons, ih _ hk.2, pass1Step_mget_ne _ _ hk.1]

/-- Stability of the second pass at a key that no foreign-key pair writes. -/
theorem pass2_foldl_stable (ps : List (Str × MldColumn)) (m0 : MapS Str) {k : Str}
    (hk : ∀ q ∈ ps, q.2.foreignKey ≠ none → pairKeyOf q ≠ k) :
    mget (ps.foldl (pass2Step d len) m0) k = mget m0 k := by
  induction ps generalizing m0 with
  | nil => rfl
  | cons p ps ih =>
    rw [List.foldl_cons, ih _ (fun q hq => hk q (List.mem_cons_of_mem _ hq))]
    cases hp : p.2.foreignKey with
    | none => unfold pass2Step; rw [hp]
    | some fk =>
      exact pass2Step_mget_ne m0 p
        (Ne.symm (hk p (List.mem_cons_self _ _) (by simp [hp])))

theorem pass1Step_mdom (m : MapS Str) (p : Str × MldColumn) :
    mdom (pass1Step d len m p) ⊆ pairKeyOf p :: mdom m := by
  unfold pass1Step
  cases p.2.foreignKey with
  | some fk => exact fun x hx => List.mem_cons_of_mem _ hx
  | none => exact mdom_mset_subset m _ _

theorem pass2Step_mdom (m : MapS Str) (p : Str × MldColumn) :
    mdom (pass2Step d len m p) ⊆ pairKeyOf p :: mdom m := by
  unfold pass2Step
  cases p.2.foreignKey with
  | none => exact fun x hx => List.mem_cons_of_mem _ hx
  | some fk => exact mdom_mset_subset m _ _

theorem pass1_foldl_mdom (ps : List (Str × MldColumn)) (m0 : MapS Str) :
    mdom (ps.foldl (pass1Step d len) m0) ⊆ mdom m0 ++ ps.map pairKeyOf := by
  induction ps generalizing m0 with
  | nil => intro x hx; exact List.mem_append.mpr (Or.inl hx)
  | cons p ps ih =>
    intro x hx
    rw [List.map_cons]
    rcases List.mem_append.mp (ih (pass1Step d len m0 p) hx) with h | h
    · rcases List.mem_cons.mp (pass1Step_mdom m0 p h) with h' | h'
      · exact List.mem_append.mpr (Or.inr (h' ▸ List.mem_cons_self _ _))
      · exact List.mem_append.mpr (Or.inl h')
    · exact List.mem_append.mpr (Or.inr (List.mem_cons_of_mem _ h))

theorem pass2_foldl_mdom (ps : List (Str × MldColumn)) (m0 : MapS Str) :
    mdom (ps.foldl (pass2Step d len) m0) ⊆ mdom m0 ++ ps.map pairKeyOf := by
  induction ps generalizing m0 with
  | nil => intro x hx; exact List.mem_append.mpr (Or.inl hx)
  | cons p ps ih =>
    intro x hx
    rw [List.map_cons]
    rcases List.mem_append.mp (ih (pass2Step d len m0 p) hx) with h | h
    · rcases List.mem_cons.mp (pass2Step_mdom m0 p h) with h' | h'
      · exact List.mem_append.mpr (Or.inr (h' ▸ List.mem_cons_self _ _))
      · exact List.mem_append.mpr (Or.inl h')
    · exact List.mem_append.mpr (Or.inr (List.mem_cons_of_mem _ h))

/-- The first pass records the inferred type of a non-FK column, and the
record survives the rest of the pass when the key is not written again. -/
theorem pass1_foldl_write (l1 l2 : List (Str × MldColumn)) (p : Str × MldColumn)
    (m0 : MapS Str) (hfk : p.2.foreignKey = none)
    (hk : pairKeyOf p ∉ l2.map pairKeyOf) :
    mget ((l1 ++ p :: l2).foldl (pass1Step d len) m0) (pairKeyOf p)
      = some (inferSqlType p.2.name p.2.isPrimaryKey d len) := by
  rw [List.foldl_append, List.foldl_cons, pass1_foldl_stable _ _ hk]
  unfold pass1Step
  rw [hfk]
  exact mget_mset_self _ _ _

/-- The second pass records, for an FK column, the type looked up (or
inferred) at the moment that column is processed. -/
theorem pass2_foldl_write (l1 l2 : List (Str × MldColumn)) (p : Str × MldColumn)
    (fk : MldForeignKey) (m0 : MapS Str) (hfk : p.2.foreignKey = some fk)
    (hk : ∀ q ∈ l2, pairKeyOf q ≠ pairKeyOf p) :
    mget ((l1 ++ p :: l2).foldl (pass2Step d len) m0) (pairKeyOf p)
      = some (match mget (l1.foldl (pass2Step d len) m0)
                    (typeKey fk.referencedTable fk.referencedColumn) with
              | some rt => serialFix rt
              | none => inferSqlType fk.referencedColumn false d len) := by
  rw [List.foldl_append, List.foldl_cons,
    pass2_foldl_stable _ _ (fun q hq _ => hk q hq)]
  unfold pass2Step
  rw [hfk]
  exact mget_mset_self _ _ _

end PassLemmas

theorem buildMpdColumn_name (resolved : MapS Str) (tn : Str) (c : MldColumn)
    (d : SqlDialect) (len : Nat) :
    (buildMpdColumn resolved tn c d len).name = c.name := by
  unfold buildMpdColumn
  cases c.foreignKey <;> rfl

theorem buildMpdColumn_sqlType (resolved : MapS Str) (tn : Str) (c : MldColumn)
    (d : SqlDialect) (len : Nat) {v : Str}
    (h : mget resolved (typeKey tn c.name) = some v) :
    (buildMpdColumn resolved tn c d len).sqlType = v := by
  unfold buildMpdColumn
  rw [h]
  cases c.foreignKey <;> rfl

/-! ## Claim C1 -/

/-- The resolved type of the referenced `(table, column)` pair when it
resolves to a primary key of the physical model: the sqlType that column
received, or `none` when no such column exists (or it is not a primary
key, a case the claim does not speak about). -/
def referencedPkResolvedType (out : MpdModel) (rT rc : Str) : Option (Option Str) :=
  match out.tables.find? (fun x => decide (x.name = rT)) with
  | none => some none
  | some tbl =>
    match tbl.columns.find? (fun x => decide (x.name = rc)) with
    | none => some none
    | some rcol => if rcol.isPrimaryKey then some (some rcol.sqlType) else none

/-- Claim C1 as stated, as a decidable predicate on a model: every FK
column whose referenced `(table, column)` resolves to a primary key gets
that primary key's resolved type (`SERIAL` downgraded to `INT`), and every
FK column whose reference resolves to nothing gets the name-inferred type
of the referenced column name. -/
def fkClaimHolds (mld : MldModel) (d : SqlDialect) (len : Nat) : Bool :=
  let out := convertMldToMpd mld d len
  (mld.tables.zip out.tables).all (fun tp =>
    (tp.1.columns.zip tp.2.columns).all (fun cp =>
      match cp.1.foreignKey with
      | none => true
      | some fk =>
        match referencedPkResolvedType out fk.referencedTable fk.referencedColumn with
        | some (some rt) => decide (cp.2.sqlType = serialFix rt)
        | some none => decide (cp.2.sqlType = inferSqlType fk.referencedColumn false d len)
        | none => true))

/-- A model with a chain of foreign keys: `A.x → B.y`, where `B.y` is a
primary key that is itself a foreign key to `C.id_c`. -/
def mldC1ce : MldModel :=
  { tables := [
      { name := "A".data, columns := [
          { name := "x".data, isPrimaryKey := false,
            foreignKey := some { columnName := "x".data,
                                 referencedTable := "B".data,
                                 referencedColumn := "y".data } }] },
      { name := "B".data, columns := [
          { name := "y".data, isPrimaryKey := true,
            foreignKey := some { columnName := "y".data,
                                 referencedTable := "C".data,
                                 referencedColumn := "id_c".data } }] },
      { name := "C".data, columns := [
          { name := "id_c".data, isPrimaryKey := true }] }] }

/-- Claim C1 fails on `mldC1ce`: `B.y` is a primary key resolving to
`INT`, but `A.x` (processed before `B` records its propagated type)
falls back to name inference on `y` and gets `VARCHAR(255)`. -/
theorem c1_claim_counterexample : fkClaimHolds mldC1ce .mysql 255 = false := by
  decide

/-- C1 (amended): for every logical model whose `table.column` key strings
are pairwise distinct, every foreign-key column whose referenced
`(table, column)` is a primary-key column *that is not itself a foreign
key* receives that primary key's resolved type, with the auto-increment
marker `SERIAL` downgraded to plain `INT`; and when the referenced
`(table, column)` matches no column key of the model at all, the type is
inferred by the name-pattern rules applied to the referenced column's
name. (Foreign keys whose referenced primary key is itself a foreign-key
column are excluded: their type depends on table processing order, as the
counterexample shows.) -/
theorem c1_fk_type_propagation (mld : MldModel) (dialect : SqlDialect) (len : Nat)
    (hkeys : (colKeys mld).Nodup)
    (t : MldTable) (ht : t ∈ mld.tables)
    (c : MldColumn) (hc : c ∈ t.columns)
    (fk : MldForeignKey) (hfk : c.foreignKey = some fk) :
    ∃ ot, ot ∈ (convertMldToMpd mld dialect len).tables ∧ ot.name = t.name ∧
    ∃ oc, oc ∈ ot.columns ∧ oc.name = c.name ∧
      ((∀ rT, rT ∈ mld.tables → rT.name = fk.referencedTable →
        ∀ rc, rc ∈ rT.columns → rc.name = fk.referencedColumn →
          rc.isPrimaryKey = true → rc.foreignKey = none →
          oc.sqlType = serialFix (inferSqlType rc.name true dialect len)) ∧
       (typeKey fk.referencedTable fk.referencedColumn ∉ colKeys mld →
          oc.sqlType = inferSqlType fk.referencedColumn false dialect len)) := by
  have hps : colKeys mld = (colPairs mld.tables).map pairKeyOf := rfl
  set m1 := resolvePass1 mld.tables dialect len with hm1def
  set resolved := resolvePass2 mld.tables dialect len m1 with hresdef
  -- the output table and column
  refine ⟨{ name := t.name, columns := t.columns.map
              (fun c => buildMpdColumn resolved t.name c dialect len) }, ?_, rfl,
          buildMpdColumn resolved t.name c dialect len, ?_,
          buildMpdColumn_name resolved t.name c dialect len, ?_⟩
  · show _ ∈ (convertMldToMpd mld dialect len).tables
    unfold convertMldToMpd
    exact List.mem_map_of_mem _ ht
  · exact List.mem_map_of_mem _ hc
  -- locate our column pair inside the flattened pass
  have hpmem : (t.name, c) ∈ colPairs mld.tables := by
    unfold colPairs
    exact List.mem_flatMap.mpr ⟨t, ht, List.mem_map_of_mem _ hc⟩
  obtain ⟨l1, l2, hsplit⟩ := List.append_of_mem hpmem
  have hkeys' : ((colPairs mld.tables).map pairKeyOf).Nodup := hps ▸ hkeys
  have hmapsplit : (colPairs mld.tables).map pairKeyOf
      = l1.map pairKeyOf ++ pairKeyOf (t.name, c) :: l2.map pairKeyOf := by
    rw [hsplit]; simp
  have hnodup2 : pairKeyOf (t.name, c) ∉ l1.map pairKeyOf
      ∧ pairKeyOf (t.name, c) ∉ l2.map pairKeyOf := by
    have h := hmapsplit ▸ hkeys'
    have h' := (List.nodup_middle).mp h
    have := List.nodup_cons.mp h'
    constructor
    · exact fun hmem => this.1 (List.mem_append.mpr (Or.inl hmem))
    · exact fun hmem => this.1 (List.mem_append.mpr (Or.inr hmem))
  -- the value written for our column by the second pass
  have hinj : ∀ a ∈ colPairs mld.tables, ∀ b ∈ colPairs mld.tables,
      pairKeyOf a = pairKeyOf b → a = b :=
    List.inj_on_of_nodup_map hkeys'
  have hwrite : mget resolved (pairKeyOf (t.name, c))
      = some (match mget (l1.foldl (pass2Step dialect len) m1)
                (typeKey fk.referencedTable fk.referencedColumn) with
              | some rt => serialFix rt
              | none => inferSqlType fk.referencedColumn false dialect len) := by
    rw [hresdef, resolvePass2_eq_foldl, hsplit]
    exact pass2_foldl_write l1 l2 (t.name, c) fk m1 hfk
      (fun q hq heq => hnodup2.2 (heq ▸ List.mem_map_of_mem _ hq))
  have hsub1 : ∀ q ∈ l1, q ∈ colPairs mld.tables := by
    intro q hq; rw [hsplit]; exact List.mem_append.mpr (Or.inl hq)
  constructor
  · -- referenced column exists, is a primary key, and is not an FK
    intro rT hrT hrTname rc hrc hrcname hrcpk hrcfk
    have hrefkey : typeKey fk.referencedTable fk.referencedColumn
        = pairKeyOf (rT.name, rc) := by
      unfold pairKeyOf; rw [hrTname, hrcname]
    have hrmem : (rT.name, rc) ∈ colPairs mld.tables := by
      unfold colPairs
      exact List.mem_flatMap.mpr ⟨rT, hrT, List.mem_map_of_mem _ hrc⟩
    obtain ⟨r1, r2, hrsplit⟩ := List.append_of_mem hrmem
    have hrmapsplit : (colPairs mld.tables).map pairKeyOf
        = r1.map pairKeyOf ++ pairKeyOf (rT.name, rc) :: r2.map pairKeyOf := by
      rw [hrsplit]; simp
    have hrnodup : pairKeyOf (rT.name, rc) ∉ r1.map pairKeyOf
        ∧ pairKeyOf (rT.name, rc) ∉ r2.map pairKeyOf := by
      have h := hrmapsplit ▸ hkeys'
      have h' := (List.nodup_middle).mp h
      have := List.nodup_cons.mp h'
      constructor
      · exact fun hmem => this.1 (List.mem_append.mpr (Or.inl hmem))
      · exact fun hmem => this.1 (List.mem_append.mpr (Or.inr hmem))
    -- the first pass recorded the referenced column's inferred type
    have hm1get : mget m1 (pairKeyOf (rT.name, rc))
        = some (inferSqlType rc.name rc.isPrimaryKey dialect len) := by
      rw [hm1def, resolvePass1_eq_foldl, hrsplit]
      exact pass1_foldl_write r1 r2 (rT.name, rc) [] hrcfk hrnodup.2
    -- and the record is still visible when our column is processed
    have hmid : mget (l1.foldl (pass2Step dialect len) m1) (pairKeyOf (rT.name, rc))
        = some (inferSqlType rc.name rc.isPrimaryKey dialect len) := by
      rw [pass2_foldl_stable l1 m1 ?_, hm1get]
      intro q hq hqfk heq
      have : q = (rT.name, rc) := hinj q (hsub1 q hq) (rT.name, rc) hrmem heq
      rw [this] at hqfk
      exact hqfk hrcfk
    rw [buildMpdColumn_sqlType resolved t.name c dialect len hwrite]
    rw [hrefkey, hmid, hrcpk]
  · -- the referenced key matches no column of the model
    intro hnone
    have hm1none : mget m1 (typeKey fk.referencedTable fk.referencedColumn) = none := by
      apply mget_eq_none_of_not_mem
      intro hmem
      apply hnone
      rw [hps]
      have : mdom ((colPairs mld.tables).foldl (pass1Step dialect len) [])
          ⊆ mdom ([] : MapS Str) ++ (colPairs mld.tables).map pairKeyOf :=
        pass1_foldl_mdom (colPairs mld.tables) []
      rw [← resolvePass1_eq_foldl, ← hm1def] at this
      have h2 := this hmem
      rw [show mdom ([] : MapS Str) = [] from rfl, List.nil_append] at h2
      exact h2
    have hmidnone : mget (l1.foldl (pass2Step dialect len) m1)
        (typeKey fk.referencedTable fk.referencedColumn) = none := by
      apply mget_eq_none_of_not_mem
      intro hmem
      rcases List.mem_append.mp (pass2_foldl_mdom l1 m1 hmem) with h | h
      · have hs := mget_isSome_of_mem_mdom h
        rw [hm1none] at hs
        simp at hs
      · apply hnone
        rw [hps, hsplit]
        refine List.mem_map.mpr ?_
        obtain ⟨q, hq, hqk⟩ := List.mem_map.mp h
        exact ⟨q, List.mem_append.mpr (Or.inl hq), hqk⟩
    rw [buildMpdColumn_sqlType resolved t.name c dialect len hwrite, hmidnone]

/-- Concrete foreign key used by the C1 witness. -/
def c1wFk : MldForeignKey :=
  { columnName := "id_client".data, referencedTable := "CLIENT".data,
    referencedColumn := "id_client".data }

/-- Concrete FK column used by the C1 witness. -/
def c1wCol : MldColumn :=
  { name := "id_client".data, isPrimaryKey := false, foreignKey := some c1wFk }

/-- Concrete referenced table used by the C1 witness. -/
def c1wClient : MldTable :=
  { name := "CLIENT".data,
    columns := [{ name := "id_client".data, isPrimaryKey := true }] }

/-- Concrete referencing table used by the C1 witness. -/
def c1wCmd : MldTable :=
  { name := "COMMANDE".data,
    columns := [{ name := "id_commande".data, isPrimaryKey := true }, c1wCol] }

/-- Concrete model used by the C1 witness. -/
def c1wMld : MldModel := { tables := [c1wClient, c1wCmd] }

/-- Witness for `c1_fk_type_propagation` at a concrete model. -/
theorem c1_fk_type_propagation_witness :
    ∃ ot, ot ∈ (convertMldToMpd c1wMld .mysql 255).tables ∧ ot.name = c1wCmd.name ∧
    ∃ oc, oc ∈ ot.columns ∧ oc.name = c1wCol.name ∧
      ((∀ rT, rT ∈ c1wMld.tables → rT.name = c1wFk.referencedTable →
        ∀ rc, rc ∈ rT.columns → rc.name = c1wFk.referencedColumn →
          rc.isPrimaryKey = true → rc.foreignKey = none →
          oc.sqlType = serialFix (inferSqlType rc.name true .mysql 255)) ∧
       (typeKey c1wFk.referencedTable c1wFk.referencedColumn ∉ colKeys c1wMld →
          oc.sqlType = inferSqlType c1wFk.referencedColumn false .mysql 255)) :=
  c1_fk_type_propagation c1wMld .mysql 255 (by decide) c1wCmd (by decide)
    c1wCol (by decide) c1wFk (by decide)

/-! ## `sql/sqlGenerator.ts`: dependency-ordered table emission (claim C2) -/

/-- JS `Set.prototype.add`: append if absent (insertion order kept). -/
def sAdd (s : List Str) (x : Str) : List Str :=
  if x ∈ s then s else s ++ [x]

/-- `mget` with a default value. -/
def mgetD {β : Type} (m : MapS β) (k : Str) (dflt : β) : β :=
  match mget m k with
  | some v => v
  | none => dflt

/-- The `tableMap` of `topologicalSort`: last table wins per name, keys in
first-occurrence order. -/
def tableMapOf (tables : List MpdTable) : MapS MpdTable :=
  tables.foldl (fun m t => mset m t.name t) []

/-- One dependency-graph edge step: add `col.foreignKey.referencedTable`
to the dependency set of the table named `tn`, unless it is a
self-reference or refers to an absent table. -/
def edgeStep (tableMap : MapS MpdTable) (tn : Str) (m : MapS (List Str))
    (c : MpdColumn) : MapS (List Str) :=
  match c.foreignKey with
  | none => m
  | some fk =>
    if fk.referencedTable ≠ tn && mhas tableMap fk.referencedTable then
      mset m tn (sAdd (mgetD m tn []) fk.referencedTable)
    else m

/-- The dependency sets of `topologicalSort`: per table name, the set of
other table names it references through a foreign key (self-references
and references to absent tables excluded). -/
def depsOf (tables : List MpdTable) : MapS (List Str) :=
  let tableMap := tableMapOf tables
  let deps0 := tables.foldl (fun m t => mset m t.name []) []
  tables.foldl (fun m t => t.columns.foldl (edgeStep tableMap t.name) m) deps0

/-- The name-level loop of `topologicalSort` (Kahn's algorithm with a
permissive flush of the remaining names when no table is ready). The fuel
argument only bounds the recursion; with fuel ≥ `remaining.length` it is
never exhausted, since every productive round removes at least one name. -/
def topoLoop (deps : MapS (List Str)) : Nat → List Str → List Str → List Str
  | 0, remaining, _ => remaining
  | fuel + 1, remaining, visited =>
    match remaining with
    | [] => []
    | _ :: _ =>
      let ready := remaining.filter
        (fun n => ((mgetD deps n []).filter (fun x => !visited.contains x)).isEmpty)
      if ready.isEmpty then remaining
      else ready ++ topoLoop deps fuel
        (remaining.filter (fun n => !ready.contains n)) (visited ++ ready)

/-- `topologicalSort`: emit tables so that referenced tables come first,
flushing all remaining tables in current order when a cycle blocks
progress. -/
def topologicalSort (tables : List MpdTable) : List MpdTable :=
  let tableMap := tableMapOf tables
  let names := mdom tableMap
  (topoLoop (depsOf tables) names.length names []).filterMap
    (fun n => mget tableMap n)

/-- The table names a table references through its foreign keys. -/
def refTables (t : MpdTable) : List Str :=
  t.columns.filterMap (fun c => c.foreignKey.map (fun fk => fk.referencedTable))

theorem mem_sAdd {s : List Str} {x y : Str} : x ∈ sAdd s y ↔ x ∈ s ∨ x = y := by
  unfold sAdd
  by_cases h : y ∈ s
  · rw [if_pos h]
    constructor
    · exact Or.inl
    · rintro (hx | rfl)
      · exact hx
      · exact h
  · rw [if_neg h]
    simp [List.mem_append]

theorem mem_foldl_sAdd {l s : List Str} {x : Str} :
    x ∈ l.foldl sAdd s ↔ x ∈ s ∨ x ∈ l := by
  induction l generalizing s with
  | nil => simp
  | cons a t ih =>
    rw [List.foldl_cons, ih, mem_sAdd, List.mem_cons]
    tauto

theorem mhas_iff_mem_mdom {β : Type} {m : MapS β} {k : Str} :
    mhas m k = true ↔ k ∈ mdom m := by
  unfold mhas
  constructor
  · intro h
    cases hg : mget m k with
    | none => rw [hg] at h; simp at h
    | some v => exact mem_mdom_of_mget hg
  · intro h
    exact mget_isSome_of_mem_mdom h

theorem tableFold_stable (ts : List MpdTable) (m0 : MapS MpdTable) {k : Str}
    (hk : k ∉ ts.map MpdTable.name) :
    mget (ts.foldl (fun m t => mset m t.name t) m0) k = mget m0 k := by
  induction ts generalizing m0 with
  | nil => rfl
  | cons t ts ih =>
    simp only [List.map_cons, List.mem_cons] at hk
    push_neg at hk
    rw [List.foldl_cons, ih _ hk.2, mget_mset_of_ne _ _ hk.1]

theorem mget_tableMapOf {tables : List MpdTable}
    (hnodup : (tables.map MpdTable.name).Nodup) {t : MpdTable} (ht : t ∈ tables) :
    mget (tableMapOf tables) t.name = some t := by
  obtain ⟨l1, l2, hsplit⟩ := List.append_of_mem ht
  have hmap : tables.map MpdTable.name
      = l1.map MpdTable.name ++ t.name :: l2.map MpdTable.name := by
    rw [hsplit]; simp
  have h2 : t.name ∉ l2.map MpdTable.name := by
    have h := hmap ▸ hnodup
    have h' := List.nodup_middle.mp h
    exact fun hm => (List.nodup_cons.mp h').1 (List.mem_append.mpr (Or.inr hm))
  unfold tableMapOf
  rw [hsplit, List.foldl_append, List.foldl_cons, tableFold_stable _ _ h2,
    mget_mset_self]

theorem tableFold_mget_inv (ts : List MpdTable) (m0 : MapS MpdTable)
    {k : Str} {v : MpdTable}
    (h : mget (ts.foldl (fun m t => mset m t.name t) m0) k = some v) :
    mget m0 k = some v ∨ (v ∈ ts ∧ v.name = k) := by
  induction ts generalizing m0 with
  | nil => exact Or.inl h
  | cons t ts ih =>
    rcases ih _ h with h1 | h1
    · by_cases hk : k = t.name
      · subst hk
        rw [mget_mset_self] at h1
        obtain rfl := Option.some.inj h1
        exact Or.inr ⟨List.mem_cons_self _ _, rfl⟩
      · rw [mget_mset_of_ne _ _ hk] at h1
        exact Or.inl h1
    · exact Or.inr ⟨List.mem_cons_of_mem _ h1.1, h1.2⟩

theorem mget_tableMapOf_inv {tables : List MpdTable} {k : Str} {v : MpdTable}
    (h : mget (tableMapOf tables) k = some v) : v ∈ tables ∧ v.name = k := by
  rcases tableFold_mget_inv tables [] h with h1 | h1
  · cases h1
  · exact h1

theorem mdom_mset_of_not_mem {β : Type} (m : MapS β) {k : Str} (v : β)
    (h : k ∉ mdom m) : mdom (mset m k v) = mdom m ++ [k] := by
  induction m with
  | nil => rfl
  | cons hd tl ih =>
    obtain ⟨k0, v0⟩ := hd
    simp only [mdom, List.map_cons, List.mem_cons] at h
    push_neg at h
    have hk0 : ¬ (k0 = k) := fun hh => h.1 hh.symm
    simp only [mset, if_neg hk0, mdom, List.map_cons]
    have hih : List.map Prod.fst (mset tl k v) = List.map Prod.fst tl ++ [k] := ih h.2
    rw [hih]
    rfl

theorem tableFold_mdom (ts : List MpdTable) (m0 : MapS MpdTable)
    (hnodup : (ts.map MpdTable.name).Nodup)
    (hdisj : ∀ n ∈ ts.map MpdTable.name, n ∉ mdom m0) :
    mdom (ts.foldl (fun m t => mset m t.name t) m0) = mdom m0 ++ ts.map MpdTable.name := by
  induction ts generalizing m0 with
  | nil => simp
  | cons t ts ih =>
    rw [List.foldl_cons]
    have hn : t.name ∉ mdom m0 :=
      hdisj t.name (by simp)
    have hd1 : mdom (mset m0 t.name t) = mdom m0 ++ [t.name] :=
      mdom_mset_of_not_mem m0 t hn
    have hnodup' : (ts.map MpdTable.name).Nodup := (List.nodup_cons.mp (by simpa using hnodup)).2
    have hdisj' : ∀ n ∈ ts.map MpdTable.name, n ∉ mdom (mset m0 t.name t) := by
      intro n hnmem hmem
      rw [hd1] at hmem
      rcases List.mem_append.mp hmem with h1 | h1
      · exact hdisj n (by simp [hnmem]) h1
      · have : n = t.name := by simpa using h1
        exact (List.nodup_cons.mp (by simpa using hnodup)).1 (this ▸ hnmem)
    rw [ih _ hnodup' hdisj', hd1]
    simp

theorem mdom_tableMapOf {tables : List MpdTable}
    (hnodup : (tables.map MpdTable.name).Nodup) :
    mdom (tableMapOf tables) = tables.map MpdTable.name := by
  unfold tableMapOf
  rw [tableFold_mdom tables [] hnodup (fun n _ h => by cases h)]
  rfl

theorem depsInit_stable (ts : List MpdTable) (m0 : MapS (List Str)) {k : Str}
    (hk : k ∉ ts.map MpdTable.name) :
    mget (ts.foldl (fun m t => mset m t.name []) m0) k = mget m0 k := by
  induction ts generalizing m0 with
  | nil => rfl
  | cons t ts ih =>
    simp only [List.map_cons, List.mem_cons] at hk
    push_neg at hk
    rw [List.foldl_cons, ih _ hk.2, mget_mset_of_ne _ _ hk.1]

theorem mget_depsInit {tables : List MpdTable}
    (hnodup : (tables.map MpdTable.name).Nodup) {t : MpdTable} (ht : t ∈ tables) :
    mget (tables.foldl (fun m t => mset m t.name ([] : List Str)) []) t.name
      = some ([] : List Str) := by
  obtain ⟨l1, l2, hsplit⟩ := List.append_of_mem ht
  have hmap : tables.map MpdTable.name
      = l1.map MpdTable.name ++ t.name :: l2.map MpdTable.name := by
    rw [hsplit]; simp
  have h2 : t.name ∉ l2.map MpdTable.name := by
    have h := hmap ▸ hnodup
    have h' := List.nodup_middle.mp h
    exact fun hm => (List.nodup_cons.mp h').1 (List.mem_append.mpr (Or.inr hm))
  rw [hsplit, List.foldl_append, List.foldl_cons, depsInit_stable _ _ h2,
    mget_mset_self]

/-- References of a column list that survive the edge filter. -/
def eligRefs (tm : MapS MpdTable) (tn : Str) (cols : List MpdColumn) : List Str :=
  (cols.filterMap (fun c => c.foreignKey.map (fun fk => fk.referencedTable))).filter
    (fun r => r ≠ tn && mhas tm r)

theorem edgeStep_mget_ne (tm : MapS MpdTable) (tn : Str) (m : MapS (List Str))
    (c : MpdColumn) {k : Str} (hk : k ≠ tn) :
    mget (edgeStep tm tn m c) k = mget m k := by
  cases hfk : c.foreignKey with
  | none => simp only [edgeStep, hfk]
  | some fk =>
    simp only [edgeStep, hfk]
    by_cases h : (decide (fk.referencedTable ≠ tn) && mhas tm fk.referencedTable) = true
    · rw [if_pos h, mget_mset_of_ne _ _ hk]
    · rw [if_neg h]

theorem edgeFold_stable (tm : MapS MpdTable) (tn : Str) (cols : List MpdColumn)
    (m0 : MapS (List Str)) {k : Str} (hk : k ≠ tn) :
    mget (cols.foldl (edgeStep tm tn) m0) k = mget m0 k := by
  induction cols generalizing m0 with
  | nil => rfl
  | cons c cols ih => rw [List.foldl_cons, ih, edgeStep_mget_ne _ _ _ _ hk]

theorem edgeFold_value (tm : MapS MpdTable) (tn : Str) (cols : List MpdColumn)
    (m0 : MapS (List Str)) {v : List Str} (h : mget m0 tn = some v) :
    mget (cols.foldl (edgeStep tm tn) m0) tn
      = some ((eligRefs tm tn cols).foldl sAdd v) := by
  induction cols generalizing m0 v with
  | nil => simpa [eligRefs] using h
  | cons c cols ih =>
    rw [List.foldl_cons]
    cases hfk : c.foreignKey with
    | none =>
      have hstep : edgeStep tm tn m0 c = m0 := by simp only [edgeStep, hfk]
      have helig : eligRefs tm tn (c :: cols) = eligRefs tm tn cols := by
        simp [eligRefs, List.filterMap_cons, hfk]
      rw [hstep, ih _ h, helig]
    | some fk =>
      by_cases hc : (decide (fk.referencedTable ≠ tn) && mhas tm fk.referencedTable) = true
      · have hstep : edgeStep tm tn m0 c
            = mset m0 tn (sAdd (mgetD m0 tn []) fk.referencedTable) := by
          simp only [edgeStep, hfk, if_pos hc]
        have helig : eligRefs tm tn (c :: cols)
            = fk.referencedTable :: eligRefs tm tn cols := by
          simp only [eligRefs, List.filterMap_cons, hfk, List.filter_cons]
          simp only [Option.map]
          rw [List.filter_cons, if_pos hc]
        have hgd : mgetD m0 tn [] = v := by unfold mgetD; rw [h]
        rw [hstep, hgd, ih _ (mget_mset_self m0 tn (sAdd v fk.referencedTable)),
          helig, List.foldl_cons]
      · have hstep : edgeStep tm tn m0 c = m0 := by
          simp only [edgeStep, hfk, if_neg hc]
        have helig : eligRefs tm tn (c :: cols) = eligRefs tm tn cols := by
          simp only [eligRefs, List.filterMap_cons, hfk, List.filter_cons]
          simp only [Option.map]
          rw [List.filter_cons, if_neg hc]
        rw [hstep, ih _ h, helig]

theorem depsOuter_stable (tm : MapS MpdTable) (ts : List MpdTable)
    (m0 : MapS (List Str)) {k : Str} (hk : k ∉ ts.map MpdTable.name) :
    mget (ts.foldl (fun m t => t.columns.foldl (edgeStep tm t.name) m) m0) k
      = mget m0 k := by
  induction ts generalizing m0 with
  | nil => rfl
  | cons t ts ih =>
    simp only [List.map_cons, List.mem_cons] at hk
    push_neg at hk
    rw [List.foldl_cons, ih _ hk.2, edgeFold_stable _ _ _ _ hk.1]

/-- The dependency set recorded for a table of a duplicate-free model. -/
theorem mget_depsOf {tables : List MpdTable}
    (hnodup : (tables.map MpdTable.name).Nodup) {t : MpdTable} (ht : t ∈ tables) :
    mget (depsOf tables) t.name
      = some ((eligRefs (tableMapOf tables) t.name t.columns).foldl sAdd []) := by
  obtain ⟨l1, l2, hsplit⟩ := List.append_of_mem ht
  have hmap : tables.map MpdTable.name
      = l1.map MpdTable.name ++ t.name :: l2.map MpdTable.name := by
    rw [hsplit]; simp
  have hnd : t.name ∉ l1.map MpdTable.name ∧ t.name ∉ l2.map MpdTable.name := by
    have h := hmap ▸ hnodup
    have h' := List.nodup_middle.mp h
    have hc := List.nodup_cons.mp h'
    exact ⟨fun hm => hc.1 (List.mem_append.mpr (Or.inl hm)),
           fun hm => hc.1 (List.mem_append.mpr (Or.inr hm))⟩
  unfold depsOf
  rw [show tables.foldl (fun m t => t.columns.foldl (edgeStep (tableMapOf tables) t.name) m)
        (tables.foldl (fun m t => mset m t.name []) [])
      = (l1 ++ t :: l2).foldl (fun m t => t.columns.foldl (edgeStep (tableMapOf tables) t.name) m)
        (tables.foldl (fun m t => mset m t.name []) []) from by rw [← hsplit]]
  rw [List.foldl_append, List.foldl_cons, depsOuter_stable _ _ _ hnd.2]
  apply edgeFold_value
  rw [depsOuter_stable _ _ _ hnd.1]
  exact mget_depsInit hnodup ht

/-- Membership in a table's dependency set, for a duplicate-free model:
exactly the foreign-key references to other, existing tables. -/
theorem mem_depsOf {tables : List MpdTable}
    (hnodup : (tables.map MpdTable.name).Nodup) {t : MpdTable} (ht : t ∈ tables)
    (d : Str) :
    d ∈ mgetD (depsOf tables) t.name []
      ↔ d ∈ refTables t ∧ d ≠ t.name ∧ d ∈ tables.map MpdTable.name := by
  rw [show mgetD (depsOf tables) t.name []
      = (eligRefs (tableMapOf tables) t.name t.columns).foldl sAdd [] from by
    unfold mgetD; rw [mget_depsOf hnodup ht]]
  rw [mem_foldl_sAdd]
  simp only [List.not_mem_nil, false_or]
  unfold eligRefs refTables
  rw [List.mem_filter]
  constructor
  · rintro ⟨hmem, hcond⟩
    have hcond' := Bool.and_eq_true_iff.mp hcond
    refine ⟨hmem, by simpa using hcond'.1, ?_⟩
    have := mhas_iff_mem_mdom.mp hcond'.2
    rwa [mdom_tableMapOf hnodup] at this
  · rintro ⟨hmem, hne, hex⟩
    refine ⟨hmem, Bool.and_eq_true_iff.mpr ⟨by simpa using hne, ?_⟩⟩
    rw [mhas_iff_mem_mdom, mdom_tableMapOf hnodup]
    exact hex

/-- Default table used when converting names back to tables. -/
def defaultTable : MpdTable := { name := [], columns := [] }

/-- Table lookup with default. -/
def getTab (tm : MapS MpdTable) (n : Str) : MpdTable := mgetD tm n defaultTable

theorem filterMap_mget_eq_map (tm : MapS MpdTable) (l : List Str)
    (h : ∀ x ∈ l, (mget tm x).isSome) :
    l.filterMap (fun n => mget tm n) = l.map (getTab tm) := by
  induction l with
  | nil => rfl
  | cons a t ih =>
    rw [List.filterMap_cons, List.map_cons]
    cases hg : mget tm a with
    | none =>
      have := h a (List.mem_cons_self _ _)
      rw [hg] at this
      simp at this
    | some v =>
      rw [ih (fun x hx => h x (List.mem_cons_of_mem _ hx))]
      have hgt : getTab tm a = v := by unfold getTab mgetD; rw [hg]
      rw [hgt]

/-- Behaviour of the name-level loop: it permutes the remaining names, and
splits into a prefix whose dependency sets are fully among the already
visited/emitted names, followed by a flushed suffix kept in its current
order. -/
theorem topoLoop_spec (deps : MapS (List Str)) (fuel : Nat) :
    ∀ (rem vis : List Str), rem.length ≤ fuel →
    (topoLoop deps fuel rem vis).Perm rem ∧
    ∃ k, k ≤ (topoLoop deps fuel rem vis).length ∧
      (∀ i, i < k →
        ∀ d ∈ mgetD deps ((topoLoop deps fuel rem vis).getD i []) [],
          d ∈ vis ++ (topoLoop deps fuel rem vis).take i) ∧
      ((topoLoop deps fuel rem vis).drop k).Sublist rem := by
  induction fuel with
  | zero =>
    intro rem vis hlen
    have hnil : rem = [] := List.eq_nil_of_length_eq_zero (Nat.le_zero.mp hlen)
    subst hnil
    exact ⟨List.Perm.refl _, 0, Nat.zero_le _,
      fun i hi => absurd hi (Nat.not_lt_zero i), List.Sublist.refl _⟩
  | succ fuel ih =>
    intro rem vis hlen
    match rem with
    | [] =>
      exact ⟨List.Perm.refl _, 0, Nat.zero_le _,
        fun i hi => absurd hi (Nat.not_lt_zero i), List.Sublist.refl _⟩
    | a :: r =>
      set P : Str → Bool :=
        fun n => ((mgetD deps n []).filter (fun x => !(List.contains vis x))).isEmpty
        with hP
      set ready : List Str := (a :: r).filter P with hready
      have hstep : topoLoop deps (fuel + 1) (a :: r) vis
          = if ready.isEmpty then (a :: r)
            else ready ++ topoLoop deps fuel
              ((a :: r).filter (fun n => !(ready.contains n))) (vis ++ ready) := rfl
      by_cases hemp : ready.isEmpty
      · rw [hstep, if_pos hemp]
        exact ⟨List.Perm.refl _, 0, Nat.zero_le _,
          fun i hi => absurd hi (Nat.not_lt_zero i), List.Sublist.refl _⟩
      · rw [hstep, if_neg hemp]
        set rem' : List Str := (a :: r).filter (fun n => !(ready.contains n)) with hrem'
        have hne : ready ≠ [] := by
          intro h0
          rw [h0] at hemp
          exact hemp rfl
        obtain ⟨x, hx⟩ := List.exists_mem_of_ne_nil ready hne
        have hlen' : rem'.length ≤ fuel := by
          have hlt : rem'.length < (a :: r).length := by
            apply List.length_filter_lt_length_iff_exists.mpr
            refine ⟨x, List.mem_of_mem_filter (p := P) hx, ?_⟩
            have hc : ready.contains x = true := List.elem_iff.mpr hx
            simp [hc, hx]
          omega
        obtain ⟨ihperm, k', hk'le, ihgood, ihsub⟩ := ih rem' (vis ++ ready) hlen'
        set rec : List Str := topoLoop deps fuel rem' (vis ++ ready) with hrec
        have hcongr : rem' = (a :: r).filter (fun n => !(P n)) := by
          apply List.filter_congr
          intro y hy
          congr 1
          cases hPy : P y with
          | true =>
            have : y ∈ ready := hready ▸ List.mem_filter.mpr ⟨hy, hPy⟩
            exact List.elem_iff.mpr this
          | false =>
            cases hc : ready.contains y with
            | false => rfl
            | true =>
              have : y ∈ ready := List.elem_iff.mp hc
              rw [hready] at this
              have := (List.mem_filter.mp this).2
              rw [hPy] at this
              cases this
        have hperm : (ready ++ rec).Perm (a :: r) := by
          refine (List.Perm.append_left ready ihperm).trans ?_
          rw [hcongr, hready]
          exact List.filter_append_perm P (a :: r)
        refine ⟨hperm, ready.length + k', ?_, ?_, ?_⟩
        · rw [List.length_append]
          omega
        · intro i hik d hd
          by_cases hi : i < ready.length
          · have hgetD : (ready ++ rec).getD i [] = ready.getD i [] :=
              List.getD_append ready rec [] i hi
            have hmem : ready.getD i [] ∈ ready := by
              rw [List.getD_eq_getElem ready [] hi]
              exact List.getElem_mem hi
            have hPn := (List.mem_filter.mp (hready ▸ hmem)).2
            rw [hgetD] at hd
            have hfempty : (mgetD deps (ready.getD i [] ) []).filter
                (fun z => !(List.contains vis z)) = [] := by
              rw [hP] at hPn
              exact List.isEmpty_iff.mp hPn
            have hdin : d ∈ vis := by
              cases hc : List.contains vis d with
              | true => exact List.elem_iff.mp hc
              | false =>
                have : d ∈ (mgetD deps (ready.getD i []) []).filter
                    (fun z => !(List.contains vis z)) :=
                  List.mem_filter.mpr ⟨hd, by rw [hc]; rfl⟩
                rw [hfempty] at this
                cases this
            exact List.mem_append.mpr (Or.inl hdin)
          · push_neg at hi
            set j := i - ready.length with hj
            have hij : i = ready.length + j := by omega
            have hjk : j < k' := by omega
            have hgetD : (ready ++ rec).getD i [] = rec.getD j [] := by
              rw [List.getD_append_right ready rec [] i hi, hj]
            rw [hgetD] at hd
            have hthis := ihgood j hjk d hd
            rw [List.append_assoc] at hthis
            rw [hij, List.take_append j]
            exact hthis
        · rw [List.drop_append k']
          refine ihsub.trans ?_
          rw [hrem']
          exact List.filter_sublist _

/-- Two distinct tables sharing the name `A`. -/
def c2ceT1 : MpdTable := { name := "A".data, columns := [] }

/-- Second table named `A`, with one column. -/
def c2ceT2 : MpdTable :=
  { name := "A".data,
    columns := [{ name := "x".data, sqlType := "INT".data, isPrimaryKey := false,
                  constraints := [] }] }

/-- Claim C2 fails as stated: with two tables sharing a name, the
name-keyed table map collapses them and the sort does not output every
table of the model exactly once (the first `A` is dropped). -/
theorem c2_claim_counterexample :
    c2ceT1 ∈ [c2ceT1, c2ceT2]
      ∧ (topologicalSort [c2ceT1, c2ceT2]).count c2ceT1 = 0 := by
  decide

/-- C2 (amended): for every physical model *with pairwise-distinct table
names*, `topologicalSort` (the table emission order of `generateSql`)
terminates with an output that is a permutation of the input tables
(every table exactly once), and splits into a prefix in which every table
appears only after all the distinct existing tables it foreign-key
references, followed by a flushed suffix (the cyclic remainder) kept in
its original relative order. -/
theorem c2_topological_order (tables : List MpdTable)
    (hnodup : (tables.map MpdTable.name).Nodup) :
    (topologicalSort tables).Perm tables ∧
    ∃ k, k ≤ (topologicalSort tables).length ∧
      (∀ i, i < k → ∀ hi : i < (topologicalSort tables).length,
        ∀ d ∈ refTables ((topologicalSort tables).get ⟨i, hi⟩),
          d ≠ ((topologicalSort tables).get ⟨i, hi⟩).name →
          d ∈ tables.map MpdTable.name →
          d ∈ (((topologicalSort tables).take i).map MpdTable.name)) ∧
      ((topologicalSort tables).drop k).Sublist tables := by
  obtain ⟨hperm, k, hkle, hgood, hsub⟩ :=
    topoLoop_spec (depsOf tables) (mdom (tableMapOf tables)).length
      (mdom (tableMapOf tables)) [] (Nat.le_refl _)
  set tm := tableMapOf tables with htm
  set loopOut := topoLoop (depsOf tables) (mdom tm).length (mdom tm) [] with hloop
  have hnames : mdom tm = tables.map MpdTable.name := mdom_tableMapOf hnodup
  have hall : ∀ x ∈ loopOut, (mget tm x).isSome := fun x hx =>
    mget_isSome_of_mem_mdom (hperm.mem_iff.mp hx)
  have hout : topologicalSort tables = loopOut.map (getTab tm) := by
    show loopOut.filterMap (fun n => mget tm n) = loopOut.map (getTab tm)
    exact filterMap_mget_eq_map tm loopOut hall
  have hgt : ∀ x ∈ loopOut, (getTab tm x) ∈ tables ∧ (getTab tm x).name = x := by
    intro x hx
    cases hg : mget tm x with
    | none =>
      have hs := hall x hx
      rw [hg] at hs
      simp at hs
    | some v =>
      have hinv := mget_tableMapOf_inv (show mget (tableMapOf tables) x = some v from htm ▸ hg)
      have hgx : getTab tm x = v := by unfold getTab mgetD; rw [hg]
      rw [hgx]
      exact hinv
  have hmapnames : (mdom tm).map (getTab tm) = tables := by
    rw [hnames, List.map_map]
    have hcongr : ∀ t ∈ tables, (getTab tm ∘ MpdTable.name) t = id t := by
      intro t ht
      show getTab tm t.name = t
      have hmg := mget_tableMapOf hnodup ht
      unfold getTab mgetD
      rw [htm, hmg]
    rw [List.map_congr_left hcongr, List.map_id]
  constructor
  · rw [hout]
    have h := hperm.map (getTab tm)
    rw [hmapnames] at h
    exact h
  · refine ⟨k, ?_, ?_, ?_⟩
    · rw [hout, List.length_map]
      exact hkle
    · intro i hik hi d hd hne hex
      have hi' : i < loopOut.length := by
        rw [hout, List.length_map] at hi
        exact hi
      have hgetTi : (topologicalSort tables).get ⟨i, hi⟩
          = getTab tm (loopOut.get ⟨i, hi'⟩) := by
        simp only [List.get_eq_getElem, hout, List.getElem_map]
      obtain ⟨hTmem, hTname⟩ := hgt (loopOut.get ⟨i, hi'⟩) (List.get_mem loopOut i hi')
      have hdep : d ∈ mgetD (depsOf tables) (loopOut.get ⟨i, hi'⟩) [] := by
        have h1 : d ∈ mgetD (depsOf tables) (getTab tm (loopOut.get ⟨i, hi'⟩)).name [] := by
          apply (mem_depsOf hnodup hTmem d).mpr
          exact ⟨by rw [← hgetTi]; exact hd, by rw [← hgetTi]; exact hne, hex⟩
        rw [hTname] at h1
        exact h1
      have hd2 := hgood i hik d (by
        rw [List.getD_eq_getElem loopOut [] hi']
        exact hdep)
      rw [List.nil_append] at hd2
      rw [hout, ← List.map_take, List.map_map]
      have hcongr2 : ∀ x ∈ loopOut.take i, (MpdTable.name ∘ getTab tm) x = id x :=
        fun x hx => (hgt x (List.mem_of_mem_take hx)).2
      rw [List.map_congr_left hcongr2, List.map_id]
      exact hd2
    · rw [hout, ← List.map_drop]
      have hs := hsub.map (getTab tm)
      rw [hmapnames] at hs
      exact hs

/-- Concrete referenced table for the C2 witness. -/
def c2wA : MpdTable :=
  { name := "A".data,
    columns := [{ name := "id_a".data, sqlType := "INT".data, isPrimaryKey := true,
                  constraints := [] }] }

/-- Concrete referencing table for the C2 witness. -/
def c2wB : MpdTable :=
  { name := "B".data,
    columns := [{ name := "id_a".data, sqlType := "INT".data, isPrimaryKey := false,
                  foreignKey := some { columnName := "id_a".data,
                                       referencedTable := "A".data,
                                       referencedColumn := "id_a".data },
                  constraints := [] }] }

/-- Witness for `c2_topological_order` at a concrete two-table model. -/
theorem c2_topological_order_witness :
    (topologicalSort [c2wB, c2wA]).Perm [c2wB, c2wA] ∧
    ∃ k, k ≤ (topologicalSort [c2wB, c2wA]).length ∧
      (∀ i, i < k → ∀ hi : i < (topologicalSort [c2wB, c2wA]).length,
        ∀ d ∈ refTables ((topologicalSort [c2wB, c2wA]).get ⟨i, hi⟩),
          d ≠ ((topologicalSort [c2wB, c2wA]).get ⟨i, hi⟩).name →
          d ∈ [c2wB, c2wA].map MpdTable.name →
          d ∈ (((topologicalSort [c2wB, c2wA]).take i).map MpdTable.name)) ∧
      ((topologicalSort [c2wB, c2wA]).drop k).Sublist [c2wB, c2wA] :=
  c2_topological_order [c2wB, c2wA] (by decide)

/-! ## `converter/mcdToMld.ts` -/

/-- `cardinality` is a "many" side (`0,n` or `1,n`). -/
def isManyCard : Cardinality → Bool
  | .c0n => true
  | .c1n => true
  | _ => false

/-- `cardinality` is a "one" side (`0,1` or `1,1`). -/
def isOneCard : Cardinality → Bool
  | .c01 => true
  | .c11 => true
  | _ => false

/-- `getPrimaryKey`: name of the first primary-key attribute. -/
def getPrimaryKey (e : Option McdEntity) : Option Str :=
  match e with
  | none => none
  | some entity =>
    (entity.attributes.find? (fun a => a.isPrimaryKey)).map (fun a => a.name)

/-- The entity index built at the start of `convertMcdToMld`. -/
def entityMapOf (entities : List McdEntity) : MapS McdEntity :=
  entities.foldl (fun m e => mset m e.name e) []

/-- `makePairKey`: canonical key of an unordered entity pair
(`[a,b].sort().join('|')`). -/
def makePairKey (a b : Str) : Str :=
  if sLt b a then b ++ '|' :: a else a ++ '|' :: b

/-- `buildPairCount`: number of binary relations per unordered entity
pair. -/
def buildPairCount (relations : List McdRelation) : MapS Nat :=
  relations.foldl (fun counts rel =>
    match rel.participants with
    | [p1, p2] =>
      let pair := makePairKey p1.entityName p2.entityName
      mset counts pair (mgetD counts pair 0 + 1)
    | _ => counts) []

/-- `isMultipleRelation`: the relation's entity pair carries more than one
relation. -/
def isMultipleRelation (rel : McdRelation) (pairCount : MapS Nat) : Bool :=
  match rel.participants with
  | [p1, p2] => mgetD pairCount (makePairKey p1.entityName p2.entityName) 0 > 1
  | _ => false

/-- In-place mutation of the first table satisfying a predicate,
translated functionally (`mld.tables.find(...)` followed by mutation). -/
def updateFirstTable (tables : List MldTable) (p : MldTable → Bool)
    (f : MldTable → MldTable) : List MldTable :=
  match tables with
  | [] => []
  | t :: rest => if p t then f t :: rest else t :: updateFirstTable rest p f

/-- `addForeignKey`: append an FK column named after the target's primary
key (suffixed by the relation role when given) to the source table,
unless a same-named column already exists. -/
def addForeignKey (mld : MldModel) (sourceTableName targetTableName : Str)
    (entityMap : MapS McdEntity) (roleName : Option Str) : MldModel :=
  match mld.tables.find? (fun t => decide (t.name = sourceTableName)),
        mget entityMap targetTableName with
  | some sourceTable, some targetEntity =>
    match getPrimaryKey (some targetEntity) with
    | none => mld
    | some targetPk =>
      let fkColName :=
        match roleName with
        | some r => targetPk ++ '_' :: r
        | none => targetPk
      if (sourceTable.columns.find? (fun c => decide (c.name = fkColName))).isSome then
        mld
      else
        { tables := updateFirstTable mld.tables
            (fun t => decide (t.name = sourceTableName))
            (fun t => { t with columns := t.columns ++
              [{ name := fkColName, isPrimaryKey := false,
                 foreignKey := some { columnName := fkColName,
                                      referencedTable := targetTableName,
                                      referencedColumn := targetPk } }] }) }
  | _, _ => mld

/-- `addRelationAttributes`: append the relation's carried attributes to a
table as plain columns, skipping names already present. -/
def addRelationAttributes (mld : MldModel) (tableName : Str)
    (rel : McdRelation) : MldModel :=
  { tables := updateFirstTable mld.tables (fun t => decide (t.name = tableName))
      (fun t => { t with columns := rel.attributes.foldl (fun cols attr =>
          if (cols.find? (fun c => decide (c.name = attr.name))).isSome then cols
          else cols ++ [{ name := attr.name, isPrimaryKey := false,
                          foreignKey := none }]) t.columns }) }

/-- `createAssociativeTable`: new table named after the relation, one
PK+FK column per participant (suffixed with the lower-cased entity name
when several participants share a primary-key name) plus the relation's
own attributes as plain columns. -/
def createAssociativeTable (rel : McdRelation) (mld : MldModel)
    (entityMap : MapS McdEntity) : MldModel :=
  let pkNames : MapS (List Str) := rel.participants.foldl (fun m p =>
    match getPrimaryKey (mget entityMap p.entityName) with
    | none => m
    | some pk => mset m pk (mgetD m pk [] ++ [p.entityName])) []
  let fkCols : List MldColumn := rel.participants.foldl (fun cols p =>
    match getPrimaryKey (mget entityMap p.entityName) with
    | none => cols
    | some pk =>
      let hasConflict := (mgetD pkNames pk []).length > 1
      let fkColName := if hasConflict then pk ++ '_' :: sLower p.entityName else pk
      cols ++ [{ name := fkColName, isPrimaryKey := true,
                 foreignKey := some { columnName := fkColName,
                                      referencedTable := p.entityName,
                                      referencedColumn := pk } }]) []
  let allCols := fkCols ++ rel.attributes.map (fun attr =>
    { name := attr.name, isPrimaryKey := false, foreignKey := none })
  { tables := mld.tables ++ [{ name := rel.name, columns := allCols }] }

/-- `handleBinaryRelation`: place the FK according to the cardinalities,
or fall through to an associative table for many-to-many. (Only ever
called with exactly two participants.) -/
def handleBinaryRelation (rel : McdRelation) (mld : MldModel)
    (entityMap : MapS McdEntity) (pairCount : MapS Nat) : MldModel :=
  match rel.participants with
  | [p1, p2] =>
    let role := if isMultipleRelation rel pairCount then some rel.name else none
    if isOneCard p1.cardinality && isManyCard p2.cardinality then
      addRelationAttributes
        (addForeignKey mld p1.entityName p2.entityName entityMap role)
        p1.entityName rel
    else if isManyCard p1.cardinality && isOneCard p2.cardinality then
      addRelationAttributes
        (addForeignKey mld p2.entityName p1.entityName entityMap role)
        p2.entityName rel
    else if isOneCard p1.cardinality && isOneCard p2.cardinality then
      if p1.cardinality = .c11 then
        addRelationAttributes
          (addForeignKey mld p1.entityName p2.entityName entityMap role)
          p1.entityName rel
      else
        addRelationAttributes
          (addForeignKey mld p2.entityName p1.entityName entityMap role)
          p2.entityName rel
    else
      createAssociativeTable rel mld entityMap
  | _ => mld

/-- `handleNaryRelation`. -/
def handleNaryRelation (rel : McdRelation) (mld : MldModel)
    (entityMap : MapS McdEntity) : MldModel :=
  createAssociativeTable rel mld entityMap

/-- Modify the table at a position. -/
def modifyTableAt (tables : List MldTable) (i : Nat)
    (f : MldTable → MldTable) : List MldTable :=
  match tables, i with
  | [], _ => []
  | t :: rest, 0 => f t :: rest
  | t :: rest, n + 1 => t :: modifyTableAt rest n f

/-- `handleInheritance`, `table_per_class` case for one child. -/
def tpcChild (parentName parentPk : Str) (childTable : MldTable) : MldTable :=
  if (childTable.columns.find? (fun c =>
      match c.foreignKey with
      | some fk => decide (fk.referencedTable = parentName)
      | none => false)).isSome then
    childTable
  else
    let cols1 : List MldColumn :=
      { name := parentPk, isPrimaryKey := true,
        foreignKey := some { columnName := parentPk,
                             referencedTable := parentName,
                             referencedColumn := parentPk } } :: childTable.columns
    if (cols1.filter (fun c => decide (c.name = parentPk))).length > 1 then
      match cols1.findIdx? (fun c => decide (c.name = parentPk) && c.foreignKey.isNone) with
      | some idx => { childTable with columns := cols1.eraseIdx idx }
      | none => { childTable with columns := cols1 }
    else
      { childTable with columns := cols1 }

/-- `handleInheritance`, `single_table` case: the parent table object is
bound once; its index is tracked so that attribute appends land nowhere
once the parent has been spliced out (mirroring the source's aliasing). -/
def singleTableStep (entityMap : MapS McdEntity)
    (st : List MldTable × Option Nat) (childName : Str) :
    List MldTable × Option Nat :=
  let tablesA :=
    match st.2, mget entityMap childName with
    | some pi, some childEntity =>
      modifyTableAt st.1 pi (fun pt =>
        { pt with columns := childEntity.attributes.foldl (fun cols attr =>
            if !attr.isPrimaryKey
                && !(cols.find? (fun c => decide (c.name = attr.name))).isSome then
              cols ++ [{ name := attr.name, isPrimaryKey := false,
                         foreignKey := none }]
            else cols) pt.columns })
    | _, _ => st.1
  match tablesA.findIdx? (fun t => decide (t.name = childName)) with
  | none => (tablesA, st.2)
  | some ci =>
    (tablesA.eraseIdx ci,
     match st.2 with
     | none => none
     | some pi => if ci < pi then some (pi - 1) else if ci = pi then none else some pi)

/-- `handleInheritance`. -/
def handleInheritance (parentName : Str) (childNames : List Str)
    (strategy : InheritanceStrategy) (mld : MldModel)
    (entityMap : MapS McdEntity) : MldModel :=
  match getPrimaryKey (mget entityMap parentName) with
  | none => mld
  | some parentPk =>
    match strategy with
    | .table_per_class =>
      childNames.foldl (fun mld childName =>
        { tables := updateFirstTable mld.tables
            (fun t => decide (t.name = childName)) (tpcChild parentName parentPk) }) mld
    | .single_table =>
      match mld.tables.findIdx? (fun t => decide (t.name = parentName)) with
      | none => mld
      | some pIdx0 =>
        let tables1 := modifyTableAt mld.tables pIdx0 (fun pt =>
          if (pt.columns.find? (fun c =>
              decide (c.name = "type_discriminator".data))).isSome then pt
          else { pt with columns := pt.columns ++
            [{ name := "type_discriminator".data, isPrimaryKey := false,
               foreignKey := none }] })
        let final := childNames.foldl (singleTableStep entityMap) (tables1, some pIdx0)
        { tables := final.1 }
    | .table_per_subclass =>
      match mget entityMap parentName with
      | none => mld
      | some parentEntity =>
        let mld1 : MldModel := childNames.foldl (fun mld childName =>
          { tables := updateFirstTable mld.tables
              (fun t => decide (t.name = childName))
              (fun childTable =>
                { childTable with columns :=
                    (parentEntity.attributes.foldl (fun cols attr =>
                      if (cols.find? (fun c => decide (c.name = attr.name))).isSome then
                        cols
                      else
                        { name := attr.name, isPrimaryKey := attr.isPrimaryKey,
                          foreignKey := none } :: cols) childTable.columns) }) }) mld
        match mld1.tables.findIdx? (fun t => decide (t.name = parentName)) with
        | none => mld1
        | some i => { tables := mld1.tables.eraseIdx i }

/-- Associative-entity promotion step (`convertMcdToMld`, step 4). -/
def assocStep (mcd : McdModel) (entityMap : MapS McdEntity) (mld : MldModel)
    (assoc : McdAssociativeEntity) : MldModel :=
  match mcd.relations.find? (fun r => decide (r.name = assoc.relationName)) with
  | none => mld
  | some rel =>
    let appendAttrs := fun (cols : List MldColumn) =>
      assoc.attributes.foldl (fun cols attr =>
        if (cols.find? (fun c => decide (c.name = attr.name))).isSome then cols
        else cols ++ [{ name := attr.name, isPrimaryKey := attr.isPrimaryKey,
                        foreignKey := none }]) cols
    match mld.tables.find? (fun t =>
        decide (t.name = rel.name) || decide (t.name = assoc.name)) with
    | some _ =>
      { tables := updateFirstTable mld.tables
          (fun t => decide (t.name = rel.name) || decide (t.name = assoc.name))
          (fun t => { t with columns := appendAttrs t.columns }) }
    | none =>
      let fkCols : List MldColumn := rel.participants.foldl (fun cols p =>
        match getPrimaryKey (mget entityMap p.entityName) with
        | none => cols
        | some pk =>
          cols ++ [{ name := pk, isPrimaryKey := true,
                     foreignKey := some { columnName := pk,
                                          referencedTable := p.entityName,
                                          referencedColumn := pk } }]) []
      { tables := mld.tables ++ [{ name := assoc.name, columns := appendAttrs fkCols }] }

/-- Step 1 of `convertMcdToMld`: an entity becomes a table, derived
attributes dropped, primary-key flags preserved. -/
def entityTable (e : McdEntity) : MldTable :=
  { name := e.name,
    columns := (e.attributes.filter (fun a => !a.isDerived)).map (fun attr =>
      { name := attr.name, isPrimaryKey := attr.isPrimaryKey,
        foreignKey := none }) }

/-- `convertMcdToMld`: entities to tables, relations to FKs or associative
tables, inheritance flattening, associative-entity promotion. -/
def convertMcdToMld (mcd : McdModel)
    (inheritanceStrategy : InheritanceStrategy := .table_per_class) : MldModel :=
  let entityMap := entityMapOf mcd.entities
  let pairCount := buildPairCount mcd.relations
  let tables0 : List MldTable := mcd.entities.map entityTable
  let mld1 := mcd.relations.foldl (fun mld rel =>
    if rel.participants.length = 2 then
      handleBinaryRelation rel mld entityMap pairCount
    else
      handleNaryRelation rel mld entityMap) { tables := tables0 }
  let mld2 := mcd.inheritances.foldl (fun mld inh =>
    handleInheritance inh.parentEntity inh.childEntities
      (inh.strategy.getD inheritanceStrategy) mld entityMap) mld1
  mcd.associativeEntities.foldl (assocStep mcd entityMap) mld2

/-! ## Claim C4 -/

theorem isManyCard_eq_false_of_isOneCard {c : Cardinality}
    (h : isOneCard c = true) : isManyCard c = false := by
  cases c <;> simp [isOneCard, isManyCard] at *

theorem isOneCard_cases {c : Cardinality} (h : isOneCard c = true) :
    c = .c01 ∨ c = .c11 := by
  cases c with
  | c01 => exact Or.inl rfl
  | c11 => exact Or.inr rfl
  | c0n => exact absurd h (by simp [isOneCard])
  | c1n => exact absurd h (by simp [isOneCard])

theorem updateFirstTable_comp (ts : List MldTable) (p : MldTable → Bool)
    (f g : MldTable → MldTable) (hp : ∀ t, p t = true → p (f t) = true) :
    updateFirstTable (updateFirstTable ts p f) p g
      = updateFirstTable ts p (fun t => g (f t)) := by
  induction ts with
  | nil => rfl
  | cons t rest ih =>
    by_cases hpt : p t = true
    · simp only [updateFirstTable, if_pos hpt, if_pos (hp t hpt)]
    · have hpt' : ¬ p t = true := hpt
      simp only [updateFirstTable, if_neg hpt', ih]

theorem updateFirstTable_comp_cols (ts : List MldTable) (nm : Str)
    (F : MldTable → List MldColumn) (g : MldTable → MldTable) :
    updateFirstTable (updateFirstTable ts (fun t => decide (t.name = nm))
        (fun t => { t with columns := F t }))
        (fun t => decide (t.name = nm)) g
      = updateFirstTable ts (fun t => decide (t.name = nm))
          (fun t => g { t with columns := F t }) := by
  apply updateFirstTable_comp
  intro t ht
  exact ht

theorem updateFirstTable_congr (ts : List MldTable) (p : MldTable → Bool)
    (f g : MldTable → MldTable) {srcT : MldTable}
    (hfind : ts.find? p = some srcT) (hfg : f srcT = g srcT) :
    updateFirstTable ts p f = updateFirstTable ts p g := by
  induction ts with
  | nil => cases hfind
  | cons t rest ih =>
    by_cases hpt : p t = true
    · rw [List.find?_cons_of_pos _ hpt] at hfind
      obtain rfl := Option.some.inj hfind
      simp only [updateFirstTable, if_pos hpt, hfg]
    · rw [List.find?_cons_of_neg _ hpt] at hfind
      simp only [updateFirstTable, if_neg hpt, ih hfind]

/-- The relation-attribute fold appends all attributes when their names
are fresh and pairwise distinct. -/
theorem attrFold_append (attrs : List McdAttribute) (cols : List MldColumn)
    (hnodup : (attrs.map McdAttribute.name).Nodup)
    (hfresh : ∀ a ∈ attrs, ∀ c ∈ cols, c.name ≠ a.name) :
    attrs.foldl (fun cols attr =>
        if (cols.find? (fun c => decide (c.name = attr.name))).isSome then cols
        else cols ++ [{ name := attr.name, isPrimaryKey := false,
                        foreignKey := none }]) cols
      = cols ++ attrs.map (fun a =>
          { name := a.name, isPrimaryKey := false, foreignKey := none }) := by
  induction attrs generalizing cols with
  | nil => simp
  | cons a rest ih =>
    rw [List.foldl_cons]
    have hnone : cols.find? (fun c => decide (c.name = a.name)) = none := by
      rw [List.find?_eq_none]
      intro c hc
      simp only [decide_eq_true_eq]
      exact hfresh a (List.mem_cons_self _ _) c hc
    rw [hnone]
    simp only [Option.isSome_none, Bool.false_eq_true, if_false]
    have hnodup' : (rest.map McdAttribute.name).Nodup :=
      (List.nodup_cons.mp (by simpa using hnodup)).2
    have hacol : ∃ acol : MldColumn, acol = ⟨a.name, false, none⟩ := ⟨_, rfl⟩
    obtain ⟨acol, hacol⟩ := hacol
    have hfresh' : ∀ b ∈ rest, ∀ c ∈ cols ++ [acol], c.name ≠ b.name := by
      intro b hb c hc
      rcases List.mem_append.mp hc with hc1 | hc1
      · exact hfresh b (List.mem_cons_of_mem _ hb) c hc1
      · have hceq : c = acol := by simpa using hc1
        rw [hceq, hacol]
        show a.name ≠ b.name
        intro hcontra
        have hmem : b.name ∈ rest.map McdAttribute.name := List.mem_map_of_mem _ hb
        rw [← hcontra] at hmem
        exact (List.nodup_cons.mp (by simpa using hnodup)).1 hmem
    rw [show cols ++ [({ name := a.name, isPrimaryKey := false, foreignKey := none } : MldColumn)] = cols ++ [acol] from by rw [hacol],
      ih _ hnodup' hfresh', hacol]
    simp

/-- Entities and relation for the C4 counterexample: both participants
optional (`0,1`). -/
def c4ceRel : McdRelation :=
  { name := "r".data,
    participants := [{ entityName := "A".data, cardinality := .c01 },
                     { entityName := "B".data, cardinality := .c01 }],
    attributes := [] }

/-- Conceptual model for the C4 counterexample. -/
def c4ceMcd : McdModel :=
  { entities := [
      { name := "A".data, attributes := [{ name := "id_a".data, isPrimaryKey := true,
                                           isDerived := false }] },
      { name := "B".data, attributes := [{ name := "id_b".data, isPrimaryKey := true,
                                           isDerived := false }] }],
    relations := [c4ceRel],
    inheritances := [], associativeEntities := [] }

/-- Claim C4 fails as stated: in a `(0,1)`–`(0,1)` relation both
participants have maximum cardinality 1 but neither is `(1,1)`, yet the
converter still places a foreign key — on the second-declared participant
`B`, which does not have cardinality `(1,1)`. -/
theorem c4_claim_counterexample :
    (∀ p ∈ c4ceRel.participants, isOneCard p.cardinality = true
        ∧ p.cardinality ≠ Cardinality.c11)
    ∧ (∃ t ∈ (convertMcdToMld c4ceMcd).tables, t.name = "B".data
        ∧ ∃ c ∈ t.columns, c.foreignKey.isSome)
    ∧ (∀ t ∈ (convertMcdToMld c4ceMcd).tables, t.name = "A".data →
        ∀ c ∈ t.columns, c.foreignKey = none) := by
  decide

/-- C4 (amended): for every binary relation whose two participants both
have maximum cardinality 1, `handleBinaryRelation` places the foreign key
(and the relation's carried attributes) on the participant whose
cardinality is exactly `(1,1)`; when both are `(1,1)` the first-declared
participant receives it, and when neither is (both `(0,1)`) the
second-declared participant receives it. Stated for a source table that
exists, a target entity with a primary key, and fresh column names. -/
theorem c4_one_one_fk_side
    (rel : McdRelation) (mld : MldModel) (em : MapS McdEntity) (pc : MapS Nat)
    (p1 p2 : McdRelationParticipant) (hparts : rel.participants = [p1, p2])
    (h1 : isOneCard p1.cardinality = true) (h2 : isOneCard p2.cardinality = true)
    (src tgt : Str)
    (hsides : (src, tgt) = if p1.cardinality = Cardinality.c11
        then (p1.entityName, p2.entityName) else (p2.entityName, p1.entityName))
    (srcT : MldTable)
    (hfind : mld.tables.find? (fun t => decide (t.name = src)) = some srcT)
    (tgtEnt : McdEntity) (hent : mget em tgt = some tgtEnt)
    (pk : Str) (hpk : getPrimaryKey (some tgtEnt) = some pk)
    (fkName : Str)
    (hfkname : fkName = if isMultipleRelation rel pc then pk ++ '_' :: rel.name else pk)
    (hfresh : ∀ c ∈ srcT.columns, c.name ≠ fkName)
    (hattrs : (rel.attributes.map McdAttribute.name).Nodup)
    (hattrfresh : ∀ a ∈ rel.attributes,
        (∀ c ∈ srcT.columns, c.name ≠ a.name) ∧ a.name ≠ fkName) :
    (handleBinaryRelation rel mld em pc).tables
      = updateFirstTable mld.tables (fun t => decide (t.name = src))
          (fun t => { t with columns := t.columns
              ++ [{ name := fkName, isPrimaryKey := false,
                    foreignKey := some { columnName := fkName,
                                         referencedTable := tgt,
                                         referencedColumn := pk } }]
              ++ rel.attributes.map (fun a =>
                   { name := a.name, isPrimaryKey := false, foreignKey := none }) }) := by
  have hm1 := isManyCard_eq_false_of_isOneCard h1
  have hm2 := isManyCard_eq_false_of_isOneCard h2
  -- reduce the dispatch to the one/one branch
  have hdisp : handleBinaryRelation rel mld em pc
      = (if p1.cardinality = Cardinality.c11 then
          addRelationAttributes
            (addForeignKey mld p1.entityName p2.entityName em
              (if isMultipleRelation rel pc then some rel.name else none))
            p1.entityName rel
        else
          addRelationAttributes
            (addForeignKey mld p2.entityName p1.entityName em
              (if isMultipleRelation rel pc then some rel.name else none))
            p2.entityName rel) := by
    simp only [handleBinaryRelation, hparts, hm1, hm2, h1, h2, Bool.true_and,
      Bool.and_false, Bool.false_and, Bool.and_true, Bool.false_eq_true, if_false,
      if_true]
  -- the two placement branches are symmetric; factor them
  have hmain : ∀ (sE tE : Str), sE = src → tE = tgt →
      (addRelationAttributes
        (addForeignKey mld sE tE em
          (if isMultipleRelation rel pc then some rel.name else none)) sE rel).tables
      = updateFirstTable mld.tables (fun t => decide (t.name = src))
          (fun t => { t with columns := t.columns
              ++ [{ name := fkName, isPrimaryKey := false,
                    foreignKey := some { columnName := fkName,
                                         referencedTable := tgt,
                                         referencedColumn := pk } }]
              ++ rel.attributes.map (fun a =>
                   { name := a.name, isPrimaryKey := false, foreignKey := none }) }) := by
    rintro sE tE rfl rfl
    have hrole : (if isMultipleRelation rel pc then some rel.name else none)
        = (match (if isMultipleRelation rel pc then some rel.name else none) with
           | some r => some r | none => none) := by cases isMultipleRelation rel pc <;> rfl
    have hfkcol : (match (if isMultipleRelation rel pc then some rel.name else none) with
        | some r => pk ++ '_' :: r
        | none => pk) = fkName := by
      rw [hfkname]
      cases isMultipleRelation rel pc <;> rfl
    have hnotfound : (srcT.columns.find? (fun c => decide (c.name = fkName))).isSome
        = false := by
      rw [List.find?_eq_none.mpr (fun c hc => by
        simp only [decide_eq_true_eq]
        exact hfresh c hc)]
      rfl
    have hafk : addForeignKey mld sE tE em
        (if isMultipleRelation rel pc then some rel.name else none)
        = { tables := (updateFirstTable mld.tables (fun t => decide (t.name = sE))
            (fun t => { t with columns := t.columns ++
              [{ name := fkName, isPrimaryKey := false,
                 foreignKey := some { columnName := fkName,
                                      referencedTable := tE,
                                      referencedColumn := pk } }] })) } := by
      unfold addForeignKey
      rw [hfind, hent]
      dsimp only
      rw [hpk]
      dsimp only
      rw [hfkcol, hnotfound]
      simp only [Bool.false_eq_true, if_false]
    rw [hafk]
    unfold addRelationAttributes
    simp only
    rw [updateFirstTable_comp_cols]
    apply updateFirstTable_congr _ _ _ _ hfind
    simp only
    congr 1
    rw [attrFold_append rel.attributes _ hattrs ?_]
    intro a ha c hc
    rcases List.mem_append.mp hc with hc1 | hc1
    · exact (hattrfresh a ha).1 c hc1
    · have hceq : c = (⟨fkName, false, some ⟨fkName, tE, pk⟩⟩ : MldColumn) := by
        simpa using hc1
      rw [hceq]
      exact fun hcontra => (hattrfresh a ha).2 hcontra.symm
  rw [hdisp]
  by_cases hc11 : p1.cardinality = Cardinality.c11
  · rw [if_pos hc11]
    rw [if_pos hc11] at hsides
    have hs1 : src = p1.entityName := congrArg Prod.fst hsides
    have hs2 : tgt = p2.entityName := congrArg Prod.snd hsides
    exact hmain p1.entityName p2.entityName hs1.symm hs2.symm
  · rw [if_neg hc11]
    rw [if_neg hc11] at hsides
    have hs1 : src = p2.entityName := congrArg Prod.fst hsides
    have hs2 : tgt = p1.entityName := congrArg Prod.snd hsides
    exact hmain p2.entityName p1.entityName hs1.symm hs2.symm

/-- Relation for the C4 witness: `A (0,1)` / `B (1,1)` with one carried
attribute. -/
def c4wRel : McdRelation :=
  { name := "r".data,
    participants := [{ entityName := "A".data, cardinality := .c01 },
                     { entityName := "B".data, cardinality := .c11 }],
    attributes := [{ name := "x".data, isPrimaryKey := false, isDerived := false }] }

/-- Entity map for the C4 witness. -/
def c4wEm : MapS McdEntity :=
  entityMapOf [
    { name := "A".data, attributes := [{ name := "id_a".data, isPrimaryKey := true,
                                         isDerived := false }] },
    { name := "B".data, attributes := [{ name := "id_b".data, isPrimaryKey := true,
                                         isDerived := false }] }]

/-- Logical model state for the C4 witness. -/
def c4wMld : MldModel :=
  { tables := [
      { name := "A".data, columns := [{ name := "id_a".data, isPrimaryKey := true }] },
      { name := "B".data, columns := [{ name := "id_b".data, isPrimaryKey := true }] }] }

/-- Witness for `c4_one_one_fk_side`: the `(1,1)` participant `B` receives
the foreign key and the carried attribute. -/
theorem c4_one_one_fk_side_witness :
    (handleBinaryRelation c4wRel c4wMld c4wEm (buildPairCount [c4wRel])).tables
      = updateFirstTable c4wMld.tables (fun t => decide (t.name = "B".data))
          (fun t => { t with columns := t.columns
              ++ [{ name := "id_a".data, isPrimaryKey := false,
                    foreignKey := some { columnName := "id_a".data,
                                         referencedTable := "A".data,
                                         referencedColumn := "id_a".data } }]
              ++ c4wRel.attributes.map (fun a =>
                   { name := a.name, isPrimaryKey := false, foreignKey := none }) }) :=
  c4_one_one_fk_side c4wRel c4wMld c4wEm (buildPairCount [c4wRel])
    _ _ rfl (by decide) (by decide) "B".data "A".data (by decide)
    { name := "B".data, columns := [{ name := "id_b".data, isPrimaryKey := true }] }
    (by decide)
    { name := "A".data, attributes := [{ name := "id_a".data, isPrimaryKey := true,
                                         isDerived := false }] }
    (by decide) "id_a".data (by decide) "id_a".data (by decide)
    (by decide) (by decide) (by decide)

/-! ## Claim C5 -/

/-- The `(source, target)` placement a binary relation's cardinalities
dictate in `handleBinaryRelation`, `none` for many-to-many. -/
def binaryFkSides (p1 p2 : McdRelationParticipant) : Option (Str × Str) :=
  if isOneCard p1.cardinality && isManyCard p2.cardinality then
    some (p1.entityName, p2.entityName)
  else if isManyCard p1.cardinality && isOneCard p2.cardinality then
    some (p2.entityName, p1.entityName)
  else if isOneCard p1.cardinality && isOneCard p2.cardinality then
    if p1.cardinality = .c11 then some (p1.entityName, p2.entityName)
    else some (p2.entityName, p1.entityName)
  else none

theorem handleBinaryRelation_eq_of_sides (rel : McdRelation) (mld : MldModel)
    (em : MapS McdEntity) (pc : MapS Nat) (p1 p2 : McdRelationParticipant)
    (hparts : rel.participants = [p1, p2]) (s t : Str)
    (hside : binaryFkSides p1 p2 = some (s, t)) :
    handleBinaryRelation rel mld em pc
      = addRelationAttributes
          (addForeignKey mld s t em
            (if isMultipleRelation rel pc then some rel.name else none)) s rel := by
  unfold binaryFkSides at hside
  by_cases hA : (isOneCard p1.cardinality && isManyCard p2.cardinality) = true
  · rw [if_pos hA] at hside
    obtain ⟨hs, ht⟩ := Prod.mk.injEq .. ▸ Option.some.inj hside
    simp only [handleBinaryRelation, hparts, hA, if_true, ← hs, ← ht]
  · rw [if_neg hA] at hside
    by_cases hB : (isManyCard p1.cardinality && isOneCard p2.cardinality) = true
    · rw [if_pos hB] at hside
      obtain ⟨hs, ht⟩ := Prod.mk.injEq .. ▸ Option.some.inj hside
      simp only [handleBinaryRelation, hparts, hA, hB, if_true, Bool.false_eq_true,
        if_false, ← hs, ← ht]
    · rw [if_neg hB] at hside
      by_cases hC : (isOneCard p1.cardinality && isOneCard p2.cardinality) = true
      · rw [if_pos hC] at hside
        by_cases hD : p1.cardinality = Cardinality.c11
        · rw [if_pos hD] at hside
          obtain ⟨hs, ht⟩ := Prod.mk.injEq .. ▸ Option.some.inj hside
          simp only [handleBinaryRelation, hparts, hA, hB, hC, if_true,
            Bool.false_eq_true, if_false, ← hs, ← ht]
          rw [if_pos hD]
        · rw [if_neg hD] at hside
          obtain ⟨hs, ht⟩ := Prod.mk.injEq .. ▸ Option.some.inj hside
          simp only [handleBinaryRelation, hparts, hA, hB, hC, if_true,
            Bool.false_eq_true, if_false, ← hs, ← ht]
          rw [if_neg hD]
      · rw [if_neg hC] at hside
        cases hside

theorem updateFirstTable_id (ts : List MldTable) (p : MldTable → Bool)
    (f : MldTable → MldTable) (hf : ∀ t, f t = t) :
    updateFirstTable ts p f = ts := by
  induction ts with
  | nil => rfl
  | cons t rest ih =>
    by_cases hp : p t = true
    · simp only [updateFirstTable, if_pos hp, hf t, ih]
    · simp only [updateFirstTable, if_neg hp, ih]

/-- `addRelationAttributes` with an attribute-less relation is the
identity. -/
theorem addRelationAttributes_nil (mld : MldModel) (tn : Str)
    (rel : McdRelation) (hattr : rel.attributes = []) :
    addRelationAttributes mld tn rel = mld := by
  unfold addRelationAttributes
  rw [hattr]
  exact congrArg MldModel.mk (updateFirstTable_id _ _ _ (fun t => rfl))

/-- `handleBinaryRelation` for an FK-placing, attribute-less relation:
append the (possibly role-suffixed) FK column to the source table. -/
theorem handleBinaryRelation_places (rel : McdRelation) (mld : MldModel)
    (em : MapS McdEntity) (pc : MapS Nat) (p1 p2 : McdRelationParticipant)
    (hparts : rel.participants = [p1, p2]) (s t : Str)
    (hside : binaryFkSides p1 p2 = some (s, t))
    (srcT : MldTable)
    (hfind : mld.tables.find? (fun tb => decide (tb.name = s)) = some srcT)
    (te : McdEntity) (hent : mget em t = some te)
    (pk : Str) (hpk : getPrimaryKey (some te) = some pk)
    (fkName : Str)
    (hfkname : fkName = if isMultipleRelation rel pc then pk ++ '_' :: rel.name else pk)
    (hfresh : ∀ c ∈ srcT.columns, c.name ≠ fkName)
    (hattr : rel.attributes = []) :
    handleBinaryRelation rel mld em pc
      = { tables := (updateFirstTable mld.tables (fun tb => decide (tb.name = s))
          (fun tb => { tb with columns := tb.columns ++
            [{ name := fkName, isPrimaryKey := false,
               foreignKey := some { columnName := fkName,
                                    referencedTable := t,
                                    referencedColumn := pk } }] })) } := by
  rw [handleBinaryRelation_eq_of_sides rel mld em pc p1 p2 hparts s t hside]
  have hfkcol : (match (if isMultipleRelation rel pc then some rel.name else none) with
      | some r => pk ++ '_' :: r
      | none => pk) = fkName := by
    rw [hfkname]
    cases isMultipleRelation rel pc <;> rfl
  have hnotfound : (srcT.columns.find? (fun c => decide (c.name = fkName))).isSome
      = false := by
    rw [List.find?_eq_none.mpr (fun c hc => by
      simp only [decide_eq_true_eq]
      exact hfresh c hc)]
    rfl
  have hafk : addForeignKey mld s t em
      (if isMultipleRelation rel pc then some rel.name else none)
      = { tables := (updateFirstTable mld.tables (fun tb => decide (tb.name = s))
          (fun tb => { tb with columns := tb.columns ++
            [{ name := fkName, isPrimaryKey := false,
               foreignKey := some { columnName := fkName,
                                    referencedTable := t,
                                    referencedColumn := pk } }] })) } := by
    unfold addForeignKey
    rw [hfind, hent]
    dsimp only
    rw [hpk]
    dsimp only
    rw [hfkcol, hnotfound]
    simp only [Bool.false_eq_true, if_false]
  rw [hafk, addRelationAttributes_nil _ _ _ hattr]

theorem mem_updateFirstTable_of_find? {ts : List MldTable} {p : MldTable → Bool}
    {tb : MldTable} (f : MldTable → MldTable) (hfind : ts.find? p = some tb) :
    f tb ∈ updateFirstTable ts p f := by
  induction ts with
  | nil => cases hfind
  | cons t rest ih =>
    by_cases hp : p t = true
    · rw [List.find?_cons_of_pos _ hp] at hfind
      obtain rfl := Option.some.inj hfind
      simp only [updateFirstTable, if_pos hp]
      exact List.mem_cons_self _ _
    · rw [List.find?_cons_of_neg _ hp] at hfind
      simp only [updateFirstTable, if_neg hp]
      exact List.mem_cons_of_mem _ (ih hfind)

theorem mem_updateFirstTable {ts : List MldTable} {p : MldTable → Bool}
    {f : MldTable → MldTable} {tb' : MldTable}
    (h : tb' ∈ updateFirstTable ts p f) :
    tb' ∈ ts ∨ ∃ tb, tb ∈ ts ∧ p tb = true ∧ tb' = f tb := by
  induction ts with
  | nil => cases h
  | cons t rest ih =>
    by_cases hp : p t = true
    · simp only [updateFirstTable, if_pos hp] at h
      rcases List.mem_cons.mp h with h1 | h1
      · exact Or.inr ⟨t, List.mem_cons_self _ _, hp, h1⟩
      · exact Or.inl (List.mem_cons_of_mem _ h1)
    · simp only [updateFirstTable, if_neg hp] at h
      rcases List.mem_cons.mp h with h1 | h1
      · exact Or.inl (h1 ▸ List.mem_cons_self _ _)
      · rcases ih h1 with h2 | ⟨tb, htb, hptb, heq⟩
        · exact Or.inl (List.mem_cons_of_mem _ h2)
        · exact Or.inr ⟨tb, List.mem_cons_of_mem _ htb, hptb, heq⟩

theorem updateFirstTable_map_name (ts : List MldTable) (p : MldTable → Bool)
    (f : MldTable → MldTable) (hf : ∀ t, (f t).name = t.name) :
    (updateFirstTable ts p f).map MldTable.name = ts.map MldTable.name := by
  induction ts with
  | nil => rfl
  | cons t rest ih =>
    by_cases hp : p t = true
    · simp only [updateFirstTable, if_pos hp, List.map_cons, hf t]
    · simp only [updateFirstTable, if_neg hp, List.map_cons, ih]

theorem updateFirstTable_map_name_cols (ts : List MldTable) (p : MldTable → Bool)
    (F : MldTable → List MldColumn) :
    (updateFirstTable ts p (fun t => { t with columns := F t })).map MldTable.name
      = ts.map MldTable.name :=
  updateFirstTable_map_name ts p _ (fun _ => rfl)

theorem exists_find?_of_mem_name {ts : List MldTable} {s : Str}
    (h : s ∈ ts.map MldTable.name) :
    ∃ tb, ts.find? (fun t => decide (t.name = s)) = some tb ∧ tb.name = s := by
  induction ts with
  | nil => cases h
  | cons t rest ih =>
    by_cases hn : t.name = s
    · exact ⟨t, List.find?_cons_of_pos _ (by simp [hn]), hn⟩
    · have h' : s ∈ rest.map MldTable.name := by
        rcases List.mem_cons.mp h with h1 | h1
        · exact absurd h1.symm hn
        · exact h1
      obtain ⟨tb, hfind, hname⟩ := ih h'
      exact ⟨tb, by rw [List.find?_cons_of_neg _ (by simp [hn])]; exact hfind, hname⟩

/-- Tables survive an `updateFirstTable` whose function appends columns:
some table with the same name and a column-superset remains. -/
theorem persist_updateFirstTable {ts : List MldTable} {p : MldTable → Bool}
    {f : MldTable → MldTable}
    (hf : ∀ t, (f t).name = t.name ∧ ∃ suf, (f t).columns = t.columns ++ suf)
    {tb : MldTable} (htb : tb ∈ ts) :
    ∃ tb', tb' ∈ updateFirstTable ts p f ∧ tb'.name = tb.name
      ∧ ∃ suf, tb'.columns = tb.columns ++ suf := by
  induction ts with
  | nil => cases htb
  | cons t rest ih =>
    by_cases hp : p t = true
    · simp only [updateFirstTable, if_pos hp]
      rcases List.mem_cons.mp htb with h1 | h1
      · subst h1
        exact ⟨f tb, List.mem_cons_self _ _, (hf tb).1, (hf tb).2⟩
      · exact ⟨tb, List.mem_cons_of_mem _ h1, rfl, [], by simp⟩
    · simp only [updateFirstTable, if_neg hp]
      rcases List.mem_cons.mp htb with h1 | h1
      · subst h1
        exact ⟨tb, List.mem_cons_self _ _, rfl, [], by simp⟩
      · obtain ⟨tb', h1', h2', h3'⟩ := ih h1
        exact ⟨tb', List.mem_cons_of_mem _ h1', h2', h3'⟩

theorem binaryFkSides_cases {p1 p2 : McdRelationParticipant} {s t : Str}
    (h : binaryFkSides p1 p2 = some (s, t)) :
    (s = p1.entityName ∧ t = p2.entityName)
      ∨ (s = p2.entityName ∧ t = p1.entityName) := by
  unfold binaryFkSides at h
  by_cases hA : (isOneCard p1.cardinality && isManyCard p2.cardinality) = true
  · rw [if_pos hA] at h
    have h' := Option.some.inj h
    exact Or.inl ⟨(congrArg Prod.fst h').symm, (congrArg Prod.snd h').symm⟩
  · rw [if_neg hA] at h
    by_cases hB : (isManyCard p1.cardinality && isOneCard p2.cardinality) = true
    · rw [if_pos hB] at h
      have h' := Option.some.inj h
      exact Or.inr ⟨(congrArg Prod.fst h').symm, (congrArg Prod.snd h').symm⟩
    · rw [if_neg hB] at h
      by_cases hC : (isOneCard p1.cardinality && isOneCard p2.cardinality) = true
      · rw [if_pos hC] at h
        by_cases hD : p1.cardinality = Cardinality.c11
        · rw [if_pos hD] at h
          have h' := Option.some.inj h
          exact Or.inl ⟨(congrArg Prod.fst h').symm, (congrArg Prod.snd h').symm⟩
        · rw [if_neg hD] at h
          have h' := Option.some.inj h
          exact Or.inr ⟨(congrArg Prod.fst h').symm, (congrArg Prod.snd h').symm⟩
      · rw [if_neg hC] at h
        cases h

/-- Entities and relations for the C5 counterexample: two distinct
many-to-many relations between the same unordered pair. -/
def c5ceMcd : McdModel :=
  { entities := [
      { name := "A".data, attributes := [{ name := "id_a".data, isPrimaryKey := true,
                                           isDerived := false }] },
      { name := "B".data, attributes := [{ name := "id_b".data, isPrimaryKey := true,
                                           isDerived := false }] }],
    relations := [
      { name := "r1".data,
        participants := [{ entityName := "A".data, cardinality := .c0n },
                         { entityName := "B".data, cardinality := .c0n }],
        attributes := [] },
      { name := "r2".data,
        participants := [{ entityName := "A".data, cardinality := .c0n },
                         { entityName := "B".data, cardinality := .c0n }],
        attributes := [] }],
    inheritances := [], associativeEntities := [] }

/-- Claim C5 fails as stated: two distinct many-to-many relations between
the same unordered pair produce associative tables whose FK columns are
named after the referenced primary keys with *no* relation-name suffix,
and the two relations' FK column names coincide (`id_a` in both) instead
of being distinct. -/
theorem c5_claim_counterexample :
    (∃ t1, t1 ∈ (convertMcdToMld c5ceMcd).tables ∧ t1.name = "r1".data ∧
       ∃ c1, c1 ∈ t1.columns ∧ c1.foreignKey.isSome ∧ c1.name = "id_a".data) ∧
    (∃ t2, t2 ∈ (convertMcdToMld c5ceMcd).tables ∧ t2.name = "r2".data ∧
       ∃ c2, c2 ∈ t2.columns ∧ c2.foreignKey.isSome ∧ c2.name = "id_a".data) ∧
    sEnds ('_' :: "r1".data) "id_a".data = false ∧
    sEnds ('_' :: "r2".data) "id_a".data = false := by
  decide

/-- C5 (amended): for a conceptual model with two entities and two
FK-placing binary relations between that pair, the logical model contains
one foreign-key column per relation, each named by the referenced primary
key *suffixed with the owning relation's name*; the two names are
distinct whenever the suffixed strings differ (in particular for distinct
relation names free of underscore ambiguity). Many-to-many relations are
excluded: they produce unsuffixed associative-table columns instead. -/
theorem c5_multiple_relations_fk_names
    (e1 e2 : McdEntity) (r1 r2 : McdRelation) (strat : InheritanceStrategy)
    (he : e1.name ≠ e2.name)
    (p1 p2 q1 q2 : McdRelationParticipant)
    (hr1 : r1.participants = [p1, p2]) (hr2 : r2.participants = [q1, q2])
    (hp1 : p1.entityName = e1.name) (hp2 : p2.entityName = e2.name)
    (hq1 : q1.entityName = e1.name) (hq2 : q2.entityName = e2.name)
    (hattr1 : r1.attributes = []) (hattr2 : r2.attributes = [])
    (s1 t1 s2 t2 : Str)
    (hside1 : binaryFkSides p1 p2 = some (s1, t1))
    (hside2 : binaryFkSides q1 q2 = some (s2, t2))
    (te1 : McdEntity) (hent1 : mget (entityMapOf [e1, e2]) t1 = some te1)
    (pk1 : Str) (hpk1 : getPrimaryKey (some te1) = some pk1)
    (te2 : McdEntity) (hent2 : mget (entityMapOf [e1, e2]) t2 = some te2)
    (pk2 : Str) (hpk2 : getPrimaryKey (some te2) = some pk2)
    (hfkne : pk1 ++ '_' :: r1.name ≠ pk2 ++ '_' :: r2.name)
    (hfresh : ∀ a ∈ e1.attributes ++ e2.attributes,
        a.name ≠ pk1 ++ '_' :: r1.name ∧ a.name ≠ pk2 ++ '_' :: r2.name) :
    (∃ tb1, tb1 ∈ (convertMcdToMld ⟨[e1, e2], [r1, r2], [], []⟩ strat).tables ∧
       tb1.name = s1 ∧
       (⟨pk1 ++ '_' :: r1.name, false,
         some ⟨pk1 ++ '_' :: r1.name, t1, pk1⟩⟩ : MldColumn) ∈ tb1.columns) ∧
    (∃ tb2, tb2 ∈ (convertMcdToMld ⟨[e1, e2], [r1, r2], [], []⟩ strat).tables ∧
       tb2.name = s2 ∧
       (⟨pk2 ++ '_' :: r2.name, false,
         some ⟨pk2 ++ '_' :: r2.name, t2, pk2⟩⟩ : MldColumn) ∈ tb2.columns) ∧
    pk1 ++ '_' :: r1.name ≠ pk2 ++ '_' :: r2.name := by
  have hlen1 : r1.participants.length = 2 := by rw [hr1]; rfl
  have hlen2 : r2.participants.length = 2 := by rw [hr2]; rfl
  have hfold : convertMcdToMld ⟨[e1, e2], [r1, r2], [], []⟩ strat
      = handleBinaryRelation r2
          (handleBinaryRelation r1 { tables := [entityTable e1, entityTable e2] }
            (entityMapOf [e1, e2]) (buildPairCount [r1, r2]))
          (entityMapOf [e1, e2]) (buildPairCount [r1, r2]) := by
    unfold convertMcdToMld
    simp only [List.foldl_cons, List.foldl_nil, List.map_cons, List.map_nil,
      hlen1, hlen2, if_true]
  -- the pair is counted twice, so both relations use the role suffix
  have hK : makePairKey p1.entityName p2.entityName
      = makePairKey e1.name e2.name := by rw [hp1, hp2]
  have hK' : makePairKey q1.entityName q2.entityName
      = makePairKey e1.name e2.name := by rw [hq1, hq2]
  have hpc : buildPairCount [r1, r2] = [(makePairKey e1.name e2.name, 2)] := by
    unfold buildPairCount
    rw [List.foldl_cons, List.foldl_cons, List.foldl_nil]
    simp only [hr1, hr2, hK, hK']
    simp [mgetD, mget, mset]
  have hmul1 : isMultipleRelation r1 (buildPairCount [r1, r2]) = true := by
    unfold isMultipleRelation
    rw [hr1]
    simp only [hK, hpc]
    simp [mgetD, mget]
  have hmul2 : isMultipleRelation r2 (buildPairCount [r1, r2]) = true := by
    unfold isMultipleRelation
    rw [hr2]
    simp only [hK', hpc]
    simp [mgetD, mget]
  -- first relation: locate the source table among the two entity tables
  have hnames0 : ([entityTable e1, entityTable e2].map MldTable.name)
      = [e1.name, e2.name] := rfl
  have hsmem : ∀ s : Str, s = e1.name ∨ s = e2.name →
      s ∈ [entityTable e1, entityTable e2].map MldTable.name := by
    intro s hs
    rw [hnames0]
    rcases hs with h | h <;> simp [h]
  have hs1or : s1 = e1.name ∨ s1 = e2.name := by
    rcases binaryFkSides_cases hside1 with ⟨hs, _⟩ | ⟨hs, _⟩
    · exact Or.inl (hs.trans hp1)
    · exact Or.inr (hs.trans hp2)
  have hs2or : s2 = e1.name ∨ s2 = e2.name := by
    rcases binaryFkSides_cases hside2 with ⟨hs, _⟩ | ⟨hs, _⟩
    · exact Or.inl (hs.trans hq1)
    · exact Or.inr (hs.trans hq2)
  have hentcols : ∀ (e : McdEntity), e ∈ [e1, e2] →
      ∀ c ∈ (entityTable e).columns,
        c.name ≠ pk1 ++ '_' :: r1.name ∧ c.name ≠ pk2 ++ '_' :: r2.name := by
    intro e hemem c hc
    obtain ⟨attr, hattr, rfl⟩ := List.mem_map.mp hc
    have hattr' : attr ∈ e.attributes := List.mem_of_mem_filter hattr
    have : attr ∈ e1.attributes ++ e2.attributes := by
      rcases List.mem_cons.mp hemem with h | h
      · exact List.mem_append.mpr (Or.inl (h ▸ hattr'))
      · have : e = e2 := by simpa using h
        exact List.mem_append.mpr (Or.inr (this ▸ hattr'))
    exact hfresh attr this
  obtain ⟨srcT1, hfind1, hname1⟩ :=
    exists_find?_of_mem_name (hsmem s1 hs1or)
  have hsrcT1mem : srcT1 ∈ [entityTable e1, entityTable e2] :=
    List.mem_of_find?_eq_some hfind1
  have hsrcT1cols : ∀ c ∈ srcT1.columns,
      c.name ≠ pk1 ++ '_' :: r1.name ∧ c.name ≠ pk2 ++ '_' :: r2.name := by
    rcases List.mem_cons.mp hsrcT1mem with h | h
    · exact h ▸ hentcols e1 (by simp)
    · have : srcT1 = entityTable e2 := by simpa using h
      exact this ▸ hentcols e2 (by simp)
  have hfk1 : (if isMultipleRelation r1 (buildPairCount [r1, r2]) then
      pk1 ++ '_' :: r1.name else pk1) = pk1 ++ '_' :: r1.name := by
    rw [hmul1]; rfl
  have hmld1 : handleBinaryRelation r1 { tables := [entityTable e1, entityTable e2] }
      (entityMapOf [e1, e2]) (buildPairCount [r1, r2])
      = { tables := (updateFirstTable [entityTable e1, entityTable e2]
          (fun tb => decide (tb.name = s1))
          (fun tb => { tb with columns := tb.columns ++
            [{ name := pk1 ++ '_' :: r1.name, isPrimaryKey := false,
               foreignKey := some { columnName := pk1 ++ '_' :: r1.name,
                                    referencedTable := t1,
                                    referencedColumn := pk1 } }] })) } :=
    handleBinaryRelation_places r1 _ _ _ p1 p2 hr1 s1 t1 hside1 srcT1 hfind1
      te1 hent1 pk1 hpk1 (pk1 ++ '_' :: r1.name) hfk1.symm
      (fun c hc => (hsrcT1cols c hc).1) hattr1
  -- second relation: its source table in the updated model
  have hnames1 : ((updateFirstTable [entityTable e1, entityTable e2]
      (fun tb => decide (tb.name = s1))
      (fun tb => { tb with columns := tb.columns ++
        [{ name := pk1 ++ '_' :: r1.name, isPrimaryKey := false,
           foreignKey := some { columnName := pk1 ++ '_' :: r1.name,
                                referencedTable := t1,
                                referencedColumn := pk1 } }] })).map MldTable.name)
      = [e1.name, e2.name] := by
    rw [updateFirstTable_map_name_cols]
    exact hnames0
  have hs2mem : s2 ∈ (updateFirstTable [entityTable e1, entityTable e2]
      (fun tb => decide (tb.name = s1))
      (fun tb => { tb with columns := tb.columns ++
        [{ name := pk1 ++ '_' :: r1.name, isPrimaryKey := false,
           foreignKey := some { columnName := pk1 ++ '_' :: r1.name,
                                referencedTable := t1,
                                referencedColumn := pk1 } }] })).map MldTable.name := by
    rw [hnames1]; rcases hs2or with h | h <;> simp [h]
  obtain ⟨srcT2, hfind2, hname2⟩ := exists_find?_of_mem_name (s := s2) hs2mem
  have hsrcT2cols : ∀ c ∈ srcT2.columns, c.name ≠ pk2 ++ '_' :: r2.name := by
    have hmem2 := List.mem_of_find?_eq_some hfind2
    rcases mem_updateFirstTable hmem2 with h | ⟨tb, htb, _, heq⟩
    · intro c hc
      rcases List.mem_cons.mp h with h1 | h1
      · exact ((h1 ▸ hentcols e1 (by simp)) c hc).2
      · have : srcT2 = entityTable e2 := by simpa using h1
        exact ((this ▸ hentcols e2 (by simp)) c hc).2
    · intro c hc
      rw [heq] at hc
      simp only at hc
      rcases List.mem_append.mp hc with h1 | h1
      · have htbcols : ∀ c ∈ tb.columns, c.name ≠ pk2 ++ '_' :: r2.name := by
          rcases List.mem_cons.mp htb with h2 | h2
          · exact fun c hc => ((h2 ▸ hentcols e1 (by simp)) c hc).2
          · have : tb = entityTable e2 := by simpa using h2
            exact fun c hc => ((this ▸ hentcols e2 (by simp)) c hc).2
        exact htbcols c h1
      · have : c = (⟨pk1 ++ '_' :: r1.name, false,
            some ⟨pk1 ++ '_' :: r1.name, t1, pk1⟩⟩ : MldColumn) := by simpa using h1
        rw [this]
        exact hfkne
  have hfk2 : (if isMultipleRelation r2 (buildPairCount [r1, r2]) then
      pk2 ++ '_' :: r2.name else pk2) = pk2 ++ '_' :: r2.name := by
    rw [hmul2]; rfl
  have hmld2 : handleBinaryRelation r2
      { tables := (updateFirstTable [entityTable e1, entityTable e2]
          (fun tb => decide (tb.name = s1))
          (fun tb => { tb with columns := tb.columns ++
            [{ name := pk1 ++ '_' :: r1.name, isPrimaryKey := false,
               foreignKey := some { columnName := pk1 ++ '_' :: r1.name,
                                    referencedTable := t1,
                                    referencedColumn := pk1 } }] })) }
      (entityMapOf [e1, e2]) (buildPairCount [r1, r2])
      = { tables := (updateFirstTable (updateFirstTable [entityTable e1, entityTable e2]
          (fun tb => decide (tb.name = s1))
          (fun tb => { tb with columns := tb.columns ++
            [{ name := pk1 ++ '_' :: r1.name, isPrimaryKey := false,
               foreignKey := some { columnName := pk1 ++ '_' :: r1.name,
                                    referencedTable := t1,
                                    referencedColumn := pk1 } }] }))
          (fun tb => decide (tb.name = s2))
          (fun tb => { tb with columns := tb.columns ++
            [{ name := pk2 ++ '_' :: r2.name, isPrimaryKey := false,
               foreignKey := some { columnName := pk2 ++ '_' :: r2.name,
                                    referencedTable := t2,
                                    referencedColumn := pk2 } }] })) } :=
    handleBinaryRelation_places r2 _ _ _ q1 q2 hr2 s2 t2 hside2 srcT2 hfind2
      te2 hent2 pk2 hpk2 (pk2 ++ '_' :: r2.name) hfk2.symm hsrcT2cols hattr2
  rw [hfold, hmld1, hmld2]
  refine ⟨?_, ?_, hfkne⟩
  · -- the first FK column persists through the second update
    have hin1 : (⟨pk1 ++ '_' :: r1.name, false,
        some ⟨pk1 ++ '_' :: r1.name, t1, pk1⟩⟩ : MldColumn)
        ∈ (srcT1.columns ++ [(⟨pk1 ++ '_' :: r1.name, false,
            some ⟨pk1 ++ '_' :: r1.name, t1, pk1⟩⟩ : MldColumn)]) :=
      List.mem_append.mpr (Or.inr (List.mem_cons_self _ _))
    obtain ⟨tb1, htb1mem, htb1name, suf, htb1cols⟩ :=
      persist_updateFirstTable
        (f := fun tb => { tb with columns := tb.columns ++
          [{ name := pk2 ++ '_' :: r2.name, isPrimaryKey := false,
             foreignKey := some { columnName := pk2 ++ '_' :: r2.name,
                                  referencedTable := t2,
                                  referencedColumn := pk2 } }] })
        (fun t => ⟨rfl, _, rfl⟩)
        (mem_updateFirstTable_of_find? _ hfind1)
    refine ⟨tb1, htb1mem, ?_, ?_⟩
    · rw [htb1name]
      exact hname1
    · rw [htb1cols]
      exact List.mem_append.mpr (Or.inl hin1)
  · -- the second FK column is in the updated source table
    refine ⟨_, mem_updateFirstTable_of_find? _ hfind2, hname2, ?_⟩
    exact List.mem_append.mpr (Or.inr (List.mem_cons_self _ _))

/-- Concrete entity for the C5 witness: an order with its primary key. -/
def c5wE1 : McdEntity :=
  { name := "COMMANDE".data,
    attributes := [{ name := "id_commande".data, isPrimaryKey := true,
                     isDerived := false }] }

/-- Concrete entity for the C5 witness: an address with its primary key. -/
def c5wE2 : McdEntity :=
  { name := "ADRESSE".data,
    attributes := [{ name := "id_adresse".data, isPrimaryKey := true,
                     isDerived := false }] }

/-- First concrete relation for the C5 witness: a (1,1)-(0,n) shipping
relation between the order and the address. -/
def c5wR1 : McdRelation :=
  { name := "livraison".data,
    participants := [{ entityName := "COMMANDE".data, cardinality := .c11 },
                     { entityName := "ADRESSE".data, cardinality := .c0n }],
    attributes := [] }

/-- Second concrete relation for the C5 witness: a (1,1)-(0,n) billing
relation between the same two entities. -/
def c5wR2 : McdRelation :=
  { name := "facturation".data,
    participants := [{ entityName := "COMMANDE".data, cardinality := .c11 },
                     { entityName := "ADRESSE".data, cardinality := .c0n }],
    attributes := [] }

/-- Witness for the amended C5 theorem: two (1,1)-(0,n) relations
`livraison` and `facturation` between `COMMANDE` and `ADRESSE` yield two
foreign-key columns on `COMMANDE`, named `id_adresse_livraison` and
`id_adresse_facturation`, both referencing `ADRESSE.id_adresse`, with
distinct names thanks to the relation-name suffix. -/
theorem c5_multiple_relations_fk_names_witness :
    (∃ tb1, tb1 ∈ (convertMcdToMld ⟨[c5wE1, c5wE2], [c5wR1, c5wR2], [], []⟩
        InheritanceStrategy.table_per_class).tables ∧
       tb1.name = "COMMANDE".data ∧
       (⟨"id_adresse".data ++ '_' :: "livraison".data, false,
         some ⟨"id_adresse".data ++ '_' :: "livraison".data, "ADRESSE".data,
               "id_adresse".data⟩⟩ : MldColumn) ∈ tb1.columns) ∧
    (∃ tb2, tb2 ∈ (convertMcdToMld ⟨[c5wE1, c5wE2], [c5wR1, c5wR2], [], []⟩
        InheritanceStrategy.table_per_class).tables ∧
       tb2.name = "COMMANDE".data ∧
       (⟨"id_adresse".data ++ '_' :: "facturation".data, false,
         some ⟨"id_adresse".data ++ '_' :: "facturation".data, "ADRESSE".data,
               "id_adresse".data⟩⟩ : MldColumn) ∈ tb2.columns) ∧
    "id_adresse".data ++ '_' :: "livraison".data
      ≠ "id_adresse".data ++ '_' :: "facturation".data :=
  c5_multiple_relations_fk_names c5wE1 c5wE2 c5wR1 c5wR2
    InheritanceStrategy.table_per_class (by decide)
    ⟨"COMMANDE".data, .c11⟩ ⟨"ADRESSE".data, .c0n⟩
    ⟨"COMMANDE".data, .c11⟩ ⟨"ADRESSE".data, .c0n⟩
    rfl rfl rfl rfl rfl rfl rfl rfl
    "COMMANDE".data "ADRESSE".data "COMMANDE".data "ADRESSE".data
    (by decide) (by decide)
    c5wE2 (by decide) "id_adresse".data (by decide)
    c5wE2 (by decide) "id_adresse".data (by decide)
    (by decide) (by decide)

/-! ## Claim C6 -/

/-- A table carries at least one primary-key column. -/
def tableHasPK (t : MldTable) : Bool :=
  t.columns.any (fun c => c.isPrimaryKey)

/-- Every table of a logical model carries a primary-key column. -/
abbrev allTablesHavePK (mld : MldModel) : Prop :=
  ∀ t ∈ mld.tables, tableHasPK t = true

/-- Conceptual model refuting claim C6 as stated: the only entity's sole
attribute is a primary key, but a *derived* one, which `convertMcdToMld`
filters out while the validity conditions only ask for some primary-key
attribute. -/
def c6ceMcd : McdModel :=
  { entities := [
      { name := "E".data,
        attributes := [{ name := "total".data, isPrimaryKey := true,
                         isDerived := true }] }],
    relations := [], inheritances := [], associativeEntities := [] }

/-- Claim C6 fails as stated: `c6ceMcd` meets the claim's validity
conditions (every entity carries a primary-key attribute, every relation
has at least two participants over existing entities), yet the converter
drops the derived primary key and the resulting table has no primary-key
column. -/
theorem c6_claim_counterexample :
    (∀ e ∈ c6ceMcd.entities, ∃ a ∈ e.attributes, a.isPrimaryKey = true) ∧
    (∀ r ∈ c6ceMcd.relations, 2 ≤ r.participants.length) ∧
    (∀ r ∈ c6ceMcd.relations, ∀ p ∈ r.participants,
        p.entityName ∈ c6ceMcd.entities.map McdEntity.name) ∧
    ∃ t ∈ (convertMcdToMld c6ceMcd .table_per_class).tables,
      tableHasPK t = false := by
  decide

theorem tableHasPK_iff {t : MldTable} :
    tableHasPK t = true ↔ ∃ c ∈ t.columns, c.isPrimaryKey = true := by
  simp [tableHasPK, List.any_eq_true]

theorem hasPK_cols_mono {t t' : MldTable}
    (hsub : ∀ c ∈ t.columns, c ∈ t'.columns) (h : tableHasPK t = true) :
    tableHasPK t' = true := by
  rw [tableHasPK_iff] at h ⊢
  obtain ⟨c, hc, hpk⟩ := h
  exact ⟨c, hsub c hc, hpk⟩

theorem mem_foldl_superset {α β : Type} (step : List α → β → List α)
    (hstep : ∀ cols x c, c ∈ cols → c ∈ step cols x) (l : List β) :
    ∀ (init : List α) (c : α), c ∈ init → c ∈ l.foldl step init := by
  induction l with
  | nil => exact fun _ _ hc => hc
  | cons x xs ih => exact fun init c hc => ih (step init x) c (hstep init x c hc)

theorem mem_of_mem_eraseIdxS {α : Type} :
    ∀ (l : List α) (i : Nat) {x : α}, x ∈ l.eraseIdx i → x ∈ l := by
  intro l
  induction l with
  | nil => intro i x h; cases h
  | cons a t ih =>
    intro i x h
    cases i with
    | zero =>
      rw [List.eraseIdx_cons_zero] at h
      exact List.mem_cons_of_mem _ h
    | succ n =>
      rw [List.eraseIdx_cons_succ] at h
      rcases List.mem_cons.mp h with h1 | h1
      · exact h1 ▸ List.mem_cons_self _ _
      · exact List.mem_cons_of_mem _ (ih n h1)

theorem mem_modifyTableAt {ts : List MldTable} {i : Nat} {f : MldTable → MldTable}
    {tb : MldTable} (h : tb ∈ modifyTableAt ts i f) :
    tb ∈ ts ∨ ∃ tb' ∈ ts, tb = f tb' := by
  induction ts generalizing i with
  | nil => cases h
  | cons t rest ih =>
    cases i with
    | zero =>
      rcases List.mem_cons.mp h with h1 | h1
      · exact Or.inr ⟨t, List.mem_cons_self _ _, h1⟩
      · exact Or.inl (List.mem_cons_of_mem _ h1)
    | succ n =>
      rcases List.mem_cons.mp h with h1 | h1
      · exact Or.inl (h1 ▸ List.mem_cons_self _ _)
      · rcases ih h1 with h2 | ⟨tb', htb', heq⟩
        · exact Or.inl (List.mem_cons_of_mem _ h2)
        · exact Or.inr ⟨tb', List.mem_cons_of_mem _ htb', heq⟩

theorem findIdx?_ge {α : Type} (p : α → Bool) :
    ∀ (l : List α) (s i : Nat), List.findIdx? p l s = some i → s ≤ i := by
  intro l
  induction l with
  | nil => intro s i h; cases h
  | cons a t ih =>
    intro s i h
    rw [show List.findIdx? p (a :: t) s
        = if p a then some s else List.findIdx? p t (s + 1) from rfl] at h
    by_cases hp : p a = true
    · rw [if_pos hp] at h
      exact (Option.some.inj h) ▸ Nat.le_refl s
    · rw [if_neg hp] at h
      exact Nat.le_of_succ_le (ih (s + 1) i h)

theorem foldl_allPK_inv {α : Type} (l : List α) (step : MldModel → α → MldModel)
    (hstep : ∀ x ∈ l, ∀ m, allTablesHavePK m → allTablesHavePK (step m x))
    (m0 : MldModel) (h : allTablesHavePK m0) :
    allTablesHavePK (l.foldl step m0) := by
  induction l generalizing m0 with
  | nil => exact h
  | cons x xs ih =>
    exact ih (fun y hy => hstep y (List.mem_cons_of_mem _ hy))
      (step m0 x) (hstep x (List.mem_cons_self _ _) m0 h)

theorem entityFold_mget_inv (es : List McdEntity) (m0 : MapS McdEntity) {k : Str}
    {e : McdEntity}
    (h : mget (es.foldl (fun m e => mset m e.name e) m0) k = some e) :
    (e ∈ es ∧ e.name = k) ∨ mget m0 k = some e := by
  induction es generalizing m0 with
  | nil => exact Or.inr h
  | cons e' rest ih =>
    rcases ih _ h with ⟨hm, hn⟩ | h2
    · exact Or.inl ⟨List.mem_cons_of_mem _ hm, hn⟩
    · by_cases hk : k = e'.name
      · subst hk
        have heq : e' = e :=
          Option.some.inj ((mget_mset_self m0 e'.name e').symm.trans h2)
        subst heq
        exact Or.inl ⟨List.mem_cons_self _ _, rfl⟩
      · rw [mget_mset_of_ne _ _ hk] at h2
        exact Or.inr h2

theorem mget_entityMapOf_mem {entities : List McdEntity} {k : Str} {e : McdEntity}
    (h : mget (entityMapOf entities) k = some e) : e ∈ entities ∧ e.name = k := by
  rcases entityFold_mget_inv entities [] h with h1 | h2
  · exact h1
  · simp [mget] at h2

theorem entityFold_mget_isSome (es : List McdEntity) (m0 : MapS McdEntity) {k : Str}
    (h : k ∈ es.map McdEntity.name ∨ (mget m0 k).isSome = true) :
    (mget (es.foldl (fun m e => mset m e.name e) m0) k).isSome = true := by
  induction es generalizing m0 with
  | nil =>
    rcases h with h1 | h2
    · cases h1
    · exact h2
  | cons e' rest ih =>
    apply ih
    rcases h with h1 | h2
    · rcases List.mem_cons.mp h1 with h3 | h3
      · right
        rw [h3, mget_mset_self]
        rfl
      · exact Or.inl h3
    · right
      by_cases hk : k = e'.name
      · rw [hk, mget_mset_self]
        rfl
      · rw [mget_mset_of_ne _ _ hk]
        exact h2

theorem mget_entityMapOf_isSome {entities : List McdEntity} {k : Str}
    (h : k ∈ entities.map McdEntity.name) :
    (mget (entityMapOf entities) k).isSome = true :=
  entityFold_mget_isSome entities [] (Or.inl h)

theorem getPrimaryKey_isSome {e : McdEntity}
    (h : ∃ a ∈ e.attributes, a.isPrimaryKey = true) :
    ∃ pk, getPrimaryKey (some e) = some pk := by
  have hfs : (e.attributes.find? (fun a => a.isPrimaryKey)).isSome = true := by
    rw [Bool.eq_iff_iff, List.find?_isSome]
    exact iff_of_true h rfl
  obtain ⟨b, hb⟩ := Option.isSome_iff_exists.mp hfs
  exact ⟨b.name, by simp [getPrimaryKey, hb]⟩

theorem addForeignKey_allPK (mld : MldModel) (s t : Str) (em : MapS McdEntity)
    (role : Option Str) (h : allTablesHavePK mld) :
    allTablesHavePK (addForeignKey mld s t em role) := by
  unfold addForeignKey
  split
  · split
    · exact h
    · dsimp only
      split
      · exact h
      · intro tb htb
        rcases mem_updateFirstTable htb with h1 | ⟨tb', htb', _, heq⟩
        · exact h tb h1
        · rw [heq]
          exact hasPK_cols_mono (fun c hc => List.mem_append.mpr (Or.inl hc))
            (h tb' htb')
  · exact h

theorem addRelationAttributes_allPK (mld : MldModel) (tn : Str)
    (rel : McdRelation) (h : allTablesHavePK mld) :
    allTablesHavePK (addRelationAttributes mld tn rel) := by
  intro tb htb
  rcases mem_updateFirstTable htb with h1 | ⟨tb', htb', _, heq⟩
  · exact h tb h1
  · rw [heq]
    refine hasPK_cols_mono ?_ (h tb' htb')
    intro c hc
    refine mem_foldl_superset _ ?_ _ _ _ hc
    intro cols attr c' hc'
    dsimp only
    split
    · exact hc'
    · exact List.mem_append.mpr (Or.inl hc')

theorem createAssociativeTable_allPK (rel : McdRelation) (mld : MldModel)
    (em : MapS McdEntity) (h : allTablesHavePK mld)
    (p : McdRelationParticipant) (rest : List McdRelationParticipant)
    (hps : rel.participants = p :: rest)
    (e : McdEntity) (he : mget em p.entityName = some e)
    (pk : Str) (hpk : getPrimaryKey (some e) = some pk) :
    allTablesHavePK (createAssociativeTable rel mld em) := by
  intro tb htb
  simp only [createAssociativeTable] at htb
  rcases List.mem_append.mp htb with h1 | h1
  · exact h tb h1
  · obtain rfl := List.mem_singleton.mp h1
    rw [tableHasPK_iff]
    have hfirst : ∀ (m : MapS (List Str)),
        ∃ c ∈ rel.participants.foldl
          (fun (cols : List MldColumn) (q : McdRelationParticipant) =>
          match getPrimaryKey (mget em q.entityName) with
          | none => cols
          | some pk =>
            cols ++
              [{ name := (if (mgetD m pk []).length > 1
                    then pk ++ '_' :: sLower q.entityName else pk),
                 isPrimaryKey := true,
                 foreignKey := some
                   { columnName := (if (mgetD m pk []).length > 1
                        then pk ++ '_' :: sLower q.entityName else pk),
                     referencedTable := q.entityName,
                     referencedColumn := pk } }]) ([] : List MldColumn),
          c.isPrimaryKey = true := by
      intro m
      rw [hps, List.foldl_cons]
      refine ⟨(⟨(if (mgetD m pk []).length > 1
            then pk ++ '_' :: sLower p.entityName else pk), true,
          some ⟨(if (mgetD m pk []).length > 1
            then pk ++ '_' :: sLower p.entityName else pk),
            p.entityName, pk⟩⟩ : MldColumn), ?_, rfl⟩
      refine mem_foldl_superset _ ?_ rest _ _ ?_
      · intro cols q c hc
        dsimp only
        split
        · exact hc
        · exact List.mem_append.mpr (Or.inl hc)
      · dsimp only
        rw [he, hpk]
        exact List.mem_singleton.mpr rfl
    obtain ⟨c, hc, hcpk⟩ := hfirst _
    exact ⟨c, List.mem_append.mpr (Or.inl hc), hcpk⟩

theorem handleBinaryRelation_eq_assoc (rel : McdRelation) (mld : MldModel)
    (em : MapS McdEntity) (pc : MapS Nat) (p1 p2 : McdRelationParticipant)
    (hparts : rel.participants = [p1, p2])
    (hnone : binaryFkSides p1 p2 = none) :
    handleBinaryRelation rel mld em pc = createAssociativeTable rel mld em := by
  unfold binaryFkSides at hnone
  by_cases hA : (isOneCard p1.cardinality && isManyCard p2.cardinality) = true
  · rw [if_pos hA] at hnone
    cases hnone
  · rw [if_neg hA] at hnone
    by_cases hB : (isManyCard p1.cardinality && isOneCard p2.cardinality) = true
    · rw [if_pos hB] at hnone
      cases hnone
    · rw [if_neg hB] at hnone
      by_cases hC : (isOneCard p1.cardinality && isOneCard p2.cardinality) = true
      · rw [if_pos hC] at hnone
        by_cases hD : p1.cardinality = Cardinality.c11
        · rw [if_pos hD] at hnone
          cases hnone
        · rw [if_neg hD] at hnone
          cases hnone
      · simp only [handleBinaryRelation, hparts, hA, hB, hC,
          Bool.false_eq_true, if_false]

theorem relFold_step_allPK (em : MapS McdEntity) (pc : MapS Nat)
    (rel : McdRelation) (mld : MldModel) (h : allTablesHavePK mld)
    (hne : rel.participants ≠ [])
    (hres : ∀ q ∈ rel.participants, ∃ e, mget em q.entityName = some e ∧
        ∃ pk, getPrimaryKey (some e) = some pk) :
    allTablesHavePK (if rel.participants.length = 2
      then handleBinaryRelation rel mld em pc
      else handleNaryRelation rel mld em) := by
  have hassoc : ∀ (p : McdRelationParticipant) (rest : List McdRelationParticipant),
      rel.participants = p :: rest →
      allTablesHavePK (createAssociativeTable rel mld em) := by
    intro p rest hps
    obtain ⟨e, he, pk, hpk⟩ := hres p (by rw [hps]; exact List.mem_cons_self _ _)
    exact createAssociativeTable_allPK rel mld em h p rest hps e he pk hpk
  by_cases hlen : rel.participants.length = 2
  · rw [if_pos hlen]
    obtain ⟨p1, p2, hps⟩ : ∃ p1 p2, rel.participants = [p1, p2] := by
      cases hl : rel.participants with
      | nil => rw [hl] at hlen; simp at hlen
      | cons p1 t1 =>
        cases t1 with
        | nil => rw [hl] at hlen; simp at hlen
        | cons p2 t2 =>
          cases t2 with
          | nil => exact ⟨p1, p2, rfl⟩
          | cons p3 t3 => rw [hl] at hlen; simp at hlen
    cases hside : binaryFkSides p1 p2 with
    | none =>
      rw [handleBinaryRelation_eq_assoc rel mld em pc p1 p2 hps hside]
      exact hassoc p1 [p2] hps
    | some st =>
      rw [handleBinaryRelation_eq_of_sides rel mld em pc p1 p2 hps st.1 st.2
        (by rw [hside])]
      exact addRelationAttributes_allPK _ _ _
        (addForeignKey_allPK _ _ _ _ _ h)
  · rw [if_neg hlen]
    cases hl : rel.participants with
    | nil => exact absurd hl hne
    | cons p rest =>
      show allTablesHavePK (createAssociativeTable rel mld em)
      exact hassoc p rest hl

theorem tpcChild_hasPK (pn pk : Str) {tb : MldTable} (h : tableHasPK tb = true) :
    tableHasPK (tpcChild pn pk tb) = true := by
  unfold tpcChild
  split
  · exact h
  · dsimp only
    split
    · split
      · rename_i idx hidx
        rw [show List.findIdx? (fun c => decide (c.name = pk) && c.foreignKey.isNone)
            ((⟨pk, true, some ⟨pk, pn, pk⟩⟩ : MldColumn) :: tb.columns) 0
            = if (decide (pk = pk) && (Option.isNone (some (⟨pk, pn, pk⟩ : MldForeignKey))))
              then some 0
              else List.findIdx? (fun c => decide (c.name = pk) && c.foreignKey.isNone)
                tb.columns 1 from rfl] at hidx
        rw [show (decide (pk = pk) && (Option.isNone (some (⟨pk, pn, pk⟩ : MldForeignKey))))
            = false by simp] at hidx
        rw [if_neg (by simp)] at hidx
        have hge : 1 ≤ idx := findIdx?_ge _ _ _ _ hidx
        obtain ⟨j, rfl⟩ : ∃ j, idx = j + 1 :=
          ⟨idx - 1, (Nat.succ_pred_eq_of_pos hge).symm⟩
        rw [tableHasPK_iff]
        refine ⟨⟨pk, true, some ⟨pk, pn, pk⟩⟩, ?_, rfl⟩
        rw [show ((⟨pk, true, some ⟨pk, pn, pk⟩⟩ : MldColumn) :: tb.columns).eraseIdx
            (j + 1) = (⟨pk, true, some ⟨pk, pn, pk⟩⟩ : MldColumn)
              :: tb.columns.eraseIdx j from List.eraseIdx_cons_succ ..]
        exact List.mem_cons_self _ _
      · rw [tableHasPK_iff]
        exact ⟨⟨pk, true, some ⟨pk, pn, pk⟩⟩, List.mem_cons_self _ _, rfl⟩
    · rw [tableHasPK_iff]
      exact ⟨⟨pk, true, some ⟨pk, pn, pk⟩⟩, List.mem_cons_self _ _, rfl⟩

theorem singleTableStep_allPK (em : MapS McdEntity)
    (st : List MldTable × Option Nat) (cn : Str)
    (h : ∀ t ∈ st.1, tableHasPK t = true) :
    ∀ t ∈ (singleTableStep em st cn).1, tableHasPK t = true := by
  have hA : ∀ t ∈ ((match st.2, mget em cn with
      | some pi, some childEntity =>
        modifyTableAt st.1 pi (fun pt =>
          { pt with columns := (childEntity.attributes.foldl
              (fun (cols : List MldColumn) (attr : McdAttribute) =>
                if !attr.isPrimaryKey
                    && !(cols.find? (fun (c : MldColumn) =>
                        decide (c.name = attr.name))).isSome then
                  cols ++ [(⟨attr.name, false, none⟩ : MldColumn)]
                else cols) pt.columns) })
      | _, _ => st.1) : List MldTable), tableHasPK t = true := by
    split
    · intro t ht
      rcases mem_modifyTableAt ht with h1 | ⟨tb', htb', heq⟩
      · exact h t h1
      · rw [heq]
        refine hasPK_cols_mono ?_ (h tb' htb')
        intro c hc
        refine mem_foldl_superset _ ?_ _ _ _ hc
        intro cols attr c' hc'
        dsimp only
        split
        · exact List.mem_append.mpr (Or.inl hc')
        · exact hc'
    · exact h
  intro t ht
  unfold singleTableStep at ht
  dsimp only at ht
  split at ht
  · exact hA t ht
  · exact hA t (mem_of_mem_eraseIdxS _ _ ht)

theorem foldl_singleTableStep_inv (em : MapS McdEntity) (cns : List Str) :
    ∀ (st : List MldTable × Option Nat), (∀ t ∈ st.1, tableHasPK t = true) →
      ∀ t ∈ (cns.foldl (singleTableStep em) st).1, tableHasPK t = true := by
  induction cns with
  | nil => exact fun _ h => h
  | cons cn rest ih => exact fun st h => ih _ (singleTableStep_allPK em st cn h)

theorem handleInheritance_allPK (pn : Str) (cns : List Str)
    (strat : InheritanceStrategy) (mld : MldModel) (em : MapS McdEntity)
    (h : allTablesHavePK mld) :
    allTablesHavePK (handleInheritance pn cns strat mld em) := by
  unfold handleInheritance
  split
  · exact h
  · rename_i parentPk _
    split
    · -- table_per_class
      refine foldl_allPK_inv _ _ ?_ _ h
      intro cn _ m hm tb htb
      rcases mem_updateFirstTable htb with h1 | ⟨tb', htb', _, heq⟩
      · exact hm tb h1
      · rw [heq]
        exact tpcChild_hasPK pn parentPk (hm tb' htb')
    · -- single_table
      split
      · exact h
      · rename_i pIdx0 _
        dsimp only
        have h1 : ∀ t ∈ modifyTableAt mld.tables pIdx0 (fun pt =>
            if (pt.columns.find? (fun c =>
                decide (c.name = "type_discriminator".data))).isSome then pt
            else { pt with columns := pt.columns ++
              [{ name := "type_discriminator".data, isPrimaryKey := false,
                 foreignKey := none }] }), tableHasPK t = true := by
          intro t ht
          rcases mem_modifyTableAt ht with h1 | ⟨tb', htb', heq⟩
          · exact h t h1
          · rw [heq]
            dsimp only
            split
            · exact h tb' htb'
            · exact hasPK_cols_mono (fun c hc => List.mem_append.mpr (Or.inl hc))
                (h tb' htb')
        intro t ht
        exact foldl_singleTableStep_inv em cns _ h1 t ht
    · -- table_per_subclass
      split
      · exact h
      · rename_i parentEntity _
        dsimp only
        have hm1 : allTablesHavePK (cns.foldl (fun mld childName =>
            { tables := updateFirstTable mld.tables
                (fun t => decide (t.name = childName))
                (fun childTable =>
                  { childTable with columns :=
                      (parentEntity.attributes.foldl (fun cols attr =>
                        if (cols.find? (fun c =>
                            decide (c.name = attr.name))).isSome then
                          cols
                        else
                          { name := attr.name, isPrimaryKey := attr.isPrimaryKey,
                            foreignKey := none } :: cols)
                        childTable.columns) }) }) mld) := by
          refine foldl_allPK_inv _ _ ?_ _ h
          intro cn _ m hm tb htb
          rcases mem_updateFirstTable htb with h1 | ⟨tb', htb', _, heq⟩
          · exact hm tb h1
          · rw [heq]
            refine hasPK_cols_mono ?_ (hm tb' htb')
            intro c hc
            refine mem_foldl_superset _ ?_ _ _ _ hc
            intro cols attr c' hc'
            dsimp only
            split
            · exact hc'
            · exact List.mem_cons_of_mem _ hc'
        split
        · exact hm1
        · intro t ht
          exact hm1 _ (mem_of_mem_eraseIdxS _ _ ht)

theorem assocStep_allPK (mcd : McdModel) (em : MapS McdEntity) (mld : MldModel)
    (assoc : McdAssociativeEntity) (h : allTablesHavePK mld)
    (harity : ∀ r ∈ mcd.relations, 2 ≤ r.participants.length)
    (hres : ∀ r ∈ mcd.relations, ∀ q ∈ r.participants,
        ∃ e, mget em q.entityName = some e ∧
          ∃ pk, getPrimaryKey (some e) = some pk) :
    allTablesHavePK (assocStep mcd em mld assoc) := by
  unfold assocStep
  split
  · exact h
  · rename_i rel hrel
    have hrelmem : rel ∈ mcd.relations := List.mem_of_find?_eq_some hrel
    dsimp only
    split
    · -- existing table: only column appends
      intro tb htb
      rcases mem_updateFirstTable htb with h1 | ⟨tb', htb', _, heq⟩
      · exact h tb h1
      · rw [heq]
        refine hasPK_cols_mono ?_ (h tb' htb')
        intro c hc
        refine mem_foldl_superset _ ?_ _ _ _ hc
        intro cols attr c' hc'
        dsimp only
        split
        · exact hc'
        · exact List.mem_append.mpr (Or.inl hc')
    · -- new table built from the participants' primary keys
      intro tb htb
      dsimp only at htb
      rcases List.mem_append.mp htb with h1 | h1
      · exact h tb h1
      · obtain rfl := List.mem_singleton.mp h1
        obtain ⟨p, rest, hps⟩ : ∃ p rest, rel.participants = p :: rest := by
          have hlen := harity rel hrelmem
          cases hl : rel.participants with
          | nil => rw [hl] at hlen; simp at hlen
          | cons p rest => exact ⟨p, rest, rfl⟩
        obtain ⟨e, he, pk, hpk⟩ :=
          hres rel hrelmem p (by rw [hps]; exact List.mem_cons_self _ _)
        rw [tableHasPK_iff]
        refine ⟨(⟨pk, true, some ⟨pk, p.entityName, pk⟩⟩ : MldColumn), ?_, rfl⟩
        refine mem_foldl_superset _ ?_ _ _ _ ?_
        · intro cols attr c' hc'
          dsimp only
          split
          · exact hc'
          · exact List.mem_append.mpr (Or.inl hc')
        · rw [hps, List.foldl_cons]
          refine mem_foldl_superset _ ?_ rest _ _ ?_
          · intro cols q c hc
            dsimp only
            split
            · exact hc
            · exact List.mem_append.mpr (Or.inl hc)
          · dsimp only
            rw [he, hpk]
            exact List.mem_singleton.mpr rfl

/-- C6 (amended): for every conceptual model whose entities each carry at
least one *non-derived* primary-key attribute, whose relations each have
at least two participants, and whose participants all reference declared
entities, every table of the logical model returned by `convertMcdToMld`,
under any inheritance strategy, has at least one primary-key column. (As
stated the claim is false: a derived primary-key attribute satisfies the
validity conditions but is dropped by the converter.) -/
theorem c6_valid_mcd_tables_have_pk (mcd : McdModel) (strat : InheritanceStrategy)
    (hpk : ∀ e ∈ mcd.entities, ∃ a ∈ e.attributes,
        a.isPrimaryKey = true ∧ a.isDerived = false)
    (harity : ∀ r ∈ mcd.relations, 2 ≤ r.participants.length)
    (href : ∀ r ∈ mcd.relations, ∀ q ∈ r.participants,
        q.entityName ∈ mcd.entities.map McdEntity.name) :
    ∀ t ∈ (convertMcdToMld mcd strat).tables, tableHasPK t = true := by
  have hres : ∀ r ∈ mcd.relations, ∀ q ∈ r.participants,
      ∃ e, mget (entityMapOf mcd.entities) q.entityName = some e ∧
        ∃ pk, getPrimaryKey (some e) = some pk := by
    intro r hr q hq
    obtain ⟨e, he⟩ := Option.isSome_iff_exists.mp
      (mget_entityMapOf_isSome (href r hr q hq))
    obtain ⟨hemem, _⟩ := mget_entityMapOf_mem he
    obtain ⟨a, ha, hapk, _⟩ := hpk e hemem
    obtain ⟨pk, hgp⟩ := getPrimaryKey_isSome ⟨a, ha, hapk⟩
    exact ⟨e, he, pk, hgp⟩
  have h0 : allTablesHavePK { tables := mcd.entities.map entityTable } := by
    intro t ht
    obtain ⟨e, hemem, rfl⟩ := List.mem_map.mp ht
    obtain ⟨a, ha, hapk, hader⟩ := hpk e hemem
    rw [tableHasPK_iff]
    refine ⟨(⟨a.name, a.isPrimaryKey, none⟩ : MldColumn), ?_, hapk⟩
    refine List.mem_map.mpr ⟨a, List.mem_filter.mpr ⟨ha, ?_⟩, rfl⟩
    rw [hader]
    rfl
  have h1 : allTablesHavePK (mcd.relations.foldl (fun mld rel =>
      if rel.participants.length = 2 then
        handleBinaryRelation rel mld (entityMapOf mcd.entities)
          (buildPairCount mcd.relations)
      else handleNaryRelation rel mld (entityMapOf mcd.entities))
      { tables := mcd.entities.map entityTable }) := by
    refine foldl_allPK_inv _ _ ?_ _ h0
    intro rel hrel m hm
    have hne : rel.participants ≠ [] := by
      have hlen := harity rel hrel
      intro hemp
      rw [hemp] at hlen
      simp at hlen
    exact relFold_step_allPK _ _ rel m hm hne (hres rel hrel)
  have h2 : allTablesHavePK (mcd.inheritances.foldl (fun mld inh =>
      handleInheritance inh.parentEntity inh.childEntities
        (inh.strategy.getD strat) mld (entityMapOf mcd.entities))
      (mcd.relations.foldl (fun mld rel =>
        if rel.participants.length = 2 then
          handleBinaryRelation rel mld (entityMapOf mcd.entities)
            (buildPairCount mcd.relations)
        else handleNaryRelation rel mld (entityMapOf mcd.entities))
        { tables := mcd.entities.map entityTable })) := by
    refine foldl_allPK_inv _ _ ?_ _ h1
    intro inh _ m hm
    exact handleInheritance_allPK _ _ _ m _ hm
  have h3 : allTablesHavePK (mcd.associativeEntities.foldl
      (assocStep mcd (entityMapOf mcd.entities))
      (mcd.inheritances.foldl (fun mld inh =>
        handleInheritance inh.parentEntity inh.childEntities
          (inh.strategy.getD strat) mld (entityMapOf mcd.entities))
        (mcd.relations.foldl (fun mld rel =>
          if rel.participants.length = 2 then
            handleBinaryRelation rel mld (entityMapOf mcd.entities)
              (buildPairCount mcd.relations)
          else handleNaryRelation rel mld (entityMapOf mcd.entities))
          { tables := mcd.entities.map entityTable }))) := by
    refine foldl_allPK_inv _ _ ?_ _ h2
    intro assoc _ m hm
    exact assocStep_allPK mcd _ m assoc hm harity hres
  exact h3

/-- Concrete conceptual model for the C6 witness: two entities with plain
primary keys, one binary relation between them. -/
def c6wMcd : McdModel :=
  { entities := [
      { name := "A".data,
        attributes := [{ name := "id_a".data, isPrimaryKey := true,
                         isDerived := false }] },
      { name := "B".data,
        attributes := [{ name := "id_b".data, isPrimaryKey := true,
                         isDerived := false }] }],
    relations := [
      { name := "r".data,
        participants := [{ entityName := "A".data, cardinality := .c11 },
                         { entityName := "B".data, cardinality := .c0n }],
        attributes := [] }],
    inheritances := [], associativeEntities := [] }

/-- Witness for the amended C6 theorem on a concrete valid model. -/
theorem c6_valid_mcd_tables_have_pk_witness :
    (∀ e ∈ c6wMcd.entities, ∃ a ∈ e.attributes,
        a.isPrimaryKey = true ∧ a.isDerived = false) ∧
    ∀ t ∈ (convertMcdToMld c6wMcd .table_per_class).tables,
      tableHasPK t = true :=
  ⟨by decide,
   c6_valid_mcd_tables_have_pk c6wMcd .table_per_class
     (by decide) (by decide) (by decide)⟩

/-! ## Claim C7 -/

/-- Column names are pairwise distinct in every table of a logical model. -/
abbrev allColsNodup (mld : MldModel) : Prop :=
  ∀ t ∈ mld.tables, (t.columns.map MldColumn.name).Nodup

/-- Conceptual model refuting claim C7 as stated: a reflexive many-to-many
relation, whose associative table receives two identically named
primary-key/foreign-key columns. -/
def c7ceMcd : McdModel :=
  { entities := [
      { name := "A".data,
        attributes := [{ name := "id_a".data, isPrimaryKey := true,
                         isDerived := false }] }],
    relations := [
      { name := "r".data,
        participants := [{ entityName := "A".data, cardinality := .c0n },
                         { entityName := "A".data, cardinality := .c0n }],
        attributes := [] }],
    inheritances := [], associativeEntities := [] }

/-- Claim C7 fails as stated: `c7ceMcd` meets the validity conditions, yet
the associative table of the reflexive many-to-many relation holds two
columns both named `id_a_a` (the conflict-resolution suffix is the
lower-cased entity name, identical on both sides). -/
theorem c7_claim_counterexample :
    (∀ e ∈ c7ceMcd.entities, ∃ a ∈ e.attributes, a.isPrimaryKey = true) ∧
    (∀ r ∈ c7ceMcd.relations, 2 ≤ r.participants.length) ∧
    (∀ r ∈ c7ceMcd.relations, ∀ p ∈ r.participants,
        p.entityName ∈ c7ceMcd.entities.map McdEntity.name) ∧
    ∃ t ∈ (convertMcdToMld c7ceMcd .table_per_class).tables,
      ¬ (t.columns.map MldColumn.name).Nodup := by
  decide

theorem mgetD_mset_self {β : Type} (m : MapS β) (k : Str) (v d : β) :
    mgetD (mset m k v) k d = v := by
  simp [mgetD, mget_mset_self]

theorem mgetD_mset_of_ne {β : Type} (m : MapS β) {k k' : Str} (v d : β)
    (h : k' ≠ k) : mgetD (mset m k v) k' d = mgetD m k' d := by
  simp [mgetD, mget_mset_of_ne _ _ h]

theorem mem_updateFirstTable_find? {ts : List MldTable} {p : MldTable → Bool}
    {f : MldTable → MldTable} {srcT tb' : MldTable}
    (hfind : ts.find? p = some srcT) (h : tb' ∈ updateFirstTable ts p f) :
    tb' ∈ ts ∨ tb' = f srcT := by
  induction ts with
  | nil => cases h
  | cons t rest ih =>
    by_cases hp : p t = true
    · rw [List.find?_cons_of_pos _ hp] at hfind
      obtain rfl := Option.some.inj hfind
      simp only [updateFirstTable, if_pos hp] at h
      rcases List.mem_cons.mp h with h1 | h1
      · exact Or.inr h1
      · exact Or.inl (List.mem_cons_of_mem _ h1)
    · rw [List.find?_cons_of_neg _ hp] at hfind
      simp only [updateFirstTable, if_neg hp] at h
      rcases List.mem_cons.mp h with h1 | h1
      · exact Or.inl (h1 ▸ List.mem_cons_self _ _)
      · rcases ih hfind h1 with h2 | h2
        · exact Or.inl (List.mem_cons_of_mem _ h2)
        · exact Or.inr h2

theorem nodup_snoc_names {cols : List MldColumn} {c : MldColumn}
    (h : (cols.map MldColumn.name).Nodup)
    (hfresh : ∀ c' ∈ cols, c'.name ≠ c.name) :
    ((cols ++ [c]).map MldColumn.name).Nodup := by
  rw [List.map_append]
  refine List.Nodup.append h (List.nodup_singleton _) ?_
  rw [List.disjoint_left]
  intro x hx hx'
  obtain ⟨c', hc', rfl⟩ := List.mem_map.mp hx
  exact hfresh c' hc' (List.mem_singleton.mp hx')

theorem nodup_attrFold (attrs : List McdAttribute) :
    ∀ (init : List MldColumn), (init.map MldColumn.name).Nodup →
      ((attrs.foldl (fun cols attr =>
        if (cols.find? (fun c => decide (c.name = attr.name))).isSome then cols
        else cols ++ [{ name := attr.name, isPrimaryKey := false,
                        foreignKey := none }]) init).map MldColumn.name).Nodup := by
  induction attrs with
  | nil => exact fun _ h => h
  | cons a rest ih =>
    intro init h
    rw [List.foldl_cons]
    apply ih
    by_cases hf : (init.find? (fun c => decide (c.name = a.name))).isSome = true
    · rw [if_pos hf]
      exact h
    · rw [if_neg hf]
      refine nodup_snoc_names h ?_
      intro c' hc'
      have hnone : init.find? (fun c => decide (c.name = a.name)) = none :=
        Option.not_isSome_iff_eq_none.mp (by simp [Bool.eq_false_iff.mpr hf])
      have := List.find?_eq_none.mp hnone c' hc'
      simpa using this

theorem foldl_model_inv {α : Type} (P : MldModel → Prop) (l : List α)
    (step : MldModel → α → MldModel)
    (hstep : ∀ x ∈ l, ∀ m, P m → P (step m x)) (m0 : MldModel) (h : P m0) :
    P (l.foldl step m0) := by
  induction l generalizing m0 with
  | nil => exact h
  | cons x xs ih =>
    exact ih (fun y hy => hstep y (List.mem_cons_of_mem _ hy))
      (step m0 x) (hstep x (List.mem_cons_self _ _) m0 h)

theorem addForeignKey_nodup (mld : MldModel) (s t : Str) (em : MapS McdEntity)
    (role : Option Str) (h : allColsNodup mld) :
    allColsNodup (addForeignKey mld s t em role) := by
  unfold addForeignKey
  cases role with
  | some r =>
    split
    · rename_i sourceTable targetEntity hfind hment
      split
      · exact h
      · rename_i targetPk hgp
        dsimp only
        split
        · exact h
        · rename_i hfound
          intro tb htb
          rcases mem_updateFirstTable_find? hfind htb with h1 | rfl
          · exact h tb h1
          · refine nodup_snoc_names
              (h sourceTable (List.mem_of_find?_eq_some hfind)) ?_
            intro c' hc'
            have hnone : sourceTable.columns.find? (fun c =>
                decide (c.name = targetPk ++ '_' :: r)) = none :=
              Option.not_isSome_iff_eq_none.mp
                (by simp [Bool.eq_false_iff.mpr hfound])
            have := List.find?_eq_none.mp hnone c' hc'
            simpa using this
    · exact h
  | none =>
    split
    · rename_i sourceTable targetEntity hfind hment
      split
      · exact h
      · rename_i targetPk hgp
        dsimp only
        split
        · exact h
        · rename_i hfound
          intro tb htb
          rcases mem_updateFirstTable_find? hfind htb with h1 | rfl
          · exact h tb h1
          · refine nodup_snoc_names
              (h sourceTable (List.mem_of_find?_eq_some hfind)) ?_
            intro c' hc'
            have hnone : sourceTable.columns.find? (fun c =>
                decide (c.name = targetPk)) = none :=
              Option.not_isSome_iff_eq_none.mp
                (by simp [Bool.eq_false_iff.mpr hfound])
            have := List.find?_eq_none.mp hnone c' hc'
            simpa using this
    · exact h

theorem addRelationAttributes_nodup (mld : MldModel) (tn : Str)
    (rel : McdRelation) (h : allColsNodup mld) :
    allColsNodup (addRelationAttributes mld tn rel) := by
  intro tb htb
  rcases mem_updateFirstTable htb with h1 | ⟨tb', htb', _, heq⟩
  · exact h tb h1
  · rw [heq]
    exact nodup_attrFold rel.attributes tb'.columns (h tb' htb')

theorem pkNamesFold_mgetD_length (em : MapS McdEntity)
    (ps : List McdRelationParticipant) :
    ∀ (m0 : MapS (List Str)) (k : Str),
      (mgetD (ps.foldl (fun m p =>
        match getPrimaryKey (mget em p.entityName) with
        | none => m
        | some pk => mset m pk (mgetD m pk [] ++ [p.entityName])) m0) k []).length
      = (mgetD m0 k []).length
        + (ps.filterMap (fun p =>
            getPrimaryKey (mget em p.entityName))).count k := by
  induction ps with
  | nil =>
    intro m0 k
    simp
  | cons p rest ih =>
    intro m0 k
    cases hpk : getPrimaryKey (mget em p.entityName) with
    | none =>
      simp only [List.foldl_cons, List.filterMap_cons, hpk]
      exact ih m0 k
    | some pk =>
      simp only [List.foldl_cons, List.filterMap_cons, hpk]
      rw [ih]
      by_cases hk : k = pk
      · subst hk
        rw [mgetD_mset_self]
        rw [List.length_append]
        simp [List.count_cons]
        omega
      · rw [mgetD_mset_of_ne _ _ _ hk]
        simp [List.count_cons, Ne.symm hk]

theorem count_le_one_of_nodup : ∀ {l : List Str}, l.Nodup → ∀ k, l.count k ≤ 1 := by
  intro l h k
  induction l with
  | nil => simp
  | cons a t ih =>
    have ha := (List.nodup_cons.mp h).1
    have ht := (List.nodup_cons.mp h).2
    by_cases hk : k = a
    · subst hk
      have hz : t.count k = 0 := List.count_eq_zero.mpr ha
      simp [List.count_cons, hz]
    · simp [List.count_cons, hk, ih ht]

theorem fkColsFold_map_name (em : MapS McdEntity) (pkN : MapS (List Str))
    (ps : List McdRelationParticipant)
    (hlen : ∀ p ∈ ps, ∀ pk, getPrimaryKey (mget em p.entityName) = some pk →
        ¬ (mgetD pkN pk []).length > 1) :
    ∀ (init : List MldColumn),
      ((ps.foldl (fun (cols : List MldColumn) p =>
        match getPrimaryKey (mget em p.entityName) with
        | none => cols
        | some pk =>
          cols ++
            [{ name := (if (mgetD pkN pk []).length > 1
                  then pk ++ '_' :: sLower p.entityName else pk),
               isPrimaryKey := true,
               foreignKey := some
                 { columnName := (if (mgetD pkN pk []).length > 1
                      then pk ++ '_' :: sLower p.entityName else pk),
                   referencedTable := p.entityName,
                   referencedColumn := pk } }]) init).map MldColumn.name)
      = init.map MldColumn.name
        ++ ps.filterMap (fun p => getPrimaryKey (mget em p.entityName)) := by
  induction ps with
  | nil =>
    intro init
    simp
  | cons p rest ih =>
    intro init
    cases hpk : getPrimaryKey (mget em p.entityName) with
    | none =>
      simp only [List.foldl_cons, List.filterMap_cons, hpk]
      exact ih (fun q hq => hlen q (List.mem_cons_of_mem _ hq)) init
    | some pk =>
      simp only [List.foldl_cons, List.filterMap_cons, hpk]
      rw [ih (fun q hq => hlen q (List.mem_cons_of_mem _ hq))]
      rw [if_neg (hlen p (List.mem_cons_self _ _) pk hpk)]
      rw [List.map_append]
      simp

theorem createAssociativeTable_nodup (rel : McdRelation) (mld : MldModel)
    (em : MapS McdEntity) (h : allColsNodup mld)
    (hpks : (rel.participants.filterMap (fun p =>
        getPrimaryKey (mget em p.entityName))).Nodup)
    (hattrs : (rel.attributes.map McdAttribute.name).Nodup)
    (hdisj : ∀ a ∈ rel.attributes,
        ∀ pk ∈ rel.participants.filterMap (fun p =>
          getPrimaryKey (mget em p.entityName)), a.name ≠ pk) :
    allColsNodup (createAssociativeTable rel mld em) := by
  intro tb htb
  simp only [createAssociativeTable] at htb
  rcases List.mem_append.mp htb with h1 | h1
  · exact h tb h1
  · obtain rfl := List.mem_singleton.mp h1
    have hlen : ∀ p ∈ rel.participants, ∀ pk,
        getPrimaryKey (mget em p.entityName) = some pk →
        ¬ (mgetD (rel.participants.foldl (fun (m : MapS (List Str)) p =>
          match getPrimaryKey (mget em p.entityName) with
          | none => m
          | some pk => mset m pk (mgetD m pk [] ++ [p.entityName])) [])
          pk []).length > 1 := by
      intro p hp pk hpk
      rw [pkNamesFold_mgetD_length]
      have hcount := count_le_one_of_nodup hpks pk
      have hD : (mgetD ([] : MapS (List Str)) pk []).length = 0 := rfl
      omega
    dsimp only
    rw [List.map_append]
    rw [fkColsFold_map_name em _ rel.participants hlen []]
    rw [show (List.map MldColumn.name ([] : List MldColumn)) = [] from rfl]
    rw [List.nil_append, List.map_map]
    refine List.Nodup.append hpks hattrs ?_
    rw [List.disjoint_left]
    intro x hx hx'
    obtain ⟨a, ha, rfl⟩ := List.mem_map.mp hx'
    exact hdisj a ha _ hx rfl

theorem relStep_nodup (em : MapS McdEntity) (pc : MapS Nat)
    (rel : McdRelation) (mld : MldModel) (h : allColsNodup mld)
    (hpks : (rel.participants.filterMap (fun p =>
        getPrimaryKey (mget em p.entityName))).Nodup)
    (hattrs : (rel.attributes.map McdAttribute.name).Nodup)
    (hdisj : ∀ a ∈ rel.attributes,
        ∀ pk ∈ rel.participants.filterMap (fun p =>
          getPrimaryKey (mget em p.entityName)), a.name ≠ pk) :
    allColsNodup (if rel.participants.length = 2
      then handleBinaryRelation rel mld em pc
      else handleNaryRelation rel mld em) := by
  by_cases hlen : rel.participants.length = 2
  · rw [if_pos hlen]
    obtain ⟨p1, p2, hps⟩ : ∃ p1 p2, rel.participants = [p1, p2] := by
      cases hl : rel.participants with
      | nil => rw [hl] at hlen; simp at hlen
      | cons p1 t1 =>
        cases t1 with
        | nil => rw [hl] at hlen; simp at hlen
        | cons p2 t2 =>
          cases t2 with
          | nil => exact ⟨p1, p2, rfl⟩
          | cons p3 t3 => rw [hl] at hlen; simp at hlen
    cases hside : binaryFkSides p1 p2 with
    | none =>
      rw [handleBinaryRelation_eq_assoc rel mld em pc p1 p2 hps hside]
      exact createAssociativeTable_nodup rel mld em h hpks hattrs hdisj
    | some st =>
      rw [handleBinaryRelation_eq_of_sides rel mld em pc p1 p2 hps st.1 st.2
        (by rw [hside])]
      exact addRelationAttributes_nodup _ _ _ (addForeignKey_nodup _ _ _ _ _ h)
  · rw [if_neg hlen]
    exact createAssociativeTable_nodup rel mld em h hpks hattrs hdisj

/-- C7 (amended): for every conceptual model without inheritances or
associative entities in which every entity's non-derived attribute names
are pairwise distinct and, for every relation, the primary keys resolved
for its participants are pairwise distinct, its carried attribute names
are pairwise distinct, and carried attribute names avoid those primary
keys, the logical model returned by `convertMcdToMld` has pairwise
distinct column names within each table. (As stated the claim is false: a
reflexive many-to-many relation yields an associative table with two
identically named columns.) -/
theorem c7_column_names_unique (mcd : McdModel) (strat : InheritanceStrategy)
    (hinh : mcd.inheritances = []) (hassoc : mcd.associativeEntities = [])
    (hent : ∀ e ∈ mcd.entities,
        (((e.attributes.filter (fun a => !a.isDerived)).map
          McdAttribute.name)).Nodup)
    (hrels : ∀ r ∈ mcd.relations,
        (r.participants.filterMap (fun p =>
          getPrimaryKey (mget (entityMapOf mcd.entities) p.entityName))).Nodup ∧
        (r.attributes.map McdAttribute.name).Nodup ∧
        ∀ a ∈ r.attributes, ∀ pk ∈ r.participants.filterMap (fun p =>
          getPrimaryKey (mget (entityMapOf mcd.entities) p.entityName)),
          a.name ≠ pk) :
    ∀ t ∈ (convertMcdToMld mcd strat).tables,
      (t.columns.map MldColumn.name).Nodup := by
  have h0 : allColsNodup { tables := mcd.entities.map entityTable } := by
    intro t ht
    obtain ⟨e, hemem, rfl⟩ := List.mem_map.mp ht
    have := hent e hemem
    simpa [entityTable, List.map_map] using this
  have h1 : allColsNodup (mcd.relations.foldl (fun mld rel =>
      if rel.participants.length = 2 then
        handleBinaryRelation rel mld (entityMapOf mcd.entities)
          (buildPairCount mcd.relations)
      else handleNaryRelation rel mld (entityMapOf mcd.entities))
      { tables := mcd.entities.map entityTable }) := by
    refine foldl_model_inv _ _ _ ?_ _ h0
    intro rel hrel m hm
    obtain ⟨hpks, hattrs, hdisj⟩ := hrels rel hrel
    exact relStep_nodup _ _ rel m hm hpks hattrs hdisj
  intro t ht
  have hconv : (convertMcdToMld mcd strat).tables
      = (mcd.associativeEntities.foldl
          (assocStep mcd (entityMapOf mcd.entities))
          (mcd.inheritances.foldl (fun mld inh =>
            handleInheritance inh.parentEntity inh.childEntities
              (inh.strategy.getD strat) mld (entityMapOf mcd.entities))
            (mcd.relations.foldl (fun mld rel =>
              if rel.participants.length = 2 then
                handleBinaryRelation rel mld (entityMapOf mcd.entities)
                  (buildPairCount mcd.relations)
              else handleNaryRelation rel mld (entityMapOf mcd.entities))
              { tables := mcd.entities.map entityTable }))).tables := rfl
  rw [hconv, hinh, hassoc, List.foldl_nil, List.foldl_nil] at ht
  exact h1 t ht

/-- Concrete conceptual model for the C7 witness: a many-to-many relation
with a carried attribute between two entities with distinct primary
keys. -/
def c7wMcd : McdModel :=
  { entities := [
      { name := "A".data,
        attributes := [{ name := "id_a".data, isPrimaryKey := true,
                         isDerived := false }] },
      { name := "B".data,
        attributes := [{ name := "id_b".data, isPrimaryKey := true,
                         isDerived := false }] }],
    relations := [
      { name := "r".data,
        participants := [{ entityName := "A".data, cardinality := .c0n },
                         { entityName := "B".data, cardinality := .c1n }],
        attributes := [{ name := "qty".data, isPrimaryKey := false,
                         isDerived := false }] }],
    inheritances := [], associativeEntities := [] }

/-- Witness for the amended C7 theorem on a concrete model. -/
theorem c7_column_names_unique_witness :
    c7wMcd.inheritances = [] ∧
    ∀ t ∈ (convertMcdToMld c7wMcd .table_per_class).tables,
      (t.columns.map MldColumn.name).Nodup :=
  ⟨rfl,
   c7_column_names_unique c7wMcd .table_per_class rfl rfl
     (by decide) (by decide)⟩

/-! ## Claim C8 -/

/-- Validation message severity (`'error' | 'warning' | 'info'`). -/
inductive ValidationLevel where
  | error | warning | info
  deriving DecidableEq, Repr

/-- `ValidationMessage`. -/
structure ValidationMessage where
  level : ValidationLevel
  message : Str
  deriving DecidableEq, Repr

/-- `Array.join(sep)`. -/
def sJoin (sep : Str) : List Str → Str
  | [] => []
  | [x] => x
  | x :: y :: xs => x ++ sep ++ sJoin sep (y :: xs)

/-- Text of the missing-identifier message of `validateMcd`. -/
def mcdNoPkMsg (n : Str) : Str :=
  "Entité \"".data ++ n ++ "\" : aucun identifiant [PK] défini.".data

/-- Text of the orphan-entity warning of `validateMcd`. -/
def orphanMsg (n : Str) : Str :=
  "Entité orpheline : \"".data ++ n
    ++ "\" n'apparaît dans aucune relation.".data

/-- Text of the undefined-participant message of `validateMcd`. -/
def relMissingEntityMsg (rn en : Str) : Str :=
  "Relation \"".data ++ rn ++ "\" : entité \"".data ++ en
    ++ "\" non définie.".data

/-- Text of the undefined-parent message of `validateMcd`. -/
def inhParentMsg (iname pname : Str) : Str :=
  "Héritage \"".data ++ iname ++ "\" : entité parent \"".data ++ pname
    ++ "\" non définie.".data

/-- Text of the undefined-child message of `validateMcd`. -/
def inhChildMsg (iname cname : Str) : Str :=
  "Héritage \"".data ++ iname ++ "\" : entité enfant \"".data ++ cname
    ++ "\" non définie.".data

/-- Text of the arity message of `validateMcd`. -/
def relArityMsg (rn : Str) : Str :=
  "Relation \"".data ++ rn ++ "\" : doit avoir au moins 2 participants.".data

/-- Text of the missing-primary-key warning of `validateMld`. -/
def mldNoPkMsg (tn : Str) : Str :=
  "Table \"".data ++ tn ++ "\" : aucune clé primaire définie.".data

/-- Text of the dangling-foreign-key message of `validateMld` and
`validateMpd`. -/
def fkMissingMsg (tn cn rt : Str) : Str :=
  "Table \"".data ++ tn ++ "\", colonne \"".data ++ cn
    ++ "\" : FK vers table inexistante \"".data ++ rt ++ "\".".data

/-- Text of the cycle warning of `validateMld`. -/
def cycleMsg (cycle : List Str) : Str :=
  "Cycle de références FK détecté : ".data ++ sJoin " → ".data cycle
    ++ ".".data

/-- `validateMcd`: the five sequential loops, each pushing its messages
onto the shared array, become five concatenated per-loop message lists. -/
def validateMcd (model : McdModel) : List ValidationMessage :=
  let usedEntities := model.inheritances.foldl (fun s inh =>
      inh.childEntities.foldl (fun s c => sAdd s c) (sAdd s inh.parentEntity))
    (model.relations.foldl (fun s rel =>
      rel.participants.foldl (fun s p => sAdd s p.entityName) s) [])
  let entityNames := model.entities.map McdEntity.name
  (model.entities.foldl (fun msgs e =>
    if e.attributes.any (fun a => a.isPrimaryKey) then msgs
    else msgs ++ [⟨.error, mcdNoPkMsg e.name⟩]) [])
  ++ (model.entities.foldl (fun msgs e =>
    if e.name ∈ usedEntities then msgs
    else msgs ++ [⟨.warning, orphanMsg e.name⟩]) [])
  ++ (model.relations.foldl (fun msgs rel =>
    rel.participants.foldl (fun msgs p =>
      if p.entityName ∈ entityNames then msgs
      else msgs ++ [⟨.error, relMissingEntityMsg rel.name p.entityName⟩])
      msgs) [])
  ++ (model.inheritances.foldl (fun msgs inh =>
    inh.childEntities.foldl (fun msgs c =>
      if c ∈ entityNames then msgs
      else msgs ++ [⟨.error, inhChildMsg inh.name c⟩])
      (if inh.parentEntity ∈ entityNames then msgs
       else msgs ++ [⟨.error, inhParentMsg inh.name inh.parentEntity⟩])) [])
  ++ (model.relations.foldl (fun msgs rel =>
    if rel.participants.length < 2 then
      msgs ++ [⟨.error, relArityMsg rel.name⟩]
    else msgs) [])

/-- The foreign-key adjacency of `detectCycles`. -/
def adjOf (model : MldModel) : MapS (List Str) :=
  model.tables.foldl (fun adj table =>
    table.columns.foldl (fun adj col =>
      match col.foreignKey with
      | some fk =>
        mset adj table.name (mgetD adj table.name [] ++ [fk.referencedTable])
      | none => adj)
      (if mhas adj table.name then adj else mset adj table.name [])) []

/-- The recursive `dfs` of `detectCycles`, fuelled. `inStack` and `path`
are restored on exit in the source, so they are threaded read-only (plus
the current node) into recursive calls; `visited` and `cycles` persist. -/
def dfsGo (adj : MapS (List Str)) : Nat → Str → List Str → List Str →
    List Str × List (List Str) → List Str × List (List Str)
  | 0, _, _, _, vc => vc
  | fuel + 1, node, inStack, path, vc =>
    let inStack1 := sAdd inStack node
    let path1 := path ++ [node]
    (mgetD adj node []).foldl (fun vc neighbor =>
      if neighbor ∈ vc.1 then
        if neighbor ∈ inStack1 then
          match path1.findIdx? (fun x => decide (x = neighbor)) with
          | some i => (vc.1, vc.2 ++ [path1.drop i ++ [neighbor]])
          | none => vc
        else vc
      else dfsGo adj fuel neighbor inStack1 path1 vc)
      (sAdd vc.1 node, vc.2)

/-- Fuel bound for the depth-first search: more than every name the walk
can ever visit. -/
def mldDfsFuel (model : MldModel) : Nat :=
  model.tables.length
    + model.tables.foldl (fun n t => n + t.columns.length) 0 + 1

/-- `detectCycles`. -/
def detectCycles (model : MldModel) : List (List Str) :=
  let adj := adjOf model
  (model.tables.foldl (fun vc table =>
    if table.name ∈ vc.1 then vc
    else dfsGo adj (mldDfsFuel model) table.name [] [] vc)
    ([], [])).2

/-- `validateMld`: per-table missing-PK warning and dangling-FK errors,
then one warning per detected cycle. -/
def validateMld (model : MldModel) : List ValidationMessage :=
  let tableNames := model.tables.map MldTable.name
  (model.tables.foldl (fun msgs table =>
    table.columns.foldl (fun msgs col =>
      match col.foreignKey with
      | some fk =>
        if fk.referencedTable ∈ tableNames then msgs
        else msgs ++
          [⟨.error, fkMissingMsg table.name col.name fk.referencedTable⟩]
      | none => msgs)
      (if table.columns.any (fun c => c.isPrimaryKey) then msgs
       else msgs ++ [⟨.warning, mldNoPkMsg table.name⟩])) [])
  ++ (detectCycles model).foldl (fun msgs cycle =>
    msgs ++ [⟨.warning, cycleMsg cycle⟩]) []

/-- `validateMpd`: dangling-FK errors only. -/
def validateMpd (model : MpdModel) : List ValidationMessage :=
  let tableNames := model.tables.map MpdTable.name
  model.tables.foldl (fun msgs table =>
    table.columns.foldl (fun msgs col =>
      match col.foreignKey with
      | some fk =>
        if fk.referencedTable ∈ tableNames then msgs
        else msgs ++
          [⟨.error, fkMissingMsg table.name col.name fk.referencedTable⟩]
      | none => msgs) msgs) []

/-- Logical model refuting claim C8 for `validateMld`: a table with no
primary-key column draws only a warning. -/
def c8ceMld : MldModel :=
  { tables := [{ name := "T".data,
                 columns := [{ name := "x".data, isPrimaryKey := false,
                               foreignKey := none }] }] }

/-- Physical model refuting claim C8 for `validateMpd`: a table with no
primary-key column draws no message at all. -/
def c8ceMpd : MpdModel :=
  { tables := [{ name := "T".data,
                 columns := [{ name := "x".data, sqlType := "INT".data,
                               isPrimaryKey := false, foreignKey := none,
                               constraints := [] }] }] }

/-- Claim C8 fails as stated: for a primary-key-less table, `validateMld`
emits no error-level message (only a warning), and `validateMpd` emits no
message at all. (Only `validateMcd` emits an error.) -/
theorem c8_claim_counterexample :
    (∃ t ∈ c8ceMld.tables, ∀ c ∈ t.columns, c.isPrimaryKey = false) ∧
    (∀ m ∈ validateMld c8ceMld, m.level ≠ ValidationLevel.error) ∧
    validateMld c8ceMld ≠ [] ∧
    (∃ t ∈ c8ceMpd.tables, ∀ c ∈ t.columns, c.isPrimaryKey = false) ∧
    validateMpd c8ceMpd = [] := by
  decide

theorem mem_foldl_emit {α β : Type} (step : List β → α → List β)
    (hsup : ∀ msgs y m, m ∈ msgs → m ∈ step msgs y)
    {x : α} {msg : β} (hemit : ∀ msgs, msg ∈ step msgs x) :
    ∀ (l : List α), x ∈ l → ∀ init, msg ∈ l.foldl step init := by
  intro l
  induction l with
  | nil => intro hx; cases hx
  | cons a rest ih =>
    intro hx init
    rcases List.mem_cons.mp hx with rfl | hx'
    · exact mem_foldl_superset step (fun cols y c hc => hsup cols y c hc)
        rest _ _ (hemit init)
    · exact ih hx' (step init a)

theorem mem_foldl_or {α β : Type} (step : List β → α → List β)
    (Q : α → β → Prop) :
    ∀ (l : List α), (∀ x ∈ l, ∀ msgs m, m ∈ step msgs x → m ∈ msgs ∨ Q x m) →
      ∀ (init : List β) (m : β), m ∈ l.foldl step init →
        m ∈ init ∨ ∃ x ∈ l, Q x m := by
  intro l
  induction l with
  | nil => exact fun _ _ m hm => Or.inl hm
  | cons a rest ih =>
    intro hstep init m hm
    rcases ih (fun x hx => hstep x (List.mem_cons_of_mem _ hx))
        (step init a) m hm with h1 | ⟨x, hx, hQ⟩
    · rcases hstep a (List.mem_cons_self _ _) init m h1 with h2 | hQ
      · exact Or.inl h2
      · exact Or.inr ⟨a, List.mem_cons_self _ _, hQ⟩
    · exact Or.inr ⟨x, List.mem_cons_of_mem _ hx, hQ⟩

/-- C8 (amended): only `validateMcd` reports a missing primary key at
level `error`. `validateMld` reports it at level `warning` (its only
error-level messages are dangling-foreign-key messages), and
`validateMpd` performs no primary-key check at all (every message it
emits is a dangling-foreign-key error). -/
theorem c8_validator_pk_message_levels (mcd : McdModel) (mld : MldModel)
    (mpd : MpdModel) :
    (∀ e ∈ mcd.entities, e.attributes.any (fun a => a.isPrimaryKey) = false →
       (⟨.error, mcdNoPkMsg e.name⟩ : ValidationMessage) ∈ validateMcd mcd) ∧
    (∀ t ∈ mld.tables, t.columns.any (fun c => c.isPrimaryKey) = false →
       (⟨.warning, mldNoPkMsg t.name⟩ : ValidationMessage) ∈ validateMld mld) ∧
    (∀ m ∈ validateMld mld, m.level = .error →
       ∃ t ∈ mld.tables, ∃ c ∈ t.columns, ∃ fk, c.foreignKey = some fk ∧
         m.message = fkMissingMsg t.name c.name fk.referencedTable) ∧
    (∀ m ∈ validateMpd mpd, m.level = .error ∧
       ∃ t ∈ mpd.tables, ∃ c ∈ t.columns, ∃ fk, c.foreignKey = some fk ∧
         m.message = fkMissingMsg t.name c.name fk.referencedTable) := by
  refine ⟨?_, ?_, ?_, ?_⟩
  · -- validateMcd: error for a PK-less entity
    intro e he hpk
    simp only [validateMcd]
    refine List.mem_append.mpr (Or.inl ?_)
    refine List.mem_append.mpr (Or.inl ?_)
    refine List.mem_append.mpr (Or.inl ?_)
    refine List.mem_append.mpr (Or.inl ?_)
    refine mem_foldl_emit _ ?_ ?_ mcd.entities he []
    · intro msgs y m hm
      dsimp only
      split
      · exact hm
      · exact List.mem_append.mpr (Or.inl hm)
    · intro msgs
      dsimp only
      rw [hpk]
      simp
  · -- validateMld: warning for a PK-less table
    intro t ht hpk
    simp only [validateMld]
    refine List.mem_append.mpr (Or.inl ?_)
    refine mem_foldl_emit _ ?_ ?_ mld.tables ht []
    · intro msgs y m hm
      dsimp only
      refine mem_foldl_superset _ ?_ _ _ _ ?_
      · intro cols col m' hm'
        dsimp only
        split
        · split
          · exact hm'
          · exact List.mem_append.mpr (Or.inl hm')
        · exact hm'
      · split
        · exact hm
        · exact List.mem_append.mpr (Or.inl hm)
    · intro msgs
      dsimp only
      refine mem_foldl_superset _ ?_ _ _ _ ?_
      · intro cols col m' hm'
        dsimp only
        split
        · split
          · exact hm'
          · exact List.mem_append.mpr (Or.inl hm')
        · exact hm'
      · rw [hpk]
        simp
  · -- validateMld: every error-level message is a dangling-FK message
    intro m hm herr
    simp only [validateMld] at hm
    rcases List.mem_append.mp hm with hm1 | hm2
    · have hchar := mem_foldl_or _ (fun (table : MldTable) m =>
        m = (⟨.warning, mldNoPkMsg table.name⟩ : ValidationMessage) ∨
        ∃ c ∈ table.columns, ∃ fk, c.foreignKey = some fk ∧
          m = ⟨.error, fkMissingMsg table.name c.name fk.referencedTable⟩)
        mld.tables ?_ [] m hm1
      · rcases hchar with h0 | ⟨table, htmem, hQ⟩
        · cases h0
        · rcases hQ with rfl | ⟨c, hc, fk, hfk, rfl⟩
          · cases herr
          · exact ⟨table, htmem, c, hc, fk, hfk, rfl⟩
      · intro table _ msgs m' hm'
        have hinner := mem_foldl_or _ (fun (col : MldColumn) m' =>
          ∃ fk, col.foreignKey = some fk ∧
            m' = (⟨.error, fkMissingMsg table.name col.name
              fk.referencedTable⟩ : ValidationMessage))
          table.columns ?_ _ m' hm'
        · rcases hinner with hinit | ⟨col, hcol, fk, hfk, rfl⟩
          · revert hinit
            split
            · exact fun hinit => Or.inl hinit
            · intro hinit
              rcases List.mem_append.mp hinit with h3 | h3
              · exact Or.inl h3
              · exact Or.inr (Or.inl (List.mem_singleton.mp h3))
          · exact Or.inr (Or.inr ⟨col, hcol, fk, hfk, rfl⟩)
        · intro col _ msgs' m'' hm''
          revert hm''
          split
          · rename_i fk heq
            split
            · exact fun hm'' => Or.inl hm''
            · intro hm''
              rcases List.mem_append.mp hm'' with h3 | h3
              · exact Or.inl h3
              · exact Or.inr ⟨fk, heq, List.mem_singleton.mp h3⟩
          · exact fun hm'' => Or.inl hm''
    · have hchar := mem_foldl_or _ (fun (cy : List Str) m =>
        m = (⟨.warning, cycleMsg cy⟩ : ValidationMessage))
        (detectCycles mld) ?_ [] m hm2
      · rcases hchar with h0 | ⟨cy, _, rfl⟩
        · cases h0
        · cases herr
      · intro cy _ msgs m' hm'
        rcases List.mem_append.mp hm' with h3 | h3
        · exact Or.inl h3
        · exact Or.inr (List.mem_singleton.mp h3)
  · -- validateMpd: every message is a dangling-FK error
    intro m hm
    simp only [validateMpd] at hm
    have hchar := mem_foldl_or _ (fun (table : MpdTable) m =>
      ∃ c ∈ table.columns, ∃ fk, c.foreignKey = some fk ∧
        m = (⟨.error, fkMissingMsg table.name c.name
          fk.referencedTable⟩ : ValidationMessage))
      mpd.tables ?_ [] m hm
    · rcases hchar with h0 | ⟨table, htmem, c, hc, fk, hfk, rfl⟩
      · cases h0
      · exact ⟨rfl, table, htmem, c, hc, fk, hfk, rfl⟩
    · intro table _ msgs m' hm'
      have hinner := mem_foldl_or _ (fun (col : MpdColumn) m' =>
        ∃ fk, col.foreignKey = some fk ∧
          m' = (⟨.error, fkMissingMsg table.name col.name
            fk.referencedTable⟩ : ValidationMessage))
        table.columns ?_ _ m' hm'
      · rcases hinner with hinit | ⟨col, hcol, fk, hfk, rfl⟩
        · exact Or.inl hinit
        · exact Or.inr ⟨col, hcol, fk, hfk, rfl⟩
      · intro col _ msgs' m'' hm''
        revert hm''
        split
        · rename_i fk heq
          split
          · exact fun hm'' => Or.inl hm''
          · intro hm''
            rcases List.mem_append.mp hm'' with h3 | h3
            · exact Or.inl h3
            · exact Or.inr ⟨fk, heq, List.mem_singleton.mp h3⟩
        · exact fun hm'' => Or.inl hm''

/-- Conceptual model for the C8 witness: one entity with no attributes. -/
def c8wMcd : McdModel :=
  { entities := [{ name := "E".data, attributes := [] }],
    relations := [], inheritances := [], associativeEntities := [] }

/-- Witness for the amended C8 theorem: the primary-key-less entity of
`c8wMcd` draws an error from `validateMcd` and the primary-key-less table
of `c8ceMld` draws a warning from `validateMld`. -/
theorem c8_validator_pk_message_levels_witness :
    (⟨ValidationLevel.error, mcdNoPkMsg "E".data⟩ : ValidationMessage)
      ∈ validateMcd c8wMcd ∧
    (⟨ValidationLevel.warning, mldNoPkMsg "T".data⟩ : ValidationMessage)
      ∈ validateMld c8ceMld :=
  ⟨(c8_validator_pk_message_levels c8wMcd c8ceMld c8ceMpd).1
      ⟨"E".data, []⟩ (by decide) (by decide),
   (c8_validator_pk_message_levels c8wMcd c8ceMld c8ceMpd).2.1
      ⟨"T".data, [⟨"x".data, false, none⟩]⟩ (by decide) (by decide)⟩

/-! ## `parser/mcdParser.ts` (claims C9 and C10) -/

/-- `String.prototype.toUpperCase` (ASCII, which is all the source uses). -/
def sUpper (s : Str) : Str :=
  s.map Char.toUpper

/-- Remove trailing whitespace only. -/
def sTrimRight (s : Str) : Str :=
  (s.reverse.dropWhile isSpaceChar).reverse

/-- `text.replace(/,\s*$/, '')`: strip one trailing comma together with
the whitespace after it, if present. -/
def stripTrailingComma (s : Str) : Str :=
  match s.reverse.dropWhile isSpaceChar with
  | ',' :: rest => rest.reverse
  | _ => s

/-- `String.prototype.replace(ch, '')` for a one-character pattern:
remove the first occurrence. -/
def removeFirstChar (ch : Char) : Str → Str
  | [] => []
  | c :: cs => if c = ch then cs else c :: removeFirstChar ch cs

/-- A raw `KEYWORD name [extra] \x7b body \x7d` block. -/
structure RawBlock where
  keyword : Str
  name : Str
  extra : Str
  body : Str
  deriving DecidableEq, Repr

/-- The header regex of `extractBlocks`: two words, then everything up to
an optional trailing brace. A match requires at least one whitespace
character between the words; the lazy middle group sheds trailing
whitespace, one optional brace, and more trailing whitespace. -/
def headerMatch (line : Str) : Option (Str × Str × Str) :=
  match line.span isWordChar with
  | ([], _) => none
  | (w1, r1) =>
    match r1 with
    | [] => none
    | c :: _ =>
      if isSpaceChar c then
        match (r1.dropWhile isSpaceChar).span isWordChar with
        | ([], _) => none
        | (w2, r3) =>
          let r4 := r3.dropWhile isSpaceChar
          let r5 := sTrimRight r4
          let r6 := if sEnds "\x7b".data r5 then sTrimRight r5.dropLast else r5
          some (w1, w2, r6)
      else none

/-- Per-line brace-depth scan of the body collector, stopping as soon as
depth zero is reached. -/
def lineDepthScan : Str → Nat → Nat
  | [], d => d
  | c :: cs, d =>
    let d1 := if c = '{' then d + 1 else d
    let d2 := if c = '}' then d1 - 1 else d1
    if d2 = 0 then 0 else lineDepthScan cs d2

/-- The body-collecting loop of `extractBlocks`: accumulate full lines
while the brace depth stays positive; on the closing line keep only the
text before the *first* closing brace. Returns the body and the
remaining lines. -/
def collectLoop : List Str → Nat → Str → Str × List Str
  | [], _, body => (body, [])
  | l :: rest, depth, body =>
    let d2 := lineDepthScan l depth
    if d2 = 0 then
      (body ++ l.takeWhile (fun c => !decide (c = '}')) ++ ['\n'], rest)
    else
      collectLoop rest d2 (body ++ l ++ ['\n'])

/-- Skip lines until one whose trimmed text starts with a brace. -/
def dropUntilBrace : List Str → List Str
  | [] => []
  | l :: rest =>
    if sStarts "\x7b".data (sTrim l) then l :: rest else dropUntilBrace rest

/-- The scanning loop of `extractBlocks` over the source's lines. Each
iteration consumes at least one line, so the line count is enough fuel. -/
def extractLoop : Nat → List Str → List RawBlock
  | 0, _ => []
  | _, [] => []
  | fuel + 1, l :: rest =>
    let line := sTrim l
    if line.isEmpty || sStarts "//".data line || sStarts "#".data line then
      extractLoop fuel rest
    else
      match headerMatch line with
      | none => extractLoop fuel rest
      | some (keyword, name, extra) =>
        if '{' ∈ line then
          let afterBrace :=
            sTrim ((line.dropWhile (fun c => !decide (c = '{'))).drop 1)
          if sEnds "\x7d".data afterBrace then
            ⟨keyword, name, extra, sTrim afterBrace.dropLast⟩
              :: extractLoop fuel rest
          else
            let body0 := if afterBrace = [] then [] else afterBrace ++ ['\n']
            let br := collectLoop rest 1 body0
            ⟨keyword, name, sTrim (removeFirstChar '{' extra), sTrim br.1⟩
              :: extractLoop fuel br.2
        else
          match dropUntilBrace rest with
          | [] =>
            ⟨keyword, name, sTrim (removeFirstChar '{' extra), sTrim []⟩
              :: extractLoop fuel []
          | _ :: rest2 =>
            let br := collectLoop rest2 1 []
            ⟨keyword, name, sTrim (removeFirstChar '{' extra), sTrim br.1⟩
              :: extractLoop fuel br.2

/-- `extractBlocks`. -/
def extractBlocks (source : Str) : List RawBlock :=
  let lines := splitChar source '\n'
  extractLoop lines.length lines

/-- The character loop of `splitOutsideParens`; the depth may go negative
on unbalanced text, as in the source. -/
def sopLoop : Str → Int → Str → List Str → List Str
  | [], _, current, parts =>
    (if (sTrim current).isEmpty then parts else parts ++ [sTrim current])
  | ch :: cs, depth, current, parts =>
    if ch = '(' || ch = '[' then sopLoop cs (depth + 1) (current ++ [ch]) parts
    else if ch = ')' || ch = ']' then sopLoop cs (depth - 1) (current ++ [ch]) parts
    else if ch = ',' then
      if depth = 0 then
        sopLoop cs depth []
          (if (sTrim current).isEmpty then parts else parts ++ [sTrim current])
      else sopLoop cs depth (current ++ [ch]) parts
    else sopLoop cs depth (current ++ [ch]) parts

/-- `splitOutsideParens`: split on commas not nested in parentheses or
brackets. -/
def splitOutsideParens (text : Str) : List Str :=
  sopLoop text 0 [] []

/-- `normalizeBodyItems`: split a body into items, both per-line and
comma-separated. -/
def normalizeBodyItems (body : Str) : List Str :=
  (splitChar body '\n').foldl (fun items line =>
    let trimmed := sTrim line
    if trimmed.isEmpty then items
    else (splitOutsideParens trimmed).foldl (fun items part =>
      let cleaned := sTrim (stripTrailingComma part)
      if cleaned.isEmpty then items else items ++ [cleaned]) items) []

/-- `parseAttribute`: a word plus an optional trailing bracket group; the
flags are searched for `PK` and `DERIVED` as substrings. -/
def parseAttribute (text : Str) : Option McdAttribute :=
  match text.span isWordChar with
  | ([], _) => none
  | (w, rest) =>
    match rest.dropWhile isSpaceChar with
    | [] => some { name := w, isPrimaryKey := false, isDerived := false }
    | '[' :: r =>
      let flags := sTrimRight ('[' :: r)
      if sEnds "]".data flags then
        some { name := w, isPrimaryKey := sHas flags "PK".data,
               isDerived := sHas flags "DERIVED".data }
      else none
    | _ => none

/-- The participant regex of `parseRelationBlock`:
a word, an opening parenthesis, one digit, a comma, one digit or `n`,
and a closing parenthesis ending the item. -/
def participantMatch (item : Str) : Option (Str × Str) :=
  match item.span isWordChar with
  | ([], _) => none
  | (w, rest) =>
    match rest.dropWhile isSpaceChar with
    | '(' :: r2 =>
      match r2.dropWhile isSpaceChar with
      | c1 :: ',' :: c2 :: r4 =>
        if c1.isDigit && (c2 = 'n' || c2.isDigit) then
          match r4.dropWhile isSpaceChar with
          | [')'] => some (w, [c1, ',', c2])
          | _ => none
        else none
      | _ => none
    | _ => none

/-- `isValidCardinality`. -/
def isValidCardinalityS (c : Str) : Bool :=
  c = "0,1".data || c = "1,1".data || c = "0,n".data || c = "1,n".data

/-- The enum value of a valid cardinality string (the TypeScript source
keeps the string itself, a four-value union type). -/
def cardOfStr (c : Str) : Cardinality :=
  if c = "0,1".data then .c01
  else if c = "1,1".data then .c11
  else if c = "0,n".data then .c0n
  else .c1n

/-- Text of the missing-identifier error of `parseEntityBlock`. -/
def entityNoPkErr (n : Str) : Str :=
  "Entité \"".data ++ n ++ "\" n'a pas d'identifiant [PK].".data

/-- Text of the invalid-cardinality error of `parseRelationBlock`. -/
def invalidCardMsg (card ename relName : Str) : Str :=
  "Cardinalité invalide \"".data ++ card ++ "\" pour l'entité \"".data
    ++ ename ++ "\" dans la relation \"".data ++ relName ++ "\".".data

/-- Text of the too-few-participants error of `parseRelationBlock`. -/
def relTooFewMsg (rn : Str) (n : Nat) : Str :=
  "La relation \"".data ++ rn
    ++ "\" doit avoir au moins 2 participants (trouvé: ".data
    ++ natStr n ++ ").".data

/-- Text of the unknown-keyword error of `parseMcd`. -/
def unknownKeywordErr (kw : Str) : Str :=
  "Mot-clé inconnu : \"".data ++ kw ++ "\"".data

/-- Text of the missing-PARENT error of `parseInheritanceBlock`. -/
def inhNoParentErr (n : Str) : Str :=
  "Héritage \"".data ++ n ++ "\" : PARENT non défini.".data

/-- Text of the missing-CHILDREN error of `parseInheritanceBlock`. -/
def inhNoChildrenErr (n : Str) : Str :=
  "Héritage \"".data ++ n ++ "\" : aucun CHILDREN défini.".data

/-- Text of the unknown-strategy error of `parseInheritanceBlock`. -/
def unknownStrategyErr (s : Str) : Str :=
  "Stratégie d'héritage inconnue : \"".data ++ s ++ "\".".data

/-- Text of the missing-ON error of `parseAssociativeBlock`. -/
def assocNoOnErr (n : Str) : Str :=
  "Entité associative \"".data ++ n
    ++ "\" : mot-clé ON manquant (syntaxe: ASSOCIATIVE nom ON relation \x7b ... \x7d).".data

/-- Text of the orphan-entity warning of `parseMcd`. -/
def orphanDetectedMsg (n : Str) : Str :=
  "Entité orpheline détectée : \"".data ++ n
    ++ "\" n'apparaît dans aucune relation.".data

/-- `parseEntityBlock`. -/
def parseEntityBlock (block : RawBlock) (model : McdModel) (errors : List Str) :
    McdModel × List Str :=
  let attrs := (normalizeBodyItems block.body).foldl (fun attrs item =>
    match parseAttribute item with
    | some attr => attrs ++ [attr]
    | none => attrs) []
  let errors2 := if (attrs.filter (fun a => a.isPrimaryKey)).length = 0 then
      errors ++ [entityNoPkErr block.name]
    else errors
  ({ model with entities := model.entities
      ++ [{ name := block.name, attributes := attrs }] }, errors2)

/-- One item of a RELATION body: participant, dropped invalid
participant (with error), relation attribute, or silently ignored. -/
def relItemStep (relName : Str) (st : McdRelation × List Str) (item : Str) :
    McdRelation × List Str :=
  match participantMatch item with
  | some pc =>
    if isValidCardinalityS pc.2 then
      ({ st.1 with participants := st.1.participants
          ++ [{ entityName := pc.1, cardinality := cardOfStr pc.2 }] }, st.2)
    else
      (st.1, st.2 ++ [invalidCardMsg pc.2 pc.1 relName])
  | none =>
    match parseAttribute item with
    | some attr => ({ st.1 with attributes := st.1.attributes ++ [attr] }, st.2)
    | none => st

/-- `parseRelationBlock`. -/
def parseRelationBlock (block : RawBlock) (model : McdModel)
    (errors : List Str) : McdModel × List Str :=
  let st := (normalizeBodyItems block.body).foldl (relItemStep block.name)
    ({ name := block.name, participants := [], attributes := [] }, errors)
  let errors2 := if st.1.participants.length < 2 then
      st.2 ++ [relTooFewMsg block.name st.1.participants.length]
    else st.2
  ({ model with relations := model.relations ++ [st.1] }, errors2)

/-- Case-insensitive `^KW\s+(\w+)$` matcher (PARENT, STRATEGY, ON). -/
def matchKwWord (kw : Str) (line : Str) : Option Str :=
  if sUpper (line.take kw.length) = kw then
    match line.drop kw.length with
    | [] => none
    | c :: r =>
      if isSpaceChar c then
        match (r.dropWhile isSpaceChar).span isWordChar with
        | ([], _) => none
        | (w, []) => some w
        | (_, _ :: _) => none
      else none
  else none

/-- Case-insensitive `^CHILDREN\s+(.+)$` matcher. -/
def matchChildren (line : Str) : Option Str :=
  if sUpper (line.take 8) = "CHILDREN".data then
    match line.drop 8 with
    | [] => none
    | c :: r =>
      if isSpaceChar c then
        let rest := r.dropWhile isSpaceChar
        if rest.isEmpty then none else some rest
      else none
  else none

/-- One line of an INHERITANCE body. -/
def inhLineStep (st : McdInheritance × List Str) (line : Str) :
    McdInheritance × List Str :=
  let trimmed := stripTrailingComma (sTrim line)
  if trimmed.isEmpty then st
  else
    match matchKwWord "PARENT".data trimmed with
    | some w => ({ st.1 with parentEntity := w }, st.2)
    | none =>
      match matchChildren trimmed with
      | some grp =>
        let cs := ((splitChar grp ',').map sTrim).filter
          (fun s => !decide (s = []))
        ({ st.1 with childEntities := cs }, st.2)
      | none =>
        match matchKwWord "STRATEGY".data trimmed with
        | some w =>
          if w = "table_per_class".data then
            ({ st.1 with strategy := some .table_per_class }, st.2)
          else if w = "single_table".data then
            ({ st.1 with strategy := some .single_table }, st.2)
          else if w = "table_per_subclass".data then
            ({ st.1 with strategy := some .table_per_subclass }, st.2)
          else (st.1, st.2 ++ [unknownStrategyErr w])
        | none => st

/-- `parseInheritanceBlock`. -/
def parseInheritanceBlock (block : RawBlock) (model : McdModel)
    (errors : List Str) : McdModel × List Str :=
  let st := (splitChar block.body '\n').foldl inhLineStep
    ({ name := block.name, parentEntity := [], childEntities := [],
       strategy := none }, errors)
  let e1 := if st.1.parentEntity = [] then st.2 ++ [inhNoParentErr block.name]
    else st.2
  let e2 := if st.1.childEntities = [] then e1 ++ [inhNoChildrenErr block.name]
    else e1
  ({ model with inheritances := model.inheritances ++ [st.1] }, e2)

/-- `parseAssociativeBlock`. -/
def parseAssociativeBlock (block : RawBlock) (model : McdModel)
    (errors : List Str) : McdModel × List Str :=
  match matchKwWord "ON".data block.extra with
  | none => (model, errors ++ [assocNoOnErr block.name])
  | some relName =>
    let attrs := (normalizeBodyItems block.body).foldl (fun attrs item =>
      match parseAttribute item with
      | some attr => attrs ++ [attr]
      | none => attrs) []
    ({ model with associativeEntities := model.associativeEntities
        ++ [{ name := block.name, relationName := relName,
              attributes := attrs }] }, errors)

/-- `ParseResult`. -/
structure ParseResult where
  model : McdModel
  errors : List Str
  warnings : List Str
  deriving DecidableEq, Repr

/-- Keyword dispatch of `parseMcd`. -/
def parseMcdStep (st : McdModel × List Str) (block : RawBlock) :
    McdModel × List Str :=
  let kw := sUpper block.keyword
  if kw = "ENTITY".data then parseEntityBlock block st.1 st.2
  else if kw = "RELATION".data then parseRelationBlock block st.1 st.2
  else if kw = "INHERITANCE".data then parseInheritanceBlock block st.1 st.2
  else if kw = "ASSOCIATIVE".data then parseAssociativeBlock block st.1 st.2
  else (st.1, st.2 ++ [unknownKeywordErr block.keyword])

/-- `parseMcd`. -/
def parseMcd (source : Str) : ParseResult :=
  let st := (extractBlocks source).foldl parseMcdStep
    ({ entities := [], relations := [], inheritances := [],
       associativeEntities := [] }, [])
  let used := st.1.inheritances.foldl (fun s inh =>
      inh.childEntities.foldl (fun s c => sAdd s c) (sAdd s inh.parentEntity))
    (st.1.relations.foldl (fun s rel =>
      rel.participants.foldl (fun s p => sAdd s p.entityName) s) [])
  let warnings := st.1.entities.foldl (fun ws e =>
    if e.name ∈ used then ws else ws ++ [orphanDetectedMsg e.name]) []
  { model := st.1, errors := st.2, warnings := warnings }

/-! ## Claim C9 -/

/-- Source refuting claim C9 as stated: the participant item `A (12,n)`
has an invalid (min,max) tuple, yet it does not match the single-digit
participant regex, falls through to the attribute parse, fails that too,
and is silently discarded with no error. -/
def c9ceSrc : Str :=
  "RELATION r \x7b\nA (12,n)\nB (0,n)\nC (1,1)\n\x7d".data

/-- Claim C9 fails as stated: the RELATION block of `c9ceSrc` contains
the item `A (12,n)`, whose cardinality tuple is not one of the four
allowed literals; the participant is indeed dropped, but `parseMcd`
records *no* error at all. -/
theorem c9_claim_counterexample :
    (∃ b ∈ extractBlocks c9ceSrc, sUpper b.keyword = "RELATION".data ∧
       "A (12,n)".data ∈ normalizeBodyItems b.body) ∧
    (parseMcd c9ceSrc).errors = [] ∧
    (parseMcd c9ceSrc).model.relations
      = [{ name := "r".data,
           participants := [{ entityName := "B".data, cardinality := .c0n },
                            { entityName := "C".data, cardinality := .c11 }],
           attributes := [] }] := by
  decide

theorem relFold_spec (rn : Str) (items : List Str) :
    ∀ (rel : McdRelation) (errs : List Str),
      items.foldl (relItemStep rn) (rel, errs)
        = ({ rel with
             participants := rel.participants ++ items.filterMap (fun it =>
               match participantMatch it with
               | some pc =>
                 if isValidCardinalityS pc.2 then
                   some { entityName := pc.1, cardinality := cardOfStr pc.2 }
                 else none
               | none => none),
             attributes := rel.attributes ++ items.filterMap (fun it =>
               match participantMatch it with
               | some _ => none
               | none => parseAttribute it) },
           errs ++ items.filterMap (fun it =>
             match participantMatch it with
             | some pc =>
               if isValidCardinalityS pc.2 then none
               else some (invalidCardMsg pc.2 pc.1 rn)
             | none => none)) := by
  induction items with
  | nil =>
    intro rel errs
    simp
  | cons it rest ih =>
    intro rel errs
    rw [List.foldl_cons]
    cases hpm : participantMatch it with
    | some pc =>
      by_cases hv : isValidCardinalityS pc.2 = true
      · rw [show relItemStep rn (rel, errs) it
            = ({ rel with participants := rel.participants
                ++ [{ entityName := pc.1,
                      cardinality := cardOfStr pc.2 }] }, errs) from by
          simp [relItemStep, hpm, hv]]
        rw [ih]
        simp [List.filterMap_cons, hpm, hv, List.append_assoc]
      · rw [show relItemStep rn (rel, errs) it
            = (rel, errs ++ [invalidCardMsg pc.2 pc.1 rn]) from by
          simp [relItemStep, hpm, hv]]
        rw [ih]
        simp [List.filterMap_cons, hpm, hv, List.append_assoc]
    | none =>
      cases hpa : parseAttribute it with
      | some attr =>
        rw [show relItemStep rn (rel, errs) it
            = ({ rel with attributes := rel.attributes ++ [attr] }, errs) from by
          simp [relItemStep, hpm, hpa]]
        rw [ih]
        simp [List.filterMap_cons, hpm, hpa, List.append_assoc]
      | none =>
        rw [show relItemStep rn (rel, errs) it = (rel, errs) from by
          simp [relItemStep, hpm, hpa]]
        rw [ih]
        simp [List.filterMap_cons, hpm, hpa]

/-- C9 (amended): a RELATION body item either matches the single-digit
participant pattern — in which case an invalid tuple draws an error
naming the relation and the invalid value and the participant is dropped
— or it does not match that pattern, in which case it is kept as a
relation attribute when the attribute pattern accepts it and otherwise
silently discarded with no error. The produced participant list,
attribute list, and error list of `parseRelationBlock` are exactly the
corresponding selections over the block's normalized items, plus the
too-few-participants error when fewer than two participants survive. -/
theorem c9_relation_block (block : RawBlock) (model : McdModel)
    (errors : List Str) :
    ((parseRelationBlock block model errors).1.relations
      = model.relations
        ++ [{ name := block.name,
              participants := (normalizeBodyItems block.body).filterMap
                (fun it =>
                match participantMatch it with
                | some pc =>
                  if isValidCardinalityS pc.2 then
                    some { entityName := pc.1, cardinality := cardOfStr pc.2 }
                  else none
                | none => none),
              attributes := (normalizeBodyItems block.body).filterMap
                (fun it =>
                match participantMatch it with
                | some _ => none
                | none => parseAttribute it) }])
      ∧
    ((parseRelationBlock block model errors).2
      = errors
        ++ (normalizeBodyItems block.body).filterMap (fun it =>
            match participantMatch it with
            | some pc =>
              if isValidCardinalityS pc.2 then none
              else some (invalidCardMsg pc.2 pc.1 block.name)
            | none => none)
        ++ (if ((normalizeBodyItems block.body).filterMap (fun it =>
              match participantMatch it with
              | some pc =>
                if isValidCardinalityS pc.2 then
                  some ({ entityName := pc.1,
                          cardinality := cardOfStr pc.2 }
                    : McdRelationParticipant)
                else none
              | none => none)).length < 2 then
            [relTooFewMsg block.name
              ((normalizeBodyItems block.body).filterMap (fun it =>
                match participantMatch it with
                | some pc =>
                  if isValidCardinalityS pc.2 then
                    some ({ entityName := pc.1,
                            cardinality := cardOfStr pc.2 }
                      : McdRelationParticipant)
                  else none
                | none => none)).length]
          else [])) := by
  have h := relFold_spec block.name (normalizeBodyItems block.body)
    { name := block.name, participants := [], attributes := [] } errors
  constructor
  · unfold parseRelationBlock
    rw [h]
    simp
  · unfold parseRelationBlock
    rw [h]
    dsimp only
    simp only [List.nil_append]
    split
    · rfl
    · simp

/-- Concrete RELATION block for the C9 witness: `A (2,n)` matches the
participant pattern with an invalid tuple. -/
def c9wBlock : RawBlock :=
  { keyword := "RELATION".data, name := "r".data, extra := [],
    body := "A (2,n)\nB (0,n)\nC (1,1)".data }

/-- Witness for the amended C9 theorem: the invalid participant `A (2,n)`
draws exactly the invalid-cardinality error and is dropped, while the
two valid participants survive. -/
theorem c9_relation_block_witness :
    (parseRelationBlock c9wBlock ⟨[], [], [], []⟩ []).2
      = [invalidCardMsg "2,n".data "A".data "r".data] ∧
    (parseRelationBlock c9wBlock ⟨[], [], [], []⟩ []).1.relations
      = [{ name := "r".data,
           participants := [{ entityName := "B".data, cardinality := .c0n },
                            { entityName := "C".data, cardinality := .c11 }],
           attributes := [] }] :=
  ⟨((c9_relation_block c9wBlock ⟨[], [], [], []⟩ []).2).trans (by decide),
   ((c9_relation_block c9wBlock ⟨[], [], [], []⟩ []).1).trans (by decide)⟩

/-! ## Claim C10 -/

theorem splitChar_append_newline (c src : Str) (h : '\n' ∉ c) :
    splitChar (c ++ '\n' :: src) '\n' = c :: splitChar src '\n' := by
  induction c with
  | nil => simp [splitChar]
  | cons x xs ih =>
    have hx : ¬ x = '\n' := fun he => h (he ▸ List.mem_cons_self _ _)
    have h' : '\n' ∉ xs := fun hm => h (List.mem_cons_of_mem _ hm)
    rw [List.cons_append]
    simp only [splitChar, ih h', if_neg hx]

theorem extractLoop_comment (fuel : Nat) (c : Str) (lines : List Str)
    (hc : ((sTrim c).isEmpty || sStarts "//".data (sTrim c)
        || sStarts "#".data (sTrim c)) = true) :
    extractLoop (fuel + 1) (c :: lines) = extractLoop fuel lines := by
  simp only [extractLoop, hc, if_true]

/-- C10: a top-level line whose trimmed text is empty or begins with `//`
or `#` is skipped by the block extractor, so prepending such a line to
any source leaves the entire result of `parseMcd` — blocks, model,
errors and warnings — unchanged. -/
theorem c10_comment_lines_ignored (c src : Str) (hnl : '\n' ∉ c)
    (hcomment : ((sTrim c).isEmpty || sStarts "//".data (sTrim c)
        || sStarts "#".data (sTrim c)) = true) :
    parseMcd (c ++ '\n' :: src) = parseMcd src := by
  have hblocks : extractBlocks (c ++ '\n' :: src) = extractBlocks src := by
    unfold extractBlocks
    dsimp only
    rw [splitChar_append_newline c src hnl, List.length_cons]
    exact extractLoop_comment _ _ _ hcomment
  unfold parseMcd
  rw [hblocks]

/-- Witness for C10: prepending a comment line to a small model source
changes nothing in the parse result. -/
theorem c10_comment_lines_ignored_witness :
    ('\n' ∉ "// commentaire".data) ∧
    parseMcd ("// commentaire".data ++ '\n' :: "ENTITY A \x7b id [PK] \x7d".data)
      = parseMcd "ENTITY A \x7b id [PK] \x7d".data :=
  ⟨by decide,
   c10_comment_lines_ignored "// commentaire".data "ENTITY A \x7b id [PK] \x7d".data
     (by decide) (by decide)⟩

/-! ## `main.ts` text generators and `mldParser.ts` / `mpdParser.ts`
(claim C3) -/

/-- One column line of `generateMldText`. -/
def mldColLine (col : MldColumn) : Str :=
  let def0 := "    ".data ++ col.name
  let flags : List Str :=
    (if col.isPrimaryKey then ["[PK]".data] else [])
    ++ (match col.foreignKey with
        | some fk => ["[FK -> ".data ++ fk.referencedTable
            ++ '.' :: fk.referencedColumn ++ "]".data]
        | none => [])
  if flags.length > 0 then def0 ++ ' ' :: sJoin " ".data flags else def0

/-- `generateMldText`. -/
def generateMldText (model : MldModel) : Str :=
  sTrim (sJoin "\n".data (model.tables.foldl (fun lines table =>
    lines ++ ["TABLE ".data ++ table.name ++ " \x7b".data]
      ++ table.columns.map mldColLine ++ ["\x7d".data, []]) []))

/-- One column line of `generateMpdText`. -/
def mpdColLine (col : MpdColumn) : Str :=
  let def0 := "    ".data ++ col.name ++ ' ' :: col.sqlType
  let cflags := col.constraints.foldl (fun fl c =>
    match c.kind with
    | .notNull => fl ++ ["[NOT NULL]".data]
    | .unique => fl ++ ["[UNIQUE]".data]
    | .check =>
      match c.expression with
      | some e => if e.isEmpty then fl
          else fl ++ ["[CHECK(".data ++ e ++ ")]".data]
      | none => fl) []
  let fkflags : List Str :=
    match col.foreignKey with
    | some fk =>
      ["[FK -> ".data ++ fk.referencedTable ++ '.' :: fk.referencedColumn
        ++ (match fk.onDelete with
            | some a => " ON DELETE ".data ++ a.str
            | none => [])
        ++ (match fk.onUpdate with
            | some a => " ON UPDATE ".data ++ a.str
            | none => [])
        ++ "]".data]
    | none => []
  let flags := (if col.isPrimaryKey then ["[PK]".data] else [])
    ++ cflags ++ fkflags
  if flags.length > 0 then def0 ++ ' ' :: sJoin " ".data flags else def0

/-- `generateMpdText`. -/
def generateMpdText (model : MpdModel) : Str :=
  sTrim (sJoin "\n".data (model.tables.foldl (fun lines table =>
    lines ++ ["TABLE ".data ++ table.name ++ " \x7b".data]
      ++ table.columns.map mpdColLine ++ ["\x7d".data, []]) []))

/-- Case-insensitive substring test (`/pat/i.test(s)`). -/
def sHasI (s pat : Str) : Bool :=
  sHas (sUpper s) (sUpper pat)

/-- Case-insensitive `^TABLE\s+(\w+)\s*\{?\s*$` matcher shared by
`parseMld` and `parseMpd`. -/
def tableHeaderMatch (line : Str) : Option Str :=
  if sUpper (line.take 5) = "TABLE".data then
    match line.drop 5 with
    | [] => none
    | c :: r =>
      if isSpaceChar c then
        match (r.dropWhile isSpaceChar).span isWordChar with
        | ([], _) => none
        | (w, r3) =>
          match r3.dropWhile isSpaceChar with
          | [] => some w
          | '{' :: r5 => if (r5.dropWhile isSpaceChar).isEmpty then some w else none
          | _ => none
      else none
  else none

/-- Try the `\[FK\s*->\s*(\w+)\.(\w+)\]` pattern (case-insensitive) at the
head of the string. -/
def fkMatchAt (s : Str) : Option (Str × Str) :=
  match s with
  | '[' :: s1 =>
    if sUpper (s1.take 2) = "FK".data then
      match (s1.drop 2).dropWhile isSpaceChar with
      | '-' :: '>' :: s3 =>
        match (s3.dropWhile isSpaceChar).span isWordChar with
        | ([], _) => none
        | (t, r1) =>
          match r1 with
          | '.' :: r2 =>
            match r2.span isWordChar with
            | ([], _) => none
            | (c, r3) =>
              match r3 with
              | ']' :: _ => some (t, c)
              | _ => none
          | _ => none
      | _ => none
    else none
  | _ => none

/-- Regex search: try a matcher at every start position, leftmost first. -/
def strSearchO {γ : Type} (p : Str → Option γ) : Str → Option γ
  | [] => p []
  | c :: rest =>
    match p (c :: rest) with
    | some r => some r
    | none => strSearchO p rest

/-- Boolean regex search. -/
def strSearch (p : Str → Bool) : Str → Bool
  | [] => p []
  | c :: rest => p (c :: rest) || strSearch p rest

/-- `parseMldColumn`. -/
def parseMldColumn (line : Str) : Option MldColumn :=
  let cleaned := sTrim (stripTrailingComma line)
  match cleaned.span isWordChar with
  | ([], _) => none
  | (w, rest) =>
    let flags := rest.dropWhile isSpaceChar
    some { name := w,
           isPrimaryKey := sHasI flags "[PK]".data,
           foreignKey :=
             match strSearchO fkMatchAt flags with
             | some tc => some { columnName := w, referencedTable := tc.1,
                                 referencedColumn := tc.2 }
             | none => none }

/-- Text of the invalid-MLD-column error. -/
def mldInvalidColMsg (colLine tname : Str) : Str :=
  "Colonne MLD invalide : \"".data ++ colLine
    ++ "\" dans la table \"".data ++ tname ++ "\".".data

/-- The column loop of `parseMld`, fuelled by the number of remaining
lines. -/
def mldColLoop (tname : Str) :
    Nat → List Str → List MldColumn → List Str →
      List MldColumn × List Str × List Str
  | 0, lines, cols, errs => (cols, errs, lines)
  | _, [], cols, errs => (cols, errs, [])
  | fuel + 1, l :: rest, cols, errs =>
    let colLine := sTrim l
    if colLine = "\x7d".data then (cols, errs, rest)
    else if colLine.isEmpty then mldColLoop tname fuel rest cols errs
    else
      match parseMldColumn colLine with
      | some col => mldColLoop tname fuel rest (cols ++ [col]) errs
      | none =>
        if '}' ∈ colLine then (cols, errs, rest)
        else mldColLoop tname fuel rest cols
          (errs ++ [mldInvalidColMsg colLine tname])

/-- The table loop of `parseMld`. -/
def parseMldLoop : Nat → List Str → MldModel × List Str → MldModel × List Str
  | 0, _, st => st
  | _, [], st => st
  | fuel + 1, l :: rest, st =>
    match tableHeaderMatch (sTrim l) with
    | some tname =>
      let cr := mldColLoop tname rest.length rest [] st.2
      parseMldLoop fuel cr.2.2
        ({ tables := st.1.tables ++ [{ name := tname, columns := cr.1 }] },
         cr.2.1)
    | none => parseMldLoop fuel rest st

/-- `parseMld`. -/
def parseMld (source : Str) : MldModel × List Str :=
  let lines := splitChar source '\n'
  parseMldLoop lines.length lines ({ tables := [] }, [])

/-- The optional `(\d+(?:,\d+)?)` suffix of an SQL type token: on any
failure the whole group is skipped, leaving the rest to the flags. -/
def sqlTypeMatch (s : Str) : Option (Str × Str) :=
  match s.span isWordChar with
  | ([], _) => none
  | (w, rest) =>
    match rest with
    | '(' :: r1 =>
      match r1.span Char.isDigit with
      | ([], _) => some (w, rest)
      | (d1, r2) =>
        match r2 with
        | ')' :: r3 => some (w ++ '(' :: d1 ++ [')'], r3)
        | ',' :: r4 =>
          match r4.span Char.isDigit with
          | ([], _) => some (w, rest)
          | (d2, r5) =>
            match r5 with
            | ')' :: r6 => some (w ++ '(' :: d1 ++ ',' :: d2 ++ [')'], r6)
            | _ => some (w, rest)
        | _ => some (w, rest)
    | _ => some (w, rest)

/-- Try `\[NOT\s*NULL\]` (case-insensitive) at the head. -/
def notNullAt (s : Str) : Bool :=
  match s with
  | '[' :: r =>
    if sUpper (r.take 3) = "NOT".data then
      let r2 := (r.drop 3).dropWhile isSpaceChar
      if sUpper (r2.take 4) = "NULL".data then
        match r2.drop 4 with
        | ']' :: _ => true
        | _ => false
      else false
    else false
  | _ => false

/-- Try `\[PK\]` (case-insensitive) at the head. -/
def pkAt (s : Str) : Bool :=
  sUpper (s.take 4) = "[PK]".data

/-- Try `\[UNIQUE\]` (case-insensitive) at the head. -/
def uniqueAt (s : Str) : Bool :=
  sUpper (s.take 8) = "[UNIQUE]".data

/-- Try `\[CHECK\(([^)]+)\)\]` (case-insensitive) at the head. -/
def checkAt (s : Str) : Option Str :=
  if sUpper (s.take 7) = "[CHECK(".data then
    let rest := s.drop 7
    let e := rest.takeWhile (fun c => !decide (c = ')'))
    if e.isEmpty then none
    else
      match rest.drop e.length with
      | ')' :: ']' :: _ => some e
      | _ => none
  else none

/-- `\s+ON\s+KW\s+` prefix (case-insensitive keywords), returning the
rest after the final run of whitespace. -/
def onKw (kw : Str) (s : Str) : Option Str :=
  match s with
  | [] => none
  | c :: _ =>
    if isSpaceChar c then
      let s1 := s.dropWhile isSpaceChar
      if sUpper (s1.take 2) = "ON".data then
        match s1.drop 2 with
        | [] => none
        | c2 :: _ =>
          if isSpaceChar c2 then
            let s2 := (s1.drop 2).dropWhile isSpaceChar
            if sUpper (s2.take kw.length) = kw then
              match s2.drop kw.length with
              | [] => none
              | c3 :: _ =>
                if isSpaceChar c3 then
                  some ((s2.drop kw.length).dropWhile isSpaceChar)
                else none
            else none
          else none
      else none
    else none

/-- The referential-action capture `(\w+(?:\s+\w+)?)` followed by a
continuation: greedily try the two-word form, then backtrack to the
one-word form. -/
def actionThen {γ : Type} (s : Str) (K : Str → Option γ) : Option (Str × γ) :=
  match s.span isWordChar with
  | ([], _) => none
  | (w1, r) =>
    let sp := r.takeWhile isSpaceChar
    let r2 := r.dropWhile isSpaceChar
    if sp.isEmpty then
      match K r with
      | some g => some (w1, g)
      | none => none
    else
      match r2.span isWordChar with
      | ([], _) =>
        match K r with
        | some g => some (w1, g)
        | none => none
      | (w2, r3) =>
        match K r3 with
        | some g => some (w1 ++ sp ++ w2, g)
        | none =>
          match K r with
          | some g => some (w1, g)
          | none => none

/-- The optional `ON UPDATE` group followed by the closing bracket. -/
def fkTail2 (s : Str) : Option (Option Str) :=
  match (match onKw "UPDATE".data s with
         | some r =>
           (match actionThen r (fun r2 =>
               match r2 with
               | ']' :: _ => some ()
               | _ => none) with
            | some au => some (some au.1)
            | none => none)
         | none => none) with
  | some res => some res
  | none =>
    match s with
    | ']' :: _ => some none
    | _ => none

/-- The optional `ON DELETE` group followed by `fkTail2`. -/
def fkTail1 (s : Str) : Option (Option Str × Option Str) :=
  match (match onKw "DELETE".data s with
         | some r =>
           (match actionThen r fkTail2 with
            | some au => some (some au.1, au.2)
            | none => none)
         | none => none) with
  | some res => some res
  | none =>
    match fkTail2 s with
    | some u => some (none, u)
    | none => none

/-- Try the full MPD foreign-key pattern at the head. -/
def mpdFkAt (s : Str) : Option (Str × Str × Option Str × Option Str) :=
  match s with
  | '[' :: s1 =>
    if sUpper (s1.take 2) = "FK".data then
      match (s1.drop 2).dropWhile isSpaceChar with
      | '-' :: '>' :: s3 =>
        match (s3.dropWhile isSpaceChar).span isWordChar with
        | ([], _) => none
        | (t, r1) =>
          match r1 with
          | '.' :: r2 =>
            match r2.span isWordChar with
            | ([], _) => none
            | (c, r3) =>
              match fkTail1 r3 with
              | some du => some (t, c, du.1, du.2)
              | none => none
          | _ => none
      | _ => none
    else none
  | _ => none

/-- `parseReferentialAction`. -/
def parseRefAction (v : Option Str) : Option ReferentialAction :=
  match v with
  | none => none
  | some s =>
    if s.isEmpty then none
    else
      let upper := sTrim (sUpper s)
      if upper = "CASCADE".data then some .cascade
      else if upper = "SET NULL".data then some .setNull
      else if upper = "SET DEFAULT".data then some .setDefault
      else if upper = "RESTRICT".data then some .restrict
      else if upper = "NO ACTION".data then some .noAction
      else none

/-- Text of the invalid-MPD-column error. -/
def mpdInvalidColMsg (tname cleaned : Str) : Str :=
  "Colonne MPD invalide dans \"".data ++ tname ++ "\" : \"".data
    ++ cleaned ++ "\".".data

/-- `parseMpdColumn`. -/
def parseMpdColumn (line tableName : Str) (errors : List Str) :
    Option MpdColumn × List Str :=
  let cleaned := sTrim (stripTrailingComma line)
  match cleaned.span isWordChar with
  | ([], _) => (none, errors ++ [mpdInvalidColMsg tableName cleaned])
  | (name, r1) =>
    match r1 with
    | [] => (none, errors ++ [mpdInvalidColMsg tableName cleaned])
    | c :: _ =>
      if isSpaceChar c then
        match sqlTypeMatch (r1.dropWhile isSpaceChar) with
        | none => (none, errors ++ [mpdInvalidColMsg tableName cleaned])
        | some tr =>
          let flagString := tr.2.dropWhile isSpaceChar
          let constraints : List MpdConstraint :=
            (if strSearch notNullAt flagString then
              [{ kind := .notNull, expression := none }] else [])
            ++ (if strSearch uniqueAt flagString then
              [{ kind := .unique, expression := none }] else [])
            ++ (match strSearchO checkAt flagString with
                | some e => [{ kind := .check, expression := some e }]
                | none => [])
          let fk : Option MpdForeignKey :=
            match strSearchO mpdFkAt flagString with
            | some f => some { columnName := name,
                               referencedTable := f.1,
                               referencedColumn := f.2.1,
                               onDelete := parseRefAction f.2.2.1,
                               onUpdate := parseRefAction f.2.2.2 }
            | none => none
          (some { name := name, sqlType := tr.1,
                  isPrimaryKey := strSearch pkAt flagString,
                  foreignKey := fk,
                  constraints := constraints }, errors)
      else (none, errors ++ [mpdInvalidColMsg tableName cleaned])

/-- The column loop of `parseMpd`. -/
def mpdColLoop (tname : Str) :
    Nat → List Str → List MpdColumn → List Str →
      List MpdColumn × List Str × List Str
  | 0, lines, cols, errs => (cols, errs, lines)
  | _, [], cols, errs => (cols, errs, [])
  | fuel + 1, l :: rest, cols, errs =>
    let colLine := sTrim l
    if colLine = "\x7d".data || sStarts "\x7d".data colLine then (cols, errs, rest)
    else if colLine.isEmpty then mpdColLoop tname fuel rest cols errs
    else
      match parseMpdColumn colLine tname errs with
      | (some col, errs2) => mpdColLoop tname fuel rest (cols ++ [col]) errs2
      | (none, errs2) => mpdColLoop tname fuel rest cols errs2

/-- The table loop of `parseMpd`. -/
def parseMpdLoop : Nat → List Str → MpdModel × List Str → MpdModel × List Str
  | 0, _, st => st
  | _, [], st => st
  | fuel + 1, l :: rest, st =>
    match tableHeaderMatch (sTrim l) with
    | some tname =>
      let cr := mpdColLoop tname rest.length rest [] st.2
      parseMpdLoop fuel cr.2.2
        ({ tables := st.1.tables ++ [{ name := tname, columns := cr.1 }] },
         cr.2.1)
    | none => parseMpdLoop fuel rest st

/-- `parseMpd`. -/
def parseMpd (source : Str) : MpdModel × List Str :=
  let lines := splitChar source '\n'
  parseMpdLoop lines.length lines ({ tables := [] }, [])

/-! ## Claim C3 -/

/-- Physical model refuting claim C3: one column whose constraint list is
`[UNIQUE, NOT NULL]`; the serializer emits the flags in list order but
the parser rebuilds constraints in the fixed order NOT NULL, UNIQUE,
CHECK. -/
def c3ceMpd : MpdModel :=
  { tables := [{ name := "T".data,
                 columns := [{ name := "email".data,
                               sqlType := "VARCHAR(255)".data,
                               isPrimaryKey := false, foreignKey := none,
                               constraints :=
                                 [{ kind := .unique, expression := none },
                                  { kind := .notNull, expression := none }] }] }] }

/-- Claim C3 fails as stated: serializing `c3ceMpd` with `generateMpdText`
and re-parsing with `parseMpd` yields a table with the same name and no
errors, but no permutation of its columns equals the original columns:
the single column comes back with its constraints reordered to
`[NOT NULL, UNIQUE]`, and constraint order inside a column is not
covered by the claim's `up to table/column ordering` allowance. -/
theorem c3_claim_counterexample :
    ((parseMpd (generateMpdText c3ceMpd)).1.tables.map MpdTable.name
      = c3ceMpd.tables.map MpdTable.name) ∧
    (parseMpd (generateMpdText c3ceMpd)).2 = [] ∧
    ∀ t1 ∈ c3ceMpd.tables,
      ∀ t2 ∈ (parseMpd (generateMpdText c3ceMpd)).1.tables,
        ¬ t2.columns.Perm t1.columns := by
  decide

/-- A non-empty string of `\w` characters. -/
def isWordStr (s : Str) : Bool :=
  !s.isEmpty && s.all isWordChar

theorem toUpper_eq_bracket {x : Char} (h : x.toUpper = '[') : x = '[' := by
  by_cases hc : x.toNat ≥ 97 ∧ x.toNat ≤ 122
  · exfalso
    obtain ⟨hg, hl⟩ := hc
    have hx := Char.ofNat_toNat x
    interval_cases hn : x.toNat <;>
      (rw [← hx] at h; exact absurd h (by decide))
  · unfold Char.toUpper at h
    dsimp only at h
    rw [if_neg hc] at h
    exact h

theorem isWordChar_not_space {c : Char} (h : isWordChar c = true) :
    isSpaceChar c = false := by
  by_contra h2
  have h3 : isSpaceChar c = true := Bool.eq_true_of_ne_false (fun hf => h2 hf)
  unfold isSpaceChar at h3
  rcases Bool.or_eq_true_iff.mp h3 with h4 | h4
  · rcases Bool.or_eq_true_iff.mp h4 with h5 | h5
    · rcases Bool.or_eq_true_iff.mp h5 with h6 | h6
      · rw [decide_eq_true_eq.mp h6] at h
        exact absurd h (by decide)
      · rw [decide_eq_true_eq.mp h6] at h
        exact absurd h (by decide)
    · rw [decide_eq_true_eq.mp h5] at h
      exact absurd h (by decide)
  · rw [decide_eq_true_eq.mp h4] at h
    exact absurd h (by decide)

theorem isWordStr_ne_nil {s : Str} (h : isWordStr s = true) : s ≠ [] := by
  intro he
  rw [he] at h
  exact absurd h (by decide)

theorem isWordStr_mem {s : Str} (h : isWordStr s = true) :
    ∀ c ∈ s, isWordChar c = true := by
  have h2 := (Bool.and_eq_true_iff.mp h).2
  exact fun c hc => List.all_eq_true.mp h2 c hc

theorem bracket_not_mem_word {s : Str} (h : isWordStr s = true) : '[' ∉ s :=
  fun hm => absurd (isWordStr_mem h '[' hm) (by decide)

theorem dropWhile_cons_false {p : Char → Bool} {c : Char} {r : Str}
    (h : p c = false) : (c :: r).dropWhile p = c :: r := by
  simp [List.dropWhile_cons, h]

theorem takeWhile_append_all {α : Type} {p : α → Bool} :
    ∀ {w : List α}, (∀ c ∈ w, p c = true) → ∀ (r : List α),
      (w ++ r).takeWhile p = w ++ r.takeWhile p := by
  intro w
  induction w with
  | nil => intro _ r; rfl
  | cons c cs ih =>
    intro hw r
    rw [List.cons_append, List.takeWhile_cons,
      if_pos (hw c (List.mem_cons_self _ _)), List.cons_append]
    rw [ih (fun x hx => hw x (List.mem_cons_of_mem _ hx)) r]

theorem dropWhile_append_all {α : Type} {p : α → Bool} :
    ∀ {w : List α}, (∀ c ∈ w, p c = true) → ∀ (r : List α),
      (w ++ r).dropWhile p = r.dropWhile p := by
  intro w
  induction w with
  | nil => intro _ r; rfl
  | cons c cs ih =>
    intro hw r
    rw [List.cons_append, List.dropWhile_cons,
      if_pos (hw c (List.mem_cons_self _ _))]
    exact ih (fun x hx => hw x (List.mem_cons_of_mem _ hx)) r

theorem takeWhile_cons_false {α : Type} {p : α → Bool} {c : α} {r : List α}
    (h : p c = false) : (c :: r).takeWhile p = [] := by
  simp [List.takeWhile_cons, h]

/-- `span` over a word prefix followed by a non-word (or empty) rest. -/
theorem span_wordstr {w : Str} (hw : isWordStr w = true) {r : Str}
    (hr : r = [] ∨ ∃ c r', r = c :: r' ∧ isWordChar c = false) :
    (w ++ r).span isWordChar = (w, r) := by
  have htw : (w ++ r).takeWhile isWordChar = w := by
    rw [takeWhile_append_all (isWordStr_mem hw) r]
    rcases hr with rfl | ⟨c, r', rfl, hc⟩
    · simp
    · rw [takeWhile_cons_false hc, List.append_nil]
  have hdw : (w ++ r).dropWhile isWordChar = r := by
    rw [dropWhile_append_all (isWordStr_mem hw) r]
    rcases hr with rfl | ⟨c, r', rfl, hc⟩
    · rfl
    · exact dropWhile_cons_false hc
  rw [List.span_eq_take_drop, htw, hdw]

theorem sTrim_eq_self : ∀ (s : Str),
    (∀ c, s.head? = some c → isSpaceChar c = false) →
    (∀ c, s.reverse.head? = some c → isSpaceChar c = false) →
    sTrim s = s := by
  intro s h1 h2
  unfold sTrim
  cases s with
  | nil => rfl
  | cons c1 mid =>
    rw [dropWhile_cons_false (h1 c1 rfl)]
    cases hrev : (c1 :: mid).reverse with
    | nil => exact absurd hrev (by simp)
    | cons c2 r2 =>
      rw [dropWhile_cons_false (h2 c2 (by rw [hrev]; rfl)),
        ← hrev, List.reverse_reverse]

theorem sUpper_append (a b : Str) : sUpper (a ++ b) = sUpper a ++ sUpper b :=
  List.map_append _ a b

theorem not_mem_of_contains_false {c : Char} {s : Str}
    (h : s.contains c = false) : c ∉ s := by
  intro hm
  have h2 : List.elem c s = true := List.elem_iff.mpr hm
  rw [show s.contains c = List.elem c s from rfl, h2] at h
  cases h

/-- The bracketed flag pieces emitted by the two column-line generators:
`[PK]`, `[NOT NULL]`, `[UNIQUE]`, `[CHECK(expr)]` and the foreign-key
piece with its optional `ON DELETE` / `ON UPDATE` actions. -/
inductive FlagPiece where
  | pk
  | nn
  | uq
  | chk (e : Str)
  | fkp (t c : Str) (d u : Option ReferentialAction)
  deriving DecidableEq, Repr

/-- The literal text of a flag piece, exactly as the generators emit it. -/
def pieceStr : FlagPiece → Str
  | .pk => "[PK]".data
  | .nn => "[NOT NULL]".data
  | .uq => "[UNIQUE]".data
  | .chk e => "[CHECK(".data ++ e ++ ")]".data
  | .fkp t c d u => "[FK -> ".data ++ t ++ '.' :: c
      ++ (match d with
          | some a => " ON DELETE ".data ++ a.str
          | none => [])
      ++ (match u with
          | some a => " ON UPDATE ".data ++ a.str
          | none => [])
      ++ "]".data

/-- Well-formedness of a piece: a CHECK expression is non-empty and free
of `)`, `[` and newlines; foreign-key targets are word strings. -/
def pieceWF : FlagPiece → Bool
  | .chk e => !e.isEmpty && !e.contains ')' && !e.contains '['
      && !e.contains '\n'
  | .fkp t c _ _ => isWordStr t && isWordStr c
  | _ => true

def isPkPiece : FlagPiece → Bool
  | .pk => true
  | _ => false

def isNnPiece : FlagPiece → Bool
  | .nn => true
  | _ => false

def isUqPiece : FlagPiece → Bool
  | .uq => true
  | _ => false

def chkOf : FlagPiece → Option Str
  | .chk e => some e
  | _ => none

def fkOfMpd : FlagPiece → Option (Str × Str × Option Str × Option Str)
  | .fkp t c d u => some (t, c, d.map ReferentialAction.str,
      u.map ReferentialAction.str)
  | _ => none

def fkOfMld : FlagPiece → Option (Str × Str)
  | .fkp t c _ _ => some (t, c)
  | _ => none

theorem bracket_not_mem_action (a : ReferentialAction) : '[' ∉ a.str := by
  cases a <;> decide

/-- Every well-formed piece is an opening bracket followed by
bracket-free text. -/
theorem pieceStr_shape (q : FlagPiece) (h : pieceWF q = true) :
    ∃ tail, pieceStr q = '[' :: tail ∧ '[' ∉ tail := by
  cases q with
  | pk => exact ⟨"PK]".data, rfl, by decide⟩
  | nn => exact ⟨"NOT NULL]".data, rfl, by decide⟩
  | uq => exact ⟨"UNIQUE]".data, rfl, by decide⟩
  | chk e =>
    refine ⟨"CHECK(".data ++ e ++ ")]".data, rfl, ?_⟩
    intro hm
    have hcontains : e.contains '[' = false := by
      unfold pieceWF at h
      have h1 := (Bool.and_eq_true_iff.mp h).1
      have h2 := (Bool.and_eq_true_iff.mp h1).2
      simpa using h2
    rcases List.mem_append.mp hm with hm1 | hm1
    · rcases List.mem_append.mp hm1 with hm2 | hm2
      · exact absurd hm2 (by decide)
      · exact not_mem_of_contains_false hcontains hm2
    · exact absurd hm1 (by decide)
  | fkp t c d u =>
    have hwf := Bool.and_eq_true_iff.mp h
    have hD : ∀ a : ReferentialAction,
        '[' ∉ " ON DELETE ".data ++ a.str := by
      intro a hm
      rcases List.mem_append.mp hm with hm1 | hm1
      · exact absurd hm1 (by decide)
      · exact bracket_not_mem_action a hm1
    have hU : ∀ a : ReferentialAction,
        '[' ∉ " ON UPDATE ".data ++ a.str := by
      intro a hm
      rcases List.mem_append.mp hm with hm1 | hm1
      · exact absurd hm1 (by decide)
      · exact bracket_not_mem_action a hm1
    have hshape : ∀ D U : Str, '[' ∉ D → '[' ∉ U →
        '[' ∉ "FK -> ".data ++ t ++ '.' :: c ++ D ++ U ++ "]".data := by
      intro D U hDm hUm hm
      rcases List.mem_append.mp hm with hm1 | hm1
      · rcases List.mem_append.mp hm1 with hm2 | hm2
        · rcases List.mem_append.mp hm2 with hm3 | hm3
          · rcases List.mem_append.mp hm3 with hm4 | hm4
            · rcases List.mem_append.mp hm4 with hm5 | hm5
              · exact absurd hm5 (by decide)
              · exact bracket_not_mem_word hwf.1 hm5
            · rcases List.mem_cons.mp hm4 with hm5 | hm5
              · exact absurd hm5 (by decide)
              · exact bracket_not_mem_word hwf.2 hm5
          · exact hDm hm3
        · exact hUm hm2
      · exact absurd hm1 (by decide)
    cases d with
    | none =>
      cases u with
      | none => exact ⟨_, rfl, hshape [] [] (by decide) (by decide)⟩
      | some a => exact ⟨_, rfl, hshape [] _ (by decide) (hU a)⟩
    | some a =>
      cases u with
      | none => exact ⟨_, rfl, hshape _ [] (hD a) (by decide)⟩
      | some b => exact ⟨_, rfl, hshape _ _ (hD a) (hU b)⟩

theorem strSearch_skip (M : Str → Bool)
    (hM : ∀ c s, M (c :: s) = true → c = '[') :
    ∀ (pre : Str), '[' ∉ pre → ∀ X,
      strSearch M (pre ++ X) = strSearch M X := by
  intro pre
  induction pre with
  | nil => intro _ X; rfl
  | cons c cs ih =>
    intro hpre X
    have hc : M (c :: (cs ++ X)) = false := by
      cases hMc : M (c :: (cs ++ X)) with
      | false => rfl
      | true =>
        exact absurd (show '[' ∈ c :: cs by
          rw [← hM c _ hMc]; exact List.mem_cons_self _ _) hpre
    rw [List.cons_append]
    show (M (c :: (cs ++ X)) || strSearch M (cs ++ X)) = strSearch M X
    rw [hc, Bool.false_or,
      ih (fun hm => hpre (List.mem_cons_of_mem _ hm)) X]

theorem strSearchO_skip {γ : Type} (M : Str → Option γ)
    (hM : ∀ c s r, M (c :: s) = some r → c = '[') :
    ∀ (pre : Str), '[' ∉ pre → ∀ X,
      strSearchO M (pre ++ X) = strSearchO M X := by
  intro pre
  induction pre with
  | nil => intro _ X; rfl
  | cons c cs ih =>
    intro hpre X
    have hc : M (c :: (cs ++ X)) = none := by
      cases hMc : M (c :: (cs ++ X)) with
      | none => rfl
      | some r =>
        exact absurd (show '[' ∈ c :: cs by
          rw [← hM c _ r hMc]; exact List.mem_cons_self _ _) hpre
    rw [List.cons_append]
    show (match M (c :: (cs ++ X)) with
          | some r => some r
          | none => strSearchO M (cs ++ X)) = strSearchO M X
    rw [hc]
    exact ih (fun hm => hpre (List.mem_cons_of_mem _ hm)) X

theorem sJoin_cons_cons (sep x y : Str) (xs : List Str) :
    sJoin sep (x :: y :: xs) = x ++ sep ++ sJoin sep (y :: xs) := rfl

/-- Searching a bracket-headed Boolean matcher over the space-joined
rendering of well-formed pieces finds exactly the pieces' own at-start
values. -/
theorem strSearch_joinPieces (M : Str → Bool)
    (hM : ∀ c s, M (c :: s) = true → c = '[')
    (hnil : M [] = false)
    (hval : FlagPiece → Bool) :
    ∀ P : List FlagPiece, (∀ q ∈ P, pieceWF q = true) →
      (∀ q ∈ P, ∀ X, M (pieceStr q ++ X) = hval q) →
      strSearch M (sJoin " ".data (P.map pieceStr)) = P.any hval := by
  intro P
  induction P with
  | nil =>
    intro _ _
    show M [] = List.any [] hval
    rw [hnil, List.any_nil]
  | cons q P ih =>
    intro hwf hat
    obtain ⟨tail, htail, hnb⟩ :=
      pieceStr_shape q (hwf q (List.mem_cons_self _ _))
    have hatq := hat q (List.mem_cons_self _ _)
    cases P with
    | nil =>
      show strSearch M (pieceStr q) = List.any [q] hval
      have h2 := hatq []
      rw [List.append_nil] at h2
      rw [htail]
      show (M ('[' :: tail) || strSearch M tail) = List.any [q] hval
      have h1 : strSearch M tail = false := by
        have h3 := strSearch_skip M hM tail hnb []
        rw [List.append_nil] at h3
        rw [h3]
        exact hnil
      rw [h1, Bool.or_false, ← htail, h2, List.any_cons, List.any_nil,
        Bool.or_false]
    | cons q2 P2 =>
      show strSearch M (pieceStr q ++ " ".data
          ++ sJoin " ".data (List.map pieceStr (q2 :: P2)))
        = List.any (q :: q2 :: P2) hval
      rw [List.append_assoc]
      have hsep : " ".data ++ sJoin " ".data ((q2 :: P2).map pieceStr)
          = ' ' :: sJoin " ".data ((q2 :: P2).map pieceStr) := rfl
      rw [hsep, htail, List.cons_append]
      show (M ('[' :: (tail ++ ' ' :: sJoin " ".data ((q2 :: P2).map pieceStr)))
          || strSearch M (tail ++ ' ' :: sJoin " ".data ((q2 :: P2).map pieceStr)))
        = List.any (q :: q2 :: P2) hval
      have h2 := hatq (' ' :: sJoin " ".data ((q2 :: P2).map pieceStr))
      rw [htail, List.cons_append] at h2
      rw [h2, strSearch_skip M hM tail hnb]
      have hspace : strSearch M (' ' :: sJoin " ".data ((q2 :: P2).map pieceStr))
          = strSearch M (sJoin " ".data ((q2 :: P2).map pieceStr)) := by
        show (M (' ' :: _) || _) = _
        have hsp : M (' ' :: sJoin " ".data ((q2 :: P2).map pieceStr)) = false := by
          cases hMc : M (' ' :: sJoin " ".data ((q2 :: P2).map pieceStr)) with
          | false => rfl
          | true => exact absurd (hM _ _ hMc) (by decide)
        rw [hsp, Bool.false_or]
      rw [hspace,
        ih (fun p hp => hwf p (List.mem_cons_of_mem _ hp))
           (fun p hp => hat p (List.mem_cons_of_mem _ hp))]
      simp [List.any_cons]

/-- Option-valued analogue of `strSearch_joinPieces`: the leftmost
at-start value wins; a piece with a value is only allowed in non-final
position if its matcher also fires with arbitrary following text. -/
theorem strSearchO_joinPieces {γ : Type} (M : Str → Option γ)
    (hM : ∀ c s r, M (c :: s) = some r → c = '[')
    (hnil : M [] = none)
    (hval : FlagPiece → Option γ) :
    ∀ P : List FlagPiece, (∀ q ∈ P, pieceWF q = true) →
      (∀ q ∈ P, ∀ X, hval q = none → M (pieceStr q ++ X) = none) →
      (∀ q ∈ P, ∀ r, hval q = some r → M (pieceStr q) = some r) →
      (∀ q ∈ P.dropLast, ∀ r, hval q = some r →
        ∀ X, M (pieceStr q ++ X) = some r) →
      strSearchO M (sJoin " ".data (P.map pieceStr)) = P.findSome? hval := by
  intro P
  induction P with
  | nil =>
    intro _ _ _ _
    show M [] = List.findSome? hval []
    rw [hnil, List.findSome?_nil]
  | cons q P ih =>
    intro hwf hatn hats hlast
    obtain ⟨tail, htail, hnb⟩ :=
      pieceStr_shape q (hwf q (List.mem_cons_self _ _))
    cases P with
    | nil =>
      show strSearchO M (pieceStr q) = List.findSome? hval [q]
      rw [List.findSome?_cons]
      cases hq : hval q with
      | none =>
        have h2 := hatn q (List.mem_cons_self _ _) [] hq
        rw [List.append_nil] at h2
        rw [htail]
        show (match M ('[' :: tail) with
              | some r => some r
              | none => strSearchO M tail) = List.findSome? hval []
        rw [htail] at h2
        rw [h2]
        have h3 := strSearchO_skip M hM tail hnb []
        rw [List.append_nil] at h3
        rw [h3]
        exact hnil
      | some r =>
        have h2 := hats q (List.mem_cons_self _ _) r hq
        rw [htail] at h2
        rw [htail]
        show (match M ('[' :: tail) with
              | some r => some r
              | none => strSearchO M tail) = some r
        rw [h2]
    | cons q2 P2 =>
      show strSearchO M (pieceStr q ++ " ".data
          ++ sJoin " ".data (List.map pieceStr (q2 :: P2)))
        = List.findSome? hval (q :: q2 :: P2)
      rw [List.append_assoc]
      have hsep : " ".data ++ sJoin " ".data ((q2 :: P2).map pieceStr)
          = ' ' :: sJoin " ".data ((q2 :: P2).map pieceStr) := rfl
      rw [hsep, htail, List.cons_append, List.findSome?_cons]
      have hrest : strSearchO M
            (' ' :: sJoin " ".data ((q2 :: P2).map pieceStr))
          = List.findSome? hval (q2 :: P2) := by
        have hsp : M (' ' :: sJoin " ".data ((q2 :: P2).map pieceStr))
            = none := by
          cases hMc : M (' ' :: sJoin " ".data ((q2 :: P2).map pieceStr)) with
          | none => rfl
          | some r => exact absurd (hM _ _ r hMc) (by decide)
        show (match M (' ' :: _) with
              | some r => some r
              | none => strSearchO M (sJoin " ".data ((q2 :: P2).map pieceStr)))
            = _
        rw [hsp]
        refine ih (fun p hp => hwf p (List.mem_cons_of_mem _ hp))
          (fun p hp => hatn p (List.mem_cons_of_mem _ hp))
          (fun p hp => hats p (List.mem_cons_of_mem _ hp))
          (fun p hp => hlast p ?_)
        rw [List.dropLast_cons₂]
        exact List.mem_cons_of_mem _ hp
      cases hq : hval q with
      | none =>
        have h2 := hatn q (List.mem_cons_self _ _)
          (' ' :: sJoin " ".data ((q2 :: P2).map pieceStr)) hq
        rw [htail, List.cons_append] at h2
        show (match M ('[' :: (tail ++ ' ' :: _)) with
              | some r => some r
              | none => strSearchO M (tail ++ ' ' :: _)) = _
        rw [h2, strSearchO_skip M hM tail hnb, hrest]
      | some r =>
        have hqmem : q ∈ (q :: q2 :: P2).dropLast := by
          rw [List.dropLast_cons₂]
          exact List.mem_cons_self _ _
        have h2 := hlast q hqmem r hq
          (' ' :: sJoin " ".data ((q2 :: P2).map pieceStr))
        rw [htail, List.cons_append] at h2
        show (match M ('[' :: (tail ++ ' ' :: _)) with
              | some r => some r
              | none => strSearchO M (tail ++ ' ' :: _)) = some r
        rw [h2]

theorem head_upper_bracket {s : Str} {t : Str}
    (h : sUpper s = '[' :: t) : ∃ s', s = '[' :: s' := by
  cases s with
  | nil => cases h
  | cons c cs =>
    have hc : c.toUpper = '[' := by
      have := congrArg List.head? h
      simpa [sUpper] using this
    exact ⟨cs, by rw [toUpper_eq_bracket hc]⟩

/-- The `[PK]` test of `parseMldColumn` as a positional matcher. -/
def mldPkAt (s : Str) : Bool :=
  "[PK]".data.isPrefixOf (sUpper s)

theorem sHas_eq_strSearch (pat : Str) :
    ∀ s : Str, sHas s pat = strSearch (fun t => pat.isPrefixOf t) s := by
  intro s
  induction s with
  | nil => rfl
  | cons c cs ih =>
    show (pat.isPrefixOf (c :: cs) || sHas cs pat) = _
    rw [ih]
    rfl

theorem strSearch_map (p : Str → Bool) (f : Char → Char) :
    ∀ s : Str, strSearch p (s.map f) = strSearch (fun t => p (t.map f)) s := by
  intro s
  induction s with
  | nil => rfl
  | cons c cs ih =>
    show (p (f c :: cs.map f) || strSearch p (cs.map f)) = _
    rw [ih]
    rfl

theorem sHasI_pk_eq (s : Str) : sHasI s "[PK]".data = strSearch mldPkAt s := by
  unfold sHasI
  rw [show sUpper "[PK]".data = "[PK]".data from rfl, sHas_eq_strSearch,
    show sUpper s = s.map Char.toUpper from rfl, strSearch_map]
  rfl

theorem pkAt_head {c : Char} {s : Str} (h : pkAt (c :: s) = true) :
    c = '[' := by
  have h2 : sUpper ((c :: s).take 4) = "[PK]".data := of_decide_eq_true h
  have h3 : (c :: s).take 4 = c :: s.take 3 := rfl
  rw [h3] at h2
  have h4 : c.toUpper :: sUpper (s.take 3) = '[' :: "PK]".data := h2
  exact toUpper_eq_bracket ((List.cons.injEq _ _ _ _).mp h4).1

theorem uniqueAt_head {c : Char} {s : Str} (h : uniqueAt (c :: s) = true) :
    c = '[' := by
  have h2 : sUpper ((c :: s).take 8) = "[UNIQUE]".data := of_decide_eq_true h
  have h3 : (c :: s).take 8 = c :: s.take 7 := rfl
  rw [h3] at h2
  have h4 : c.toUpper :: sUpper (s.take 7) = '[' :: "UNIQUE]".data := h2
  exact toUpper_eq_bracket ((List.cons.injEq _ _ _ _).mp h4).1

theorem checkAt_head {c : Char} {s : Str} {r : Str}
    (h : checkAt (c :: s) = some r) : c = '[' := by
  by_cases hc : sUpper ((c :: s).take 7) = "[CHECK(".data
  · have h3 : (c :: s).take 7 = c :: s.take 6 := rfl
    rw [h3] at hc
    have h4 : c.toUpper :: sUpper (s.take 6) = '[' :: "CHECK(".data := hc
    exact toUpper_eq_bracket ((List.cons.injEq _ _ _ _).mp h4).1
  · unfold checkAt at h
    rw [if_neg hc] at h
    cases h

theorem notNullAt_head {c : Char} {s : Str} (h : notNullAt (c :: s) = true) :
    c = '[' := by
  unfold notNullAt at h
  split at h
  · next r heq => exact ((List.cons.injEq _ _ _ _).mp heq).1
  · exact absurd h (by decide)

theorem mpdFkAt_head {c : Char} {s : Str}
    {r : Str × Str × Option Str × Option Str}
    (h : mpdFkAt (c :: s) = some r) : c = '[' := by
  unfold mpdFkAt at h
  split at h
  · next s1 heq => exact ((List.cons.injEq _ _ _ _).mp heq).1
  · exact absurd h (by simp)

theorem fkMatchAt_head {c : Char} {s : Str} {r : Str × Str}
    (h : fkMatchAt (c :: s) = some r) : c = '[' := by
  unfold fkMatchAt at h
  split at h
  · next s1 heq => exact ((List.cons.injEq _ _ _ _).mp heq).1
  · exact absurd h (by simp)

theorem mldPkAt_head {c : Char} {s : Str} (h : mldPkAt (c :: s) = true) :
    c = '[' := by
  have h2 : (('[' == c.toUpper) && "PK]".data.isPrefixOf (sUpper s)) = true := h
  exact toUpper_eq_bracket (eq_of_beq (Bool.and_eq_true_iff.mp h2).1).symm

theorem pkAt_at_pk (X : Str) : pkAt (pieceStr .pk ++ X) = true := rfl
theorem pkAt_at_nn (X : Str) : pkAt (pieceStr .nn ++ X) = false := rfl
theorem pkAt_at_uq (X : Str) : pkAt (pieceStr .uq ++ X) = false := rfl
theorem pkAt_at_chk (e X : Str) : pkAt (pieceStr (.chk e) ++ X) = false := rfl
theorem pkAt_at_fkp (t c : Str) (d u : Option ReferentialAction) (X : Str) :
    pkAt (pieceStr (.fkp t c d u) ++ X) = false := rfl

theorem nnAt_at_pk (X : Str) : notNullAt (pieceStr .pk ++ X) = false := rfl
theorem nnAt_at_nn (X : Str) : notNullAt (pieceStr .nn ++ X) = true := rfl
theorem nnAt_at_uq (X : Str) : notNullAt (pieceStr .uq ++ X) = false := rfl
theorem nnAt_at_chk (e X : Str) :
    notNullAt (pieceStr (.chk e) ++ X) = false := rfl
theorem nnAt_at_fkp (t c : Str) (d u : Option ReferentialAction) (X : Str) :
    notNullAt (pieceStr (.fkp t c d u) ++ X) = false := rfl

theorem uqAt_at_pk (X : Str) : uniqueAt (pieceStr .pk ++ X) = false := rfl
theorem uqAt_at_nn (X : Str) : uniqueAt (pieceStr .nn ++ X) = false := rfl
theorem uqAt_at_uq (X : Str) : uniqueAt (pieceStr .uq ++ X) = true := rfl
theorem uqAt_at_chk (e X : Str) :
    uniqueAt (pieceStr (.chk e) ++ X) = false := rfl
theorem uqAt_at_fkp (t c : Str) (d u : Option ReferentialAction) (X : Str) :
    uniqueAt (pieceStr (.fkp t c d u) ++ X) = false := rfl

theorem chkAt_at_pk (X : Str) : checkAt (pieceStr .pk ++ X) = none := rfl
theorem chkAt_at_nn (X : Str) : checkAt (pieceStr .nn ++ X) = none := rfl
theorem chkAt_at_uq (X : Str) : checkAt (pieceStr .uq ++ X) = none := rfl
theorem chkAt_at_fkp (t c : Str) (d u : Option ReferentialAction) (X : Str) :
    checkAt (pieceStr (.fkp t c d u) ++ X) = none := rfl

theorem mpdFkAt_at_pk (X : Str) : mpdFkAt (pieceStr .pk ++ X) = none := rfl
theorem mpdFkAt_at_nn (X : Str) : mpdFkAt (pieceStr .nn ++ X) = none := rfl
theorem mpdFkAt_at_uq (X : Str) : mpdFkAt (pieceStr .uq ++ X) = none := rfl
theorem mpdFkAt_at_chk (e X : Str) :
    mpdFkAt (pieceStr (.chk e) ++ X) = none := rfl

theorem fkMatchAt_at_pk (X : Str) : fkMatchAt (pieceStr .pk ++ X) = none := rfl

theorem mldPkAt_at_pk (X : Str) : mldPkAt (pieceStr .pk ++ X) = true := by
  show List.isPrefixOf [] (sUpper X) = true
  exact List.isPrefixOf_nil_left
theorem mldPkAt_at_fkp (t c : Str) (d u : Option ReferentialAction) (X : Str) :
    mldPkAt (pieceStr (.fkp t c d u) ++ X) = false := rfl

theorem exists_cons_of_wordStr {t : Str} (h : isWordStr t = true) :
    ∃ t0 ts, t = t0 :: ts := by
  cases t with
  | nil => exact absurd h (by decide)
  | cons a b => exact ⟨a, b, rfl⟩

theorem wordStr_head_not_space {t0 : Char} {ts : Str}
    (h : isWordStr (t0 :: ts) = true) : isSpaceChar t0 = false :=
  isWordChar_not_space (isWordStr_mem h t0 (List.mem_cons_self _ _))

theorem dropWhile_one_space (t0 : Char) (h : isSpaceChar t0 = false)
    (Y : Str) :
    List.dropWhile isSpaceChar (' ' :: t0 :: Y) = t0 :: Y := by
  rw [List.dropWhile_cons, if_pos (by decide)]
  exact dropWhile_cons_false h

theorem fkMatchAt_pos (t c : Str) (ht : isWordStr t = true)
    (hc : isWordStr c = true) (X : Str) :
    fkMatchAt (pieceStr (.fkp t c none none) ++ X) = some (t, c) := by
  have harr : pieceStr (.fkp t c none none) ++ X
      = "[FK -> ".data ++ (t ++ ('.' :: (c ++ ("]".data ++ X)))) := by
    simp [pieceStr, List.append_assoc]
  rw [harr]
  obtain ⟨t0, ts, rfl⟩ := exists_cons_of_wordStr ht
  obtain ⟨c0, cs, rfl⟩ := exists_cons_of_wordStr hc
  conv_lhs => whnf
  rw [show [' '].append ((t0 :: ts) ++ '.' :: ((c0 :: cs) ++ ("]".data ++ X)))
      = ' ' :: t0 :: (ts ++ '.' :: ((c0 :: cs) ++ ("]".data ++ X))) from rfl]
  rw [dropWhile_one_space t0 (wordStr_head_not_space ht) _]
  rw [show t0 :: (ts ++ '.' :: ((c0 :: cs) ++ ("]".data ++ X)))
      = (t0 :: ts) ++ '.' :: ((c0 :: cs) ++ ("]".data ++ X)) from rfl]
  rw [span_wordstr ht (Or.inr ⟨'.', _, rfl, by decide⟩)]
  conv_lhs => whnf
  rw [show c0 :: cs ++ ("]".data ++ X)
      = (c0 :: cs) ++ (']' :: X) from rfl]
  rw [span_wordstr hc (Or.inr ⟨']', X, rfl, by decide⟩)]
  rfl

/-- The concrete text following the referenced column inside an MPD
foreign-key piece. -/
def fkpTail (d u : Option ReferentialAction) : Str :=
  (match d with
   | some a => " ON DELETE ".data ++ a.str
   | none => [])
  ++ ((match u with
       | some a => " ON UPDATE ".data ++ a.str
       | none => []) ++ "]".data)

theorem pieceStr_fkp_assoc (t c : Str) (d u : Option ReferentialAction) :
    pieceStr (.fkp t c d u)
      = "[FK -> ".data ++ (t ++ ('.' :: (c ++ fkpTail d u))) := by
  simp [pieceStr, fkpTail, List.append_assoc]

theorem fkTail1_fkpTail (d u : Option ReferentialAction) :
    fkTail1 (fkpTail d u)
      = some (d.map ReferentialAction.str, u.map ReferentialAction.str) := by
  cases d with
  | none =>
    cases u with
    | none => decide
    | some b => cases b <;> decide
  | some a =>
    cases u with
    | none => cases a <;> decide
    | some b => cases a <;> cases b <;> decide

theorem fkpTail_head (d u : Option ReferentialAction) :
    ∃ ch T', fkpTail d u = ch :: T' ∧ isWordChar ch = false := by
  cases d with
  | none =>
    cases u with
    | none => exact ⟨']', [], rfl, by decide⟩
    | some b => exact ⟨' ', _, rfl, by decide⟩
  | some a => exact ⟨' ', _, rfl, by decide⟩

theorem mpdFkAt_pos_aux (t c T : Str) (ht : isWordStr t = true)
    (hc : isWordStr c = true)
    (hT : ∃ ch T', T = ch :: T' ∧ isWordChar ch = false)
    {du : Option Str × Option Str} (hTfk : fkTail1 T = some du) :
    mpdFkAt ("[FK -> ".data ++ (t ++ ('.' :: (c ++ T))))
      = some (t, c, du.1, du.2) := by
  obtain ⟨t0, ts, rfl⟩ := exists_cons_of_wordStr ht
  obtain ⟨c0, cs, rfl⟩ := exists_cons_of_wordStr hc
  conv_lhs => whnf
  rw [show [' '].append ((t0 :: ts) ++ '.' :: ((c0 :: cs) ++ T))
      = ' ' :: t0 :: (ts ++ '.' :: ((c0 :: cs) ++ T)) from rfl]
  rw [dropWhile_one_space t0 (wordStr_head_not_space ht) _]
  rw [show t0 :: (ts ++ '.' :: ((c0 :: cs) ++ T))
      = (t0 :: ts) ++ '.' :: ((c0 :: cs) ++ T) from rfl]
  rw [span_wordstr ht (Or.inr ⟨'.', _, rfl, by decide⟩)]
  conv_lhs => whnf
  rw [span_wordstr hc (Or.inr hT)]
  conv_lhs => whnf
  rw [hTfk]

theorem mpdFkAt_pos (t c : Str) (d u : Option ReferentialAction)
    (ht : isWordStr t = true) (hc : isWordStr c = true) :
    mpdFkAt (pieceStr (.fkp t c d u))
      = some (t, c, d.map ReferentialAction.str, u.map ReferentialAction.str) := by
  rw [pieceStr_fkp_assoc]
  exact mpdFkAt_pos_aux t c (fkpTail d u) ht hc (fkpTail_head d u)
    (fkTail1_fkpTail d u)

theorem checkAt_pos (e : Str) (hwf : pieceWF (.chk e) = true) (X : Str) :
    checkAt (pieceStr (.chk e) ++ X) = some e := by
  unfold pieceWF at hwf
  have h1 := (Bool.and_eq_true_iff.mp hwf).1
  have h2 := (Bool.and_eq_true_iff.mp h1).1
  have hne : e.isEmpty = false := by
    simpa using (Bool.and_eq_true_iff.mp h2).1
  have hnp : (')' : Char) ∉ e :=
    not_mem_of_contains_false (by simpa using (Bool.and_eq_true_iff.mp h2).2)
  have harr : pieceStr (.chk e) ++ X
      = "[CHECK(".data ++ (e ++ (")]".data ++ X)) := by
    simp [pieceStr, List.append_assoc]
  rw [harr]
  conv_lhs => whnf
  rw [show List.drop 7 ("[CHECK(".data ++ (e ++ (")]".data ++ X)))
      = e ++ (")]".data ++ X) from rfl]
  have htw : List.takeWhile (fun c => !decide (c = ')'))
      (e ++ (")]".data ++ X)) = e := by
    rw [takeWhile_append_all (fun ch hch => ?_) _]
    · rw [show (")]".data ++ X) = ')' :: ("]".data ++ X) from rfl,
        takeWhile_cons_false (by decide), List.append_nil]
    · have : ch ≠ ')' := fun hch2 => hnp (hch2 ▸ hch)
      simpa using this
  rw [htw, hne]
  conv_lhs => whnf
  rw [List.drop_left]
  rfl

theorem wordStr_rev_head {name : Str} (hn : isWordStr name = true) :
    ∀ ch, name.reverse.head? = some ch → isSpaceChar ch = false := by
  intro ch hch
  have hmem : ch ∈ name.reverse := List.mem_of_mem_head? (by rw [hch]; rfl)
  exact isWordChar_not_space (isWordStr_mem hn ch (List.mem_reverse.mp hmem))

theorem stripTrailingComma_eq_self {s : Str}
    (h : ∀ c, s.reverse.head? = some c → isSpaceChar c = false ∧ c ≠ ',') :
    stripTrailingComma s = s := by
  unfold stripTrailingComma
  cases hrev : s.reverse with
  | nil => rfl
  | cons c r =>
    rw [dropWhile_cons_false (h c (by rw [hrev]; rfl) |>.1)]
    split
    · next heq =>
      exact absurd (((List.cons.injEq _ _ _ _).mp heq).1)
        ((h c (by rw [hrev]; rfl)).2)
    · rfl

/-- Every flag piece ends with a closing bracket. -/
theorem pieceStr_ends (q : FlagPiece) : ∃ Y, pieceStr q = Y ++ [']'] := by
  cases q with
  | pk => exact ⟨"[PK".data, by decide⟩
  | nn => exact ⟨"[NOT NULL".data, by decide⟩
  | uq => exact ⟨"[UNIQUE".data, by decide⟩
  | chk e =>
    refine ⟨"[CHECK(".data ++ e ++ [')'], ?_⟩
    show "[CHECK(".data ++ e ++ ")]".data = _
    rw [List.append_assoc, List.append_assoc]
    rfl
  | fkp t c d u =>
    refine ⟨"[FK -> ".data ++ t ++ '.' :: c
      ++ (match d with
          | some a => " ON DELETE ".data ++ a.str
          | none => [])
      ++ (match u with
          | some a => " ON UPDATE ".data ++ a.str
          | none => []), ?_⟩
    rfl

theorem sJoin_pieces_ends (P : List FlagPiece) (hne : P ≠ []) :
    ∃ Y, sJoin " ".data (P.map pieceStr) = Y ++ [']'] := by
  induction P with
  | nil => exact absurd rfl hne
  | cons q P ih =>
    cases P with
    | nil =>
      obtain ⟨Y, hY⟩ := pieceStr_ends q
      exact ⟨Y, hY⟩
    | cons q2 P2 =>
      obtain ⟨Y2, hY2⟩ := ih (by intro hco; cases hco)
      refine ⟨pieceStr q ++ " ".data ++ Y2, ?_⟩
      show pieceStr q ++ " ".data ++ sJoin " ".data ((q2 :: P2).map pieceStr) = _
      rw [hY2, ← List.append_assoc]

theorem sTrim_spaces_word (name R : Str) (hn : isWordStr name = true)
    (hlast : ∀ ch, (name ++ R).reverse.head? = some ch →
      isSpaceChar ch = false) :
    sTrim ("    ".data ++ (name ++ R)) = name ++ R := by
  obtain ⟨n0, ns, rfl⟩ := exists_cons_of_wordStr hn
  unfold sTrim
  rw [show ("    ".data ++ ((n0 :: ns) ++ R))
      = ' ' :: ' ' :: ' ' :: ' ' :: ((n0 :: ns) ++ R) from rfl]
  rw [List.dropWhile_cons, if_pos (by decide), List.dropWhile_cons,
    if_pos (by decide), List.dropWhile_cons, if_pos (by decide),
    List.dropWhile_cons, if_pos (by decide)]
  rw [show ((n0 :: ns) ++ R) = n0 :: (ns ++ R) from rfl,
    dropWhile_cons_false (wordStr_head_not_space hn)]
  cases hrev : (n0 :: (ns ++ R)).reverse with
  | nil => exact absurd hrev (by simp)
  | cons c2 r2 =>
    rw [dropWhile_cons_false (hlast c2 (by
        rw [show (n0 :: ns) ++ R = n0 :: (ns ++ R) from rfl, hrev]; rfl)),
      ← hrev, List.reverse_reverse]

/-- The flag pieces of an MLD column. -/
def mldPieces (col : MldColumn) : List FlagPiece :=
  (if col.isPrimaryKey then [FlagPiece.pk] else [])
  ++ (match col.foreignKey with
      | some fk => [FlagPiece.fkp fk.referencedTable fk.referencedColumn
          none none]
      | none => [])

/-- Well-formedness of an MLD column for the round-trip. -/
def mldColWF (c : MldColumn) : Bool :=
  isWordStr c.name &&
  (match c.foreignKey with
   | some fk => decide (fk.columnName = c.name) && isWordStr fk.referencedTable
       && isWordStr fk.referencedColumn
   | none => true)

theorem mldPieces_wf {col : MldColumn} (h : mldColWF col = true) :
    ∀ q ∈ mldPieces col, pieceWF q = true := by
  intro q hq
  unfold mldPieces at hq
  rcases List.mem_append.mp hq with h1 | h1
  · have : q = FlagPiece.pk := by
      cases hpk : col.isPrimaryKey <;> rw [hpk] at h1
      · cases h1
      · simpa using h1
    rw [this]
    rfl
  · cases hfk : col.foreignKey with
    | none => rw [hfk] at h1; cases h1
    | some fk =>
      rw [hfk] at h1
      have : q = FlagPiece.fkp fk.referencedTable fk.referencedColumn
          none none := by simpa using h1
      rw [this]
      unfold mldColWF at h
      rw [hfk] at h
      have h2 := (Bool.and_eq_true_iff.mp h).2
      have h3 := Bool.and_eq_true_iff.mp h2
      have h4 := Bool.and_eq_true_iff.mp h3.1
      show (isWordStr fk.referencedTable && isWordStr fk.referencedColumn)
        = true
      rw [h4.2, h3.2]
      rfl

/-- The flag part appended after the column name by `mldColLine`. -/
def mldFlagsPart (col : MldColumn) : Str :=
  match mldPieces col with
  | [] => []
  | _ => ' ' :: sJoin " ".data ((mldPieces col).map pieceStr)

theorem mldColLine_eq (col : MldColumn) :
    mldColLine col = "    ".data ++ (col.name ++ mldFlagsPart col) := by
  unfold mldColLine mldFlagsPart mldPieces
  cases hpk : col.isPrimaryKey <;> cases hfk : col.foreignKey <;>
    simp [pieceStr, List.append_assoc, sJoin]

theorem joinPieces_head (q : FlagPiece) (P : List FlagPiece)
    (hwfq : pieceWF q = true) :
    ∃ T, sJoin " ".data ((q :: P).map pieceStr) = '[' :: T := by
  obtain ⟨tail, htail, _⟩ := pieceStr_shape q hwfq
  cases P with
  | nil => exact ⟨tail, htail⟩
  | cons q2 P2 =>
    refine ⟨(tail ++ " ".data) ++ sJoin " ".data ((q2 :: P2).map pieceStr), ?_⟩
    show pieceStr q ++ " ".data ++ sJoin " ".data ((q2 :: P2).map pieceStr) = _
    rw [htail]
    rfl

theorem mldFlagsPart_nil {col : MldColumn} (hp : mldPieces col = []) :
    mldFlagsPart col = [] := by
  unfold mldFlagsPart
  rw [hp]

theorem mldFlagsPart_cons {col : MldColumn} {q : FlagPiece}
    {P : List FlagPiece} (hp : mldPieces col = q :: P) :
    mldFlagsPart col = ' ' :: sJoin " ".data ((q :: P).map pieceStr) := by
  unfold mldFlagsPart
  rw [hp]

theorem sTrim_mldColLine (col : MldColumn) (h : mldColWF col = true) :
    sTrim (mldColLine col) = col.name ++ mldFlagsPart col := by
  have hname := (Bool.and_eq_true_iff.mp h).1
  rw [mldColLine_eq]
  apply sTrim_spaces_word _ _ hname
  intro ch hch
  cases hp : mldPieces col with
  | nil =>
    rw [mldFlagsPart_nil hp, List.append_nil] at hch
    exact wordStr_rev_head hname ch hch
  | cons q P =>
    obtain ⟨Y, hY⟩ := sJoin_pieces_ends (q :: P) (by intro hc0; cases hc0)
    rw [mldFlagsPart_cons hp, hY] at hch
    have hre : (col.name ++ (' ' :: (Y ++ [']'])))
        = (col.name ++ (' ' :: Y)) ++ [']'] := by
      simp [List.append_assoc]
    rw [hre, List.reverse_append] at hch
    have hch2 : ch = ']' := by simpa using hch.symm
    rw [hch2]
    decide

theorem mldPieces_any_pk (col : MldColumn) :
    (mldPieces col).any isPkPiece = col.isPrimaryKey := by
  unfold mldPieces
  cases hpk : col.isPrimaryKey <;> cases hfk : col.foreignKey <;>
    simp [isPkPiece]

theorem mldPieces_findSome_fk (col : MldColumn) :
    (mldPieces col).findSome? fkOfMld
      = (match col.foreignKey with
         | some fk => some (fk.referencedTable, fk.referencedColumn)
         | none => none) := by
  unfold mldPieces
  cases hpk : col.isPrimaryKey <;> cases hfk : col.foreignKey <;>
    simp [fkOfMld]

theorem mldFlagsPart_ne {col : MldColumn} (hne : mldPieces col ≠ []) :
    mldFlagsPart col
      = ' ' :: sJoin " ".data ((mldPieces col).map pieceStr) := by
  unfold mldFlagsPart
  cases hp : mldPieces col with
  | nil => exact absurd hp hne
  | cons q P => rfl

theorem joinPieces_head_ne (P : List FlagPiece) (hne : P ≠ [])
    (hwf : ∀ q ∈ P, pieceWF q = true) :
    ∃ T, sJoin " ".data (P.map pieceStr) = '[' :: T := by
  cases P with
  | nil => exact absurd rfl hne
  | cons q P2 => exact joinPieces_head q P2 (hwf q (List.mem_cons_self _ _))

theorem mldPieces_mem_cases {col : MldColumn} {q : FlagPiece}
    (hq : q ∈ mldPieces col) :
    q = FlagPiece.pk ∨
    ∃ fk, col.foreignKey = some fk ∧
      q = FlagPiece.fkp fk.referencedTable fk.referencedColumn none none := by
  unfold mldPieces at hq
  rcases List.mem_append.mp hq with h1 | h1
  · left
    cases hpk : col.isPrimaryKey <;> rw [hpk] at h1
    · cases h1
    · simpa using h1
  · right
    cases hfk : col.foreignKey with
    | none => rw [hfk] at h1; cases h1
    | some fk =>
      rw [hfk] at h1
      exact ⟨fk, rfl, by simpa using h1⟩

theorem mldPieces_nil_fields {col : MldColumn} (hp : mldPieces col = []) :
    col.isPrimaryKey = false ∧ col.foreignKey = none := by
  unfold mldPieces at hp
  cases hpk : col.isPrimaryKey <;> cases hfk : col.foreignKey <;>
    rw [hpk, hfk] at hp <;> simp_all

theorem mldColWF_fk {col : MldColumn} (h : mldColWF col = true) {fk}
    (hfk : col.foreignKey = some fk) :
    fk.columnName = col.name ∧ isWordStr fk.referencedTable = true ∧
      isWordStr fk.referencedColumn = true := by
  unfold mldColWF at h
  rw [hfk] at h
  have h2 := (Bool.and_eq_true_iff.mp h).2
  have h3 := Bool.and_eq_true_iff.mp h2
  have h4 := Bool.and_eq_true_iff.mp h3.1
  exact ⟨of_decide_eq_true h4.1, h4.2, h3.2⟩

theorem parseMldColumn_roundtrip (col : MldColumn) (h : mldColWF col = true) :
    parseMldColumn (col.name ++ mldFlagsPart col) = some col := by
  have hname := (Bool.and_eq_true_iff.mp h).1
  obtain ⟨n0, ns, hn⟩ := exists_cons_of_wordStr hname
  have hlastfacts : ∀ ch, (col.name ++ mldFlagsPart col).reverse.head?
      = some ch → isSpaceChar ch = false ∧ ch ≠ ',' := by
    intro ch hch
    cases hp : mldPieces col with
    | nil =>
      rw [mldFlagsPart_nil hp, List.append_nil] at hch
      have hw := isWordStr_mem hname ch
        (List.mem_reverse.mp (List.mem_of_mem_head? (by rw [hch]; rfl)))
      refine ⟨isWordChar_not_space hw, fun he => ?_⟩
      rw [he] at hw
      exact absurd hw (by decide)
    | cons q P =>
      obtain ⟨Y, hY⟩ := sJoin_pieces_ends (q :: P) (by intro hc0; cases hc0)
      rw [mldFlagsPart_cons hp, hY] at hch
      have hre : (col.name ++ (' ' :: (Y ++ [']'])))
          = (col.name ++ (' ' :: Y)) ++ [']'] := by
        simp [List.append_assoc]
      rw [hre, List.reverse_append] at hch
      have hch2 : ch = ']' := by simpa using hch.symm
      rw [hch2]
      exact ⟨by decide, by decide⟩
  have hclean : sTrim (stripTrailingComma (col.name ++ mldFlagsPart col))
      = col.name ++ mldFlagsPart col := by
    rw [stripTrailingComma_eq_self hlastfacts]
    apply sTrim_eq_self
    · intro ch hch
      rw [hn] at hch
      have : ch = n0 := by simpa using hch.symm
      rw [this]
      exact wordStr_head_not_space (hn ▸ hname)
    · exact fun ch hch => (hlastfacts ch hch).1
  unfold parseMldColumn
  rw [hclean]
  dsimp only
  by_cases hP : mldPieces col = []
  · obtain ⟨hpk0, hfk0⟩ := mldPieces_nil_fields hP
    rw [mldFlagsPart_nil hP, hn,
      span_wordstr (hn ▸ hname) (Or.inl rfl)]
    have hcol : col = ({ name := n0 :: ns, isPrimaryKey := false,
                         foreignKey := none } : MldColumn) := by
      rw [← hn, ← hpk0, ← hfk0]
    conv_rhs => rw [hcol]
    rfl
  · rw [mldFlagsPart_ne hP, hn,
      span_wordstr (hn ▸ hname) (Or.inr ⟨' ', _, rfl, by decide⟩)]
    obtain ⟨T, hT⟩ := joinPieces_head_ne _ hP (mldPieces_wf h)
    dsimp only
    rw [hT, dropWhile_one_space '[' (by decide) T, ← hT]
    rw [sHasI_pk_eq,
      strSearch_joinPieces mldPkAt (fun c s hx => mldPkAt_head hx)
        (by decide) isPkPiece (mldPieces col) (mldPieces_wf h)
        (fun q hq X => by
          rcases mldPieces_mem_cases hq with h1 | ⟨fk, hfk, h1⟩
          · rw [h1]; exact mldPkAt_at_pk X
          · rw [h1]; exact mldPkAt_at_fkp _ _ _ _ X),
      mldPieces_any_pk]
    rw [strSearchO_joinPieces fkMatchAt (fun c s r hx => fkMatchAt_head hx)
        rfl fkOfMld (mldPieces col) (mldPieces_wf h)
        (fun q hq X hq0 => by
          rcases mldPieces_mem_cases hq with h1 | ⟨fk, hfk, h1⟩
          · rw [h1]; exact fkMatchAt_at_pk X
          · rw [h1] at hq0; cases hq0)
        (fun q hq r hqr => by
          rcases mldPieces_mem_cases hq with h1 | ⟨fk, hfk, h1⟩
          · rw [h1] at hqr; cases hqr
          · rw [h1] at hqr
            obtain ⟨hwcn, hwrt, hwrc⟩ := mldColWF_fk h hfk
            have := fkMatchAt_pos fk.referencedTable fk.referencedColumn
              hwrt hwrc []
            rw [List.append_nil] at this
            rw [h1, ← Option.some.inj hqr]
            exact this)
        (fun q hq r hqr X => by
          rcases mldPieces_mem_cases (List.mem_of_mem_dropLast hq)
            with h1 | ⟨fk, hfk, h1⟩
          · rw [h1] at hqr; cases hqr
          · rw [h1] at hqr
            obtain ⟨hwcn, hwrt, hwrc⟩ := mldColWF_fk h hfk
            rw [h1, ← Option.some.inj hqr]
            exact fkMatchAt_pos fk.referencedTable fk.referencedColumn
              hwrt hwrc X),
      mldPieces_findSome_fk]
    cases hfk2 : col.foreignKey with
    | none =>
      have hcol : col = ({ name := n0 :: ns,
                           isPrimaryKey := col.isPrimaryKey,
                           foreignKey := none } : MldColumn) := by
        rw [← hn, ← hfk2]
      conv_rhs => rw [hcol]
    | some fk =>
      obtain ⟨hcn, hrt, hrc⟩ := mldColWF_fk h hfk2
      have hcol : col = ({ name := n0 :: ns,
                           isPrimaryKey := col.isPrimaryKey,
                           foreignKey := some fk } : MldColumn) := by
        rw [← hn, ← hfk2]
      conv_rhs => rw [hcol]
      have hfke : ({ columnName := n0 :: ns,
                     referencedTable := fk.referencedTable,
                     referencedColumn := fk.referencedColumn } :
          MldForeignKey) = fk := by
        rw [show (n0 :: ns) = fk.columnName from by rw [hcn, hn]]
      dsimp only
      rw [hfke]

/-- The header line of a generated table block. -/
def tableHdr (name : Str) : Str :=
  "TABLE ".data ++ name ++ " \x7b".data

/-- The lines of one MLD table block, without the trailing blank line. -/
def mldTableLines (t : MldTable) : List Str :=
  tableHdr t.name :: (t.columns.map mldColLine ++ ["\x7d".data])

/-- All lines of the generated MLD text after trimming: table blocks
separated by single blank lines. -/
def mldAllLines : List MldTable → List Str
  | [] => []
  | [t] => mldTableLines t
  | t :: ts => mldTableLines t ++ [] :: mldAllLines ts

theorem mldLines_eq : ∀ (ts : List MldTable) (acc : List Str),
    ts.foldl (fun lines table =>
      lines ++ ["TABLE ".data ++ table.name ++ " \x7b".data]
        ++ table.columns.map mldColLine ++ ["\x7d".data, []]) acc
      = acc ++ (ts.map (fun t => mldTableLines t ++ [[]])).flatten := by
  intro ts
  induction ts with
  | nil => intro acc; simp
  | cons t ts ih =>
    intro acc
    rw [List.foldl_cons, ih]
    simp [mldTableLines, tableHdr, List.append_assoc]

theorem flatten_mldAllLines : ∀ (ts : List MldTable), ts ≠ [] →
    (ts.map (fun t => mldTableLines t ++ [[]])).flatten
      = mldAllLines ts ++ [[]] := by
  intro ts
  induction ts with
  | nil => intro h; exact absurd rfl h
  | cons t ts ih =>
    intro _
    cases ts with
    | nil => simp [mldAllLines]
    | cons t2 ts2 =>
      rw [List.map_cons, List.flatten_cons, ih (by intro hc; cases hc)]
      show _ = (mldTableLines t ++ [] :: mldAllLines (t2 :: ts2)) ++ [[]]
      simp [List.append_assoc]

theorem sJoin_append_empty (sep : Str) :
    ∀ (l : List Str), l ≠ [] → sJoin sep (l ++ [[]]) = sJoin sep l ++ sep := by
  intro l
  induction l with
  | nil => intro h; exact absurd rfl h
  | cons x l ih =>
    intro _
    cases l with
    | nil => show sJoin sep [x, []] = x ++ sep; simp [sJoin]
    | cons y l2 =>
      show sJoin sep (x :: ((y :: l2) ++ [[]])) = _
      rw [show sJoin sep (x :: ((y :: l2) ++ [[]]))
          = x ++ sep ++ sJoin sep ((y :: l2) ++ [[]]) from rfl,
        ih (by intro hc; cases hc)]
      rw [sJoin_cons_cons, ← List.append_assoc]

theorem sJoin_ends (sep : Str) (x : Str) :
    ∀ (Init : List Str), ∃ Y, sJoin sep (Init ++ [x]) = Y ++ x := by
  intro Init
  induction Init with
  | nil => exact ⟨[], rfl⟩
  | cons i Init ih =>
    obtain ⟨Y2, hY2⟩ := ih
    cases Init with
    | nil => exact ⟨i ++ sep, rfl⟩
    | cons j Init2 =>
      refine ⟨(i ++ sep) ++ Y2, ?_⟩
      show sJoin sep (i :: ((j :: Init2) ++ [x])) = _
      rw [show sJoin sep (i :: ((j :: Init2) ++ [x]))
          = i ++ sep ++ sJoin sep ((j :: Init2) ++ [x]) from rfl, hY2]
      simp [List.append_assoc]

theorem sJoin_head_cons (sep : Str) (c : Char) (l : Str) (R : List Str) :
    ∃ Z, sJoin sep ((c :: l) :: R) = c :: Z := by
  cases R with
  | nil => exact ⟨l, rfl⟩
  | cons y R2 => exact ⟨(l ++ sep) ++ sJoin sep (y :: R2), rfl⟩

theorem mldAllLines_last : ∀ (ts : List MldTable), ts ≠ [] →
    ∃ Init, mldAllLines ts = Init ++ ["\x7d".data] := by
  intro ts
  induction ts with
  | nil => intro h; exact absurd rfl h
  | cons t ts ih =>
    intro _
    cases ts with
    | nil =>
      exact ⟨tableHdr t.name :: t.columns.map mldColLine, by
        show mldTableLines t = _
        rfl⟩
    | cons t2 ts2 =>
      obtain ⟨Init2, hInit2⟩ := ih (by intro hc; cases hc)
      refine ⟨mldTableLines t ++ [] :: Init2, ?_⟩
      show mldTableLines t ++ [] :: mldAllLines (t2 :: ts2) = _
      rw [hInit2]
      simp [List.append_assoc]

theorem mldAllLines_head (t : MldTable) (ts : List MldTable) :
    ∃ R, mldAllLines (t :: ts) = tableHdr t.name :: R := by
  cases ts with
  | nil => exact ⟨t.columns.map mldColLine ++ ["\x7d".data], rfl⟩
  | cons t2 ts2 =>
    exact ⟨(t.columns.map mldColLine ++ ["\x7d".data])
      ++ [] :: mldAllLines (t2 :: ts2), rfl⟩

theorem sTrim_append_newline {s : Str}
    (h1 : ∀ c, s.head? = some c → isSpaceChar c = false)
    (h2 : ∀ c, s.reverse.head? = some c → isSpaceChar c = false) :
    sTrim (s ++ ['\n']) = s := by
  unfold sTrim
  cases s with
  | nil => rfl
  | cons c1 mid =>
    rw [show ((c1 :: mid) ++ ['\n']) = c1 :: (mid ++ ['\n']) from rfl,
      dropWhile_cons_false (h1 c1 rfl)]
    rw [show (c1 :: (mid ++ ['\n'])).reverse
        = '\n' :: (c1 :: mid).reverse from by simp]
    rw [List.dropWhile_cons, if_pos (by decide)]
    cases hrev : (c1 :: mid).reverse with
    | nil => exact absurd hrev (by simp)
    | cons c2 r2 =>
      rw [dropWhile_cons_false (h2 c2 (by rw [hrev]; rfl)), ← hrev,
        List.reverse_reverse]

theorem splitChar_no_sep : ∀ {x : Str}, '\n' ∉ x → splitChar x '\n' = [x] := by
  intro x
  induction x with
  | nil => intro _; rfl
  | cons c cs ih =>
    intro h
    have hc : ¬ c = '\n' := fun he => h (he ▸ List.mem_cons_self _ _)
    show splitChar (c :: cs) '\n' = [c :: cs]
    unfold splitChar
    rw [if_neg hc, ih (fun hm => h (List.mem_cons_of_mem _ hm))]

theorem splitChar_sJoin : ∀ (L : List Str), (∀ l ∈ L, '\n' ∉ l) → L ≠ [] →
    splitChar (sJoin "\n".data L) '\n' = L := by
  intro L
  induction L with
  | nil => intro _ h; exact absurd rfl h
  | cons x L ih =>
    intro hnl _
    cases L with
    | nil => exact splitChar_no_sep (hnl x (List.mem_cons_self _ _))
    | cons y L2 =>
      rw [sJoin_cons_cons, List.append_assoc,
        show "\n".data ++ sJoin "\n".data (y :: L2)
          = '\n' :: sJoin "\n".data (y :: L2) from rfl,
        splitChar_append_newline x _ (hnl x (List.mem_cons_self _ _)),
        ih (fun l hl => hnl l (List.mem_cons_of_mem _ hl))
          (by intro hc; cases hc)]

theorem mem_sJoin {ch : Char} {sep : Str} :
    ∀ {L : List Str}, ch ∈ sJoin sep L → ch ∈ sep ∨ ∃ l ∈ L, ch ∈ l := by
  intro L
  induction L with
  | nil => intro h; cases h
  | cons x L ih =>
    intro h
    cases L with
    | nil => exact Or.inr ⟨x, List.mem_cons_self _ _, h⟩
    | cons y L2 =>
      rw [sJoin_cons_cons] at h
      rcases List.mem_append.mp h with h1 | h1
      · rcases List.mem_append.mp h1 with h2 | h2
        · exact Or.inr ⟨x, List.mem_cons_self _ _, h2⟩
        · exact Or.inl h2
      · rcases ih h1 with h2 | ⟨l, hl, h2⟩
        · exact Or.inl h2
        · exact Or.inr ⟨l, List.mem_cons_of_mem _ hl, h2⟩

theorem newline_not_mem_pieceStr (q : FlagPiece) (hwf : pieceWF q = true) :
    '\n' ∉ pieceStr q := by
  cases q with
  | pk => decide
  | nn => decide
  | uq => decide
  | chk e =>
    intro hm
    have hcn : e.contains '\n' = false := by
      unfold pieceWF at hwf
      simpa using (Bool.and_eq_true_iff.mp hwf).2
    rcases List.mem_append.mp hm with h1 | h1
    · rcases List.mem_append.mp h1 with h2 | h2
      · exact absurd h2 (by decide)
      · exact not_mem_of_contains_false hcn h2
    · exact absurd h1 (by decide)
  | fkp t c d u =>
    intro hm
    have hwf2 := Bool.and_eq_true_iff.mp hwf
    have hw : isWordChar '\n' = true := by
      rcases List.mem_append.mp hm with h1 | h1
      · rcases List.mem_append.mp h1 with h2 | h2
        · rcases List.mem_append.mp h2 with h3 | h3
          · rcases List.mem_append.mp h3 with h4 | h4
            · rcases List.mem_append.mp h4 with h5 | h5
              · exact absurd h5 (by decide)
              · exact isWordStr_mem hwf2.1 _ h5
            · rcases List.mem_cons.mp h4 with h5 | h5
              · exact absurd h5 (by decide)
              · exact isWordStr_mem hwf2.2 _ h5
          · cases d with
            | none => cases h3
            | some a =>
              rcases List.mem_append.mp h3 with h4 | h4
              · exact absurd h4 (by decide)
              · exact absurd h4 (by cases a <;> decide)
        · cases u with
          | none => cases h2
          | some a =>
            rcases List.mem_append.mp h2 with h4 | h4
            · exact absurd h4 (by decide)
            · exact absurd h4 (by cases a <;> decide)
      · exact absurd h1 (by decide)
    exact absurd hw (by decide)

theorem newline_not_mem_mldColLine {col : MldColumn}
    (h : mldColWF col = true) : '\n' ∉ sTrim (mldColLine col) := by
  rw [sTrim_mldColLine col h]
  intro hm
  have hname := (Bool.and_eq_true_iff.mp h).1
  rcases List.mem_append.mp hm with h1 | h1
  · exact absurd (isWordStr_mem hname _ h1) (by decide)
  · cases hp : mldPieces col with
    | nil => rw [mldFlagsPart_nil hp] at h1; cases h1
    | cons q P =>
      rw [mldFlagsPart_cons hp] at h1
      rcases List.mem_cons.mp h1 with h2 | h2
      · exact absurd h2 (by decide)
      · rcases mem_sJoin h2 with h3 | ⟨l, hl, h3⟩
        · exact absurd h3 (by decide)
        · obtain ⟨p, hp2, hpl⟩ := List.mem_map.mp hl
          rw [← hpl] at h3
          exact newline_not_mem_pieceStr p
            (mldPieces_wf h p (by rw [hp]; exact hp2)) h3

theorem newline_not_mem_mldColLine' {col : MldColumn}
    (h : mldColWF col = true) : '\n' ∉ mldColLine col := by
  rw [mldColLine_eq]
  intro hm
  rcases List.mem_append.mp hm with h1 | h1
  · exact absurd h1 (by decide)
  · exact newline_not_mem_mldColLine h
      (by rw [sTrim_mldColLine col h]; exact h1)

theorem newline_not_mem_hdr {name : Str} (hn : isWordStr name = true) :
    '\n' ∉ tableHdr name := by
  intro hm
  rcases List.mem_append.mp hm with h1 | h1
  · rcases List.mem_append.mp h1 with h2 | h2
    · exact absurd h2 (by decide)
    · exact absurd (isWordStr_mem hn _ h2) (by decide)
  · exact absurd h1 (by decide)

theorem newline_not_mem_mldAllLines :
    ∀ (ts : List MldTable),
      (∀ t ∈ ts, isWordStr t.name = true ∧
        ∀ c ∈ t.columns, mldColWF c = true) →
      ∀ l ∈ mldAllLines ts, '\n' ∉ l := by
  intro ts
  induction ts with
  | nil => intro _ l hl; cases hl
  | cons t ts ih =>
    intro hwf l hl
    have hmem : l ∈ mldTableLines t ∨ l = [] ∨ l ∈ mldAllLines ts := by
      cases ts with
      | nil => exact Or.inl hl
      | cons t2 ts2 =>
        rcases List.mem_append.mp hl with h1 | h1
        · exact Or.inl h1
        · rcases List.mem_cons.mp h1 with h2 | h2
          · exact Or.inr (Or.inl h2)
          · exact Or.inr (Or.inr h2)
    have hwft := hwf t (List.mem_cons_self _ _)
    rcases hmem with h1 | h1 | h1
    · rcases List.mem_cons.mp h1 with h2 | h2
      · rw [h2]; exact newline_not_mem_hdr hwft.1
      · rcases List.mem_append.mp h2 with h3 | h3
        · obtain ⟨c, hc, hcl⟩ := List.mem_map.mp h3
          rw [← hcl]
          exact newline_not_mem_mldColLine' (hwft.2 c hc)
        · have : l = "\x7d".data := by simpa using h3
          rw [this]; decide
    · rw [h1]; intro hm; cases hm
    · exact ih (fun t2 ht2 => hwf t2 (List.mem_cons_of_mem _ ht2)) l h1

theorem sTrim_hdr (name : Str) (hn : isWordStr name = true) :
    sTrim (tableHdr name) = tableHdr name := by
  apply sTrim_eq_self
  · intro c hc
    rw [show (tableHdr name).head? = some 'T' from rfl] at hc
    rw [(Option.some.inj hc).symm]
    decide
  · intro c hc
    have hre : tableHdr name
        = ("TABLE ".data ++ name ++ [' ']) ++ ['\x7b'] := by
      unfold tableHdr
      simp [List.append_assoc]
    rw [hre, List.reverse_append] at hc
    have : c = '\x7b' := by simpa using hc.symm
    rw [this]; decide

theorem tableHeaderMatch_hdr (name : Str) (hn : isWordStr name = true) :
    tableHeaderMatch (tableHdr name) = some name := by
  obtain ⟨n0, ns, hn0⟩ := exists_cons_of_wordStr hn
  unfold tableHeaderMatch tableHdr
  rw [if_pos (show sUpper ((("TABLE ".data ++ name) ++ " \x7b".data).take 5)
      = "TABLE".data from rfl)]
  rw [show (("TABLE ".data ++ name) ++ " \x7b".data).drop 5
      = ' ' :: (name ++ " \x7b".data) from rfl]
  conv_lhs => whnf
  rw [hn0, show ((n0 :: ns) ++ " \x7b".data) = n0 :: (ns ++ " \x7b".data)
      from rfl,
    dropWhile_cons_false (wordStr_head_not_space (hn0 ▸ hn)),
    show n0 :: (ns ++ " \x7b".data) = (n0 :: ns) ++ " \x7b".data from rfl,
    span_wordstr (hn0 ▸ hn) (Or.inr ⟨' ', _, rfl, by decide⟩)]
  rfl

theorem wordline_ne_brace {name F : Str} (hn : isWordStr name = true) :
    ¬ (name ++ F = "\x7d".data) := by
  obtain ⟨n0, ns, rfl⟩ := exists_cons_of_wordStr hn
  intro he
  have h2 := congrArg List.head? he
  rw [show ((n0 :: ns) ++ F).head? = some n0 from rfl] at h2
  have : n0 = '\x7d' := Option.some.inj h2
  have hw := isWordStr_mem hn n0 (List.mem_cons_self _ _)
  rw [this] at hw
  exact absurd hw (by decide)

theorem mldColLoop_run (tname : Str) :
    ∀ (cols : List MldColumn), (∀ c ∈ cols, mldColWF c = true) →
    ∀ (fuel : Nat) (Rest : List Str) (acc : List MldColumn)
      (errs : List Str), cols.length + 1 ≤ fuel →
      mldColLoop tname fuel
          (cols.map mldColLine ++ ("\x7d".data :: Rest)) acc errs
        = (acc ++ cols, errs, Rest) := by
  intro cols
  induction cols with
  | nil =>
    intro _ fuel Rest acc errs hfuel
    cases fuel with
    | zero => omega
    | succ f =>
      rw [show (List.map mldColLine [] ++ ("\x7d".data :: Rest))
          = "\x7d".data :: Rest from rfl]
      rw [show mldColLoop tname (f + 1) ("\x7d".data :: Rest) acc errs
          = (acc, errs, Rest) from rfl]
      rw [List.append_nil]
  | cons c cs ih =>
    intro hwf fuel Rest acc errs hfuel
    cases fuel with
    | zero => omega
    | succ f =>
      have hc := hwf c (List.mem_cons_self _ _)
      rw [show (List.map mldColLine (c :: cs) ++ ("\x7d".data :: Rest))
          = mldColLine c :: (List.map mldColLine cs ++ ("\x7d".data :: Rest))
          from rfl]
      show (let colLine := sTrim (mldColLine c);
        if colLine = "\x7d".data then (acc, errs,
          List.map mldColLine cs ++ ("\x7d".data :: Rest))
        else if colLine.isEmpty then mldColLoop tname f
          (List.map mldColLine cs ++ ("\x7d".data :: Rest)) acc errs
        else
          match parseMldColumn colLine with
          | some col => mldColLoop tname f
              (List.map mldColLine cs ++ ("\x7d".data :: Rest))
              (acc ++ [col]) errs
          | none =>
            if '\x7d' ∈ colLine then (acc, errs,
              List.map mldColLine cs ++ ("\x7d".data :: Rest))
            else mldColLoop tname f
              (List.map mldColLine cs ++ ("\x7d".data :: Rest)) acc
              (errs ++ [mldInvalidColMsg colLine tname])) = _
      rw [sTrim_mldColLine c hc]
      have hname := (Bool.and_eq_true_iff.mp hc).1
      obtain ⟨n0, ns, hn0⟩ := exists_cons_of_wordStr hname
      rw [if_neg (wordline_ne_brace hname)]
      rw [if_neg (show ¬ ((c.name ++ mldFlagsPart c).isEmpty = true) from by
        rw [hn0]; intro hx; cases hx)]
      rw [parseMldColumn_roundtrip c hc]
      show mldColLoop tname f
          (List.map mldColLine cs ++ ("\x7d".data :: Rest))
          (acc ++ [c]) errs = _
      rw [ih (fun x hx => hwf x (List.mem_cons_of_mem _ hx)) f Rest
        (acc ++ [c]) errs (by simp at hfuel ⊢; omega)]
      simp

theorem parseMldLoop_cons (fuel : Nat) (l : Str) (rest : List Str)
    (st : MldModel × List Str) :
    parseMldLoop (fuel + 1) (l :: rest) st
      = (match tableHeaderMatch (sTrim l) with
         | some tname =>
           parseMldLoop fuel (mldColLoop tname rest.length rest [] st.2).2.2
             ({ tables := st.1.tables ++ [{ name := tname,
                                            columns := (mldColLoop tname
                                              rest.length rest [] st.2).1 }] },
              (mldColLoop tname rest.length rest [] st.2).2.1)
         | none => parseMldLoop fuel rest st) := rfl

theorem parseMldLoop_run :
    ∀ (ts : List MldTable),
      (∀ t ∈ ts, isWordStr t.name = true ∧
        ∀ c ∈ t.columns, mldColWF c = true) →
    ∀ (fuel : Nat) (acc : List MldTable) (errs : List Str),
      (mldAllLines ts).length ≤ fuel →
      parseMldLoop fuel (mldAllLines ts) ({ tables := acc }, errs)
        = ({ tables := acc ++ ts }, errs) := by
  intro ts
  induction ts with
  | nil =>
    intro _ fuel acc errs _
    rw [List.append_nil]
    cases fuel with
    | zero => rfl
    | succ f => rfl
  | cons t ts ih =>
    intro hwf fuel acc errs hfuel
    have hwft := hwf t (List.mem_cons_self _ _)
    have hlines : ∃ Sep, mldAllLines (t :: ts)
        = tableHdr t.name :: (t.columns.map mldColLine
            ++ ("\x7d".data :: Sep)) ∧
        (ts = [] → Sep = []) ∧ (ts ≠ [] → Sep = [] :: mldAllLines ts) := by
      cases ts with
      | nil =>
        exact ⟨[], rfl, fun _ => rfl, fun hne => absurd rfl hne⟩
      | cons t2 ts2 =>
        refine ⟨[] :: mldAllLines (t2 :: ts2), ?_, ?_, fun _ => rfl⟩
        · show mldTableLines t ++ [] :: mldAllLines (t2 :: ts2) = _
          unfold mldTableLines
          simp [List.append_assoc]
        · intro hco; cases hco
    obtain ⟨Sep, hSep, hSepNil, hSepCons⟩ := hlines
    rw [hSep] at hfuel ⊢
    cases fuel with
    | zero => simp at hfuel
    | succ f =>
      rw [parseMldLoop_cons, sTrim_hdr t.name hwft.1,
        tableHeaderMatch_hdr t.name hwft.1]
      dsimp only
      rw [mldColLoop_run t.name t.columns hwft.2 _ Sep [] errs
        (by
          simp only [List.length_cons, List.length_append,
            List.length_map] at hfuel ⊢
          omega)]
      dsimp only
      rw [List.nil_append]
      have heta : ({ name := t.name, columns := t.columns } : MldTable)
          = t := rfl
      rw [heta]
      cases ts with
      | nil =>
        rw [hSepNil rfl]
        cases f with
        | zero => rfl
        | succ f2 => rfl
      | cons t2 ts2 =>
        have hS := hSepCons (by intro hco; cases hco)
        rw [hS] at hfuel ⊢
        cases f with
        | zero =>
          exfalso
          obtain ⟨R, hR⟩ := mldAllLines_head t2 ts2
          rw [hR] at hfuel
          simp at hfuel
        | succ f2 =>
          rw [parseMldLoop_cons,
            show tableHeaderMatch (sTrim []) = none from rfl]
          dsimp only
          rw [ih (fun x hx => hwf x (List.mem_cons_of_mem _ hx)) f2 _ errs
            (by
              simp only [List.length_cons, List.length_append,
                List.length_map] at hfuel ⊢
              omega)]
          rw [List.append_assoc]
          rfl

/-- Well-formedness of an MLD model for the round-trip. -/
def mldWF (m : MldModel) : Bool :=
  m.tables.all (fun t => isWordStr t.name && t.columns.all mldColWF)

theorem mldWF_fields {m : MldModel} (h : mldWF m = true) :
    ∀ t ∈ m.tables, isWordStr t.name = true ∧
      ∀ c ∈ t.columns, mldColWF c = true := by
  intro t ht
  have h2 := List.all_eq_true.mp h t ht
  have h3 := Bool.and_eq_true_iff.mp h2
  exact ⟨h3.1, fun c hc => List.all_eq_true.mp h3.2 c hc⟩

theorem parseMld_roundtrip (m : MldModel) (h : mldWF m = true) :
    parseMld (generateMldText m) = (m, []) := by
  have hws := mldWF_fields h
  cases hts : m.tables with
  | nil =>
    have hm : m = { tables := [] } := by rw [← hts]
    rw [hm]
    rfl
  | cons t ts =>
    have hne : m.tables ≠ [] := by rw [hts]; intro hc; cases hc
    have hALne : mldAllLines m.tables ≠ [] := by
      rw [hts]
      obtain ⟨R, hR⟩ := mldAllLines_head t ts
      rw [hR]
      intro hc; cases hc
    have hhd : ∃ Z, sJoin "\n".data (mldAllLines m.tables) = 'T' :: Z := by
      rw [hts]
      obtain ⟨R, hR⟩ := mldAllLines_head t ts
      rw [hR, show tableHdr t.name
          = 'T' :: ("ABLE ".data ++ t.name ++ " \x7b".data) from rfl]
      exact sJoin_head_cons _ 'T' _ R
    obtain ⟨Z, hZ⟩ := hhd
    obtain ⟨Init, hInit⟩ := mldAllLines_last m.tables hne
    obtain ⟨Y, hY⟩ := sJoin_ends "\n".data "\x7d".data Init
    unfold generateMldText
    rw [mldLines_eq m.tables [], List.nil_append,
      flatten_mldAllLines m.tables hne,
      sJoin_append_empty _ _ hALne,
      show sJoin "\n".data (mldAllLines m.tables) ++ "\n".data
        = sJoin "\n".data (mldAllLines m.tables) ++ ['\n'] from rfl,
      sTrim_append_newline
        (fun c hc => by
          rw [hZ] at hc
          rw [(Option.some.inj hc).symm]
          decide)
        (fun c hc => by
          rw [hInit, hY, show Y ++ "\x7d".data = (Y ++ ['\x7d']).reverse.reverse
            from by rw [List.reverse_reverse]] at hc
          rw [List.reverse_reverse, List.reverse_append] at hc
          rw [(Option.some.inj hc).symm]
          decide)]
    unfold parseMld
    rw [splitChar_sJoin _ (newline_not_mem_mldAllLines m.tables hws) hALne,
      parseMldLoop_run m.tables hws _ [] [] le_rfl, List.nil_append]

theorem span_stop {p : Char → Bool} {w : Str} (hw : ∀ c ∈ w, p c = true)
    {r : Str} (hr : r = [] ∨ ∃ c r', r = c :: r' ∧ p c = false) :
    (w ++ r).span p = (w, r) := by
  have htw : (w ++ r).takeWhile p = w := by
    rw [takeWhile_append_all hw r]
    rcases hr with rfl | ⟨c, r', rfl, hc⟩
    · simp
    · rw [takeWhile_cons_false hc, List.append_nil]
  have hdw : (w ++ r).dropWhile p = r := by
    rw [dropWhile_append_all hw r]
    rcases hr with rfl | ⟨c, r', rfl, hc⟩
    · rfl
    · exact dropWhile_cons_false hc
  rw [List.span_eq_take_drop, htw, hdw]

theorem dropWhile_head_false {α : Type} {p : α → Bool} :
    ∀ {l : List α} {c : α} {r' : List α},
      l.dropWhile p = c :: r' → p c = false := by
  intro l
  induction l with
  | nil => intro c r' h; cases h
  | cons a l ih =>
    intro c r' h
    rw [List.dropWhile_cons] at h
    by_cases hpa : p a = true
    · rw [if_pos hpa] at h
      exact ih h
    · rw [if_neg hpa] at h
      have := ((List.cons.injEq _ _ _ _).mp h).1
      rw [← this]
      exact Bool.not_eq_true _ |>.mp hpa

theorem span_decompose {p : Char → Bool} {l w r : Str}
    (h : l.span p = (w, r)) :
    l = w ++ r ∧ (∀ c ∈ w, p c = true) ∧
      (r = [] ∨ ∃ c r', r = c :: r' ∧ p c = false) := by
  rw [List.span_eq_take_drop] at h
  have hw : l.takeWhile p = w := (Prod.mk.injEq _ _ _ _).mp h |>.1
  have hr : l.dropWhile p = r := (Prod.mk.injEq _ _ _ _).mp h |>.2
  refine ⟨by rw [← hw, ← hr, List.takeWhile_append_dropWhile], ?_, ?_⟩
  · intro c hc
    rw [← hw] at hc
    exact List.mem_takeWhile_imp hc
  · cases hrr : r with
    | nil => exact Or.inl rfl
    | cons c r' =>
      refine Or.inr ⟨c, r', rfl, ?_⟩
      rw [hrr] at hr
      exact dropWhile_head_false hr

/-- Shape of a serializable SQL type token: `WORD`, `WORD(digits)` or
`WORD(digits,digits)`. -/
def sqlTypeShapeOk (s : Str) : Bool :=
  match s.span isWordChar with
  | (w, rest) =>
    !w.isEmpty &&
    (rest.isEmpty ||
     (match rest with
      | '(' :: r1 =>
        (match r1.span Char.isDigit with
         | (d1, r2) =>
           !d1.isEmpty &&
           (match r2 with
            | [')'] => true
            | ',' :: r4 =>
              (match r4.span Char.isDigit with
               | (d2, r5) => !d2.isEmpty && decide (r5 = [')']))
            | _ => false))
      | _ => false))

theorem sqlTypeMatch_tok (ty : Str) (h : sqlTypeShapeOk ty = true) (X : Str)
    (hX : X = [] ∨ ∃ rX, X = ' ' :: rX) :
    sqlTypeMatch (ty ++ X) = some (ty, X) := by
  cases hsp : ty.span isWordChar with
  | mk w rest =>
  unfold sqlTypeShapeOk at h
  rw [hsp] at h
  obtain ⟨hty, hwall, _⟩ := span_decompose hsp
  have hw := (Bool.and_eq_true_iff.mp h).1
  have hrest := (Bool.and_eq_true_iff.mp h).2
  have hwword : isWordStr w = true :=
    Bool.and_eq_true_iff.mpr ⟨hw, List.all_eq_true.mpr hwall⟩
  obtain ⟨w0, ws, hw0⟩ := exists_cons_of_wordStr hwword
  have hXr : X = [] ∨ ∃ ch r', X = ch :: r' ∧ isWordChar ch = false := by
    rcases hX with rfl | ⟨rX, rfl⟩
    · exact Or.inl rfl
    · exact Or.inr ⟨' ', rX, rfl, by decide⟩
  rcases Bool.or_eq_true_iff.mp hrest with hre | hre
  · have hrnil : rest = [] := by
      cases rest with
      | nil => rfl
      | cons a b => simp at hre
    rw [hty, hrnil, List.append_nil]
    unfold sqlTypeMatch
    rw [span_stop (isWordStr_mem hwword) hXr, hw0]
    rcases hX with rfl | ⟨rX, rfl⟩
    · rfl
    · rfl
  · cases rest with
    | nil => simp at hre
    | cons ch r1 =>
      split at hre
      · next r1x heq =>
        obtain ⟨hch, hr1⟩ := (List.cons.injEq _ _ _ _).mp heq
        subst hch
        subst hr1
        cases hsp2 : r1.span Char.isDigit with
        | mk d1 r2 =>
        rw [hsp2] at hre
        obtain ⟨hr1eq, hd1all, _⟩ := span_decompose hsp2
        have hd1 := (Bool.and_eq_true_iff.mp hre).1
        have hrem := (Bool.and_eq_true_iff.mp hre).2
        obtain ⟨d10, d1s, hd10⟩ : ∃ a b, d1 = a :: b := by
          cases d1 with
          | nil => simp at hd1
          | cons a b => exact ⟨a, b, rfl⟩
        split at hrem
        · rw [hty, hr1eq]
          rw [show (w ++ '(' :: (d1 ++ [')'])) ++ X
              = w ++ ('(' :: (d1 ++ (')' :: X))) from by
            simp [List.append_assoc]]
          unfold sqlTypeMatch
          rw [span_stop (isWordStr_mem hwword)
            (Or.inr ⟨'(', _, rfl, by decide⟩), hw0]
          conv_lhs => whnf
          rw [span_stop hd1all (Or.inr ⟨')', X, rfl, by decide⟩), hd10]
          conv_lhs => whnf
          rw [← hw0, ← hd10]
          rw [show w ++ '(' :: d1 ++ [')'] = w ++ ('(' :: (d1 ++ [')']))
            from by simp [List.append_assoc]]
        · rename_i r4 hstop
          cases hsp3 : r4.span Char.isDigit with
          | mk d2 r5 =>
          rw [hsp3] at hrem
          obtain ⟨hr4eq, hd2all, _⟩ := span_decompose hsp3
          have hd2 := (Bool.and_eq_true_iff.mp hrem).1
          have hr5 : r5 = [')'] :=
            of_decide_eq_true (Bool.and_eq_true_iff.mp hrem).2
          obtain ⟨d20, d2s, hd20⟩ : ∃ a b, d2 = a :: b := by
            cases d2 with
            | nil => simp at hd2
            | cons a b => exact ⟨a, b, rfl⟩
          rw [hty, hr1eq, hr4eq, hr5]
          rw [show (w ++ '(' :: (d1 ++ (',' :: (d2 ++ [')'])))) ++ X
              = w ++ ('(' :: (d1 ++ (',' :: (d2 ++ (')' :: X))))) from by
            simp [List.append_assoc]]
          unfold sqlTypeMatch
          rw [span_stop (isWordStr_mem hwword)
            (Or.inr ⟨'(', _, rfl, by decide⟩), hw0]
          conv_lhs => whnf
          rw [span_stop hd1all (Or.inr ⟨',', _, rfl, by decide⟩), hd10]
          conv_lhs => whnf
          rw [span_stop hd2all (Or.inr ⟨')', X, rfl, by decide⟩), hd20]
          conv_lhs => whnf
          rw [← hw0, ← hd10, ← hd20]
          rw [show w ++ '(' :: d1 ++ ',' :: d2 ++ [')']
              = w ++ ('(' :: (d1 ++ (',' :: (d2 ++ [')']))))
            from by simp [List.append_assoc]]
        · exact absurd hrem (by decide)
      · exact absurd hre (by decide)

/-- Characters that can occur in a well-formed SQL type token. -/
def tyChar (c : Char) : Bool :=
  isWordChar c || c = '(' || c = ')' || c = ',' || c.isDigit

theorem tyChar_not_space {c : Char} (h : tyChar c = true) :
    isSpaceChar c = false := by
  unfold tyChar at h
  rcases Bool.or_eq_true_iff.mp h with h1 | h1
  · rcases Bool.or_eq_true_iff.mp h1 with h2 | h2
    · rcases Bool.or_eq_true_iff.mp h2 with h3 | h3
      · rcases Bool.or_eq_true_iff.mp h3 with h4 | h4
        · exact isWordChar_not_space h4
        · rw [decide_eq_true_eq.mp h4]; rfl
      · rw [decide_eq_true_eq.mp h3]; rfl
    · rw [decide_eq_true_eq.mp h2]; rfl
  · exact isWordChar_not_space (by
      unfold isWordChar
      rw [h1]
      simp)

theorem sqlTypeShape_decomp {ty : Str} (h : sqlTypeShapeOk ty = true) :
    (∀ c ∈ ty, tyChar c = true) ∧ ty ≠ [] ∧
      (isWordStr ty = true ∨ ∃ Y, ty = Y ++ [')']) := by
  cases hsp : ty.span isWordChar with
  | mk w rest =>
  unfold sqlTypeShapeOk at h
  rw [hsp] at h
  obtain ⟨hty, hwall, _⟩ := span_decompose hsp
  have hw := (Bool.and_eq_true_iff.mp h).1
  have hrest := (Bool.and_eq_true_iff.mp h).2
  have hwword : isWordStr w = true :=
    Bool.and_eq_true_iff.mpr ⟨hw, List.all_eq_true.mpr hwall⟩
  obtain ⟨w0, ws, hw0⟩ := exists_cons_of_wordStr hwword
  rcases Bool.or_eq_true_iff.mp hrest with hre | hre
  · have hrnil : rest = [] := by
      cases rest with
      | nil => rfl
      | cons a b => simp at hre
    rw [hty, hrnil, List.append_nil]
    refine ⟨fun c hc => ?_, ?_, Or.inl hwword⟩
    · unfold tyChar
      rw [hwall c hc]
      rfl
    · rw [hw0]; intro hx; cases hx
  · cases rest with
    | nil => simp at hre
    | cons ch r1 =>
      split at hre
      · next r1x heq =>
        obtain ⟨hch, hr1⟩ := (List.cons.injEq _ _ _ _).mp heq
        subst hch
        subst hr1
        cases hsp2 : r1.span Char.isDigit with
        | mk d1 r2 =>
        rw [hsp2] at hre
        obtain ⟨hr1eq, hd1all, _⟩ := span_decompose hsp2
        have hrem := (Bool.and_eq_true_iff.mp hre).2
        split at hrem
        · rw [hty, hr1eq]
          refine ⟨?_, ?_, Or.inr ⟨w ++ ('(' :: d1), by
            simp [List.append_assoc]⟩⟩
          · intro c hc
            rcases List.mem_append.mp hc with h1 | h1
            · unfold tyChar; rw [hwall c h1]; rfl
            · rcases List.mem_cons.mp h1 with h2 | h2
              · rw [h2]; rfl
              · rcases List.mem_append.mp h2 with h3 | h3
                · unfold tyChar
                  rw [hd1all c h3]
                  simp
                · have : c = ')' := by simpa using h3
                  rw [this]; rfl
          · rw [hw0]; intro hx; cases hx
        · rename_i r4 hstop
          cases hsp3 : r4.span Char.isDigit with
          | mk d2 r5 =>
          rw [hsp3] at hrem
          obtain ⟨hr4eq, hd2all, _⟩ := span_decompose hsp3
          have hr5 : r5 = [')'] :=
            of_decide_eq_true (Bool.and_eq_true_iff.mp hrem).2
          rw [hty, hr1eq, hr4eq, hr5]
          refine ⟨?_, ?_, Or.inr ⟨w ++ ('(' :: (d1 ++ (',' :: d2))), by
            simp [List.append_assoc]⟩⟩
          · intro c hc
            rcases List.mem_append.mp hc with h1 | h1
            · unfold tyChar; rw [hwall c h1]; rfl
            · rcases List.mem_cons.mp h1 with h2 | h2
              · rw [h2]; rfl
              · rcases List.mem_append.mp h2 with h3 | h3
                · unfold tyChar; rw [hd1all c h3]; simp
                · rcases List.mem_cons.mp h3 with h4 | h4
                  · rw [h4]; rfl
                  · rcases List.mem_append.mp h4 with h5 | h5
                    · unfold tyChar; rw [hd2all c h5]; simp
                    · have : c = ')' := by simpa using h5
                      rw [this]; rfl
          · rw [hw0]; intro hx; cases hx
        · exact absurd hrem (by decide)
      · exact absurd hre (by decide)

def isNNc (c : MpdConstraint) : Bool :=
  match c with
  | ⟨ConstraintKind.notNull, none⟩ => true
  | _ => false

def isUQc (c : MpdConstraint) : Bool :=
  match c with
  | ⟨ConstraintKind.unique, none⟩ => true
  | _ => false

def isCHKc (c : MpdConstraint) : Bool :=
  match c with
  | ⟨ConstraintKind.check, some e⟩ =>
    !e.isEmpty && !e.contains ')' && !e.contains '[' && !e.contains '\n'
  | _ => false

/-- Canonical constraint lists: at most one NOT NULL, one UNIQUE and one
well-formed CHECK, in that fixed order. -/
def constraintsWF (cs : List MpdConstraint) : Bool :=
  match cs with
  | [] => true
  | [a] => isNNc a || isUQc a || isCHKc a
  | [a, b] => (isNNc a && isUQc b) || (isNNc a && isCHKc b)
      || (isUQc a && isCHKc b)
  | [a, b, c] => isNNc a && isUQc b && isCHKc c
  | _ => false

/-- Well-formedness of an MPD column for the round-trip. -/
def mpdColWF (c : MpdColumn) : Bool :=
  isWordStr c.name && sqlTypeShapeOk c.sqlType
    && constraintsWF c.constraints
    && (match c.foreignKey with
        | some fk => decide (fk.columnName = c.name)
            && isWordStr fk.referencedTable && isWordStr fk.referencedColumn
        | none => true)

/-- The flag pieces contributed by one constraint. -/
def cPiece (c : MpdConstraint) : List FlagPiece :=
  match c.kind with
  | ConstraintKind.notNull => [FlagPiece.nn]
  | ConstraintKind.unique => [FlagPiece.uq]
  | ConstraintKind.check =>
    match c.expression with
    | some e => if e.isEmpty then [] else [FlagPiece.chk e]
    | none => []

/-- The flag pieces of an MPD column. -/
def mpdPieces (col : MpdColumn) : List FlagPiece :=
  (if col.isPrimaryKey then [FlagPiece.pk] else [])
  ++ col.constraints.foldl (fun l c => l ++ cPiece c) []
  ++ (match col.foreignKey with
      | some fk => [FlagPiece.fkp fk.referencedTable fk.referencedColumn
          fk.onDelete fk.onUpdate]
      | none => [])

/-- The flag part appended by `mpdColLine` after name and type. -/
def mpdFlagsPart (col : MpdColumn) : Str :=
  match mpdPieces col with
  | [] => []
  | _ => ' ' :: sJoin " ".data ((mpdPieces col).map pieceStr)

theorem cflags_eq : ∀ (cs : List MpdConstraint) (acc : List FlagPiece),
    cs.foldl (fun fl c =>
      match c.kind with
      | ConstraintKind.notNull => fl ++ ["[NOT NULL]".data]
      | ConstraintKind.unique => fl ++ ["[UNIQUE]".data]
      | ConstraintKind.check =>
        match c.expression with
        | some e => if e.isEmpty then fl
            else fl ++ ["[CHECK(".data ++ e ++ ")]".data]
        | none => fl) (acc.map pieceStr)
      = (cs.foldl (fun l c => l ++ cPiece c) acc).map pieceStr := by
  intro cs
  induction cs with
  | nil => intro acc; rfl
  | cons c cs ih =>
    intro acc
    obtain ⟨k, ex⟩ := c
    rw [List.foldl_cons, List.foldl_cons]
    cases k with
    | notNull =>
      dsimp only
      rw [show List.map pieceStr acc ++ ["[NOT NULL]".data]
          = List.map pieceStr (acc ++ [FlagPiece.nn]) from by simp [pieceStr]]
      exact ih (acc ++ [FlagPiece.nn])
    | unique =>
      dsimp only
      rw [show List.map pieceStr acc ++ ["[UNIQUE]".data]
          = List.map pieceStr (acc ++ [FlagPiece.uq]) from by simp [pieceStr]]
      exact ih (acc ++ [FlagPiece.uq])
    | check =>
      cases ex with
      | none =>
        dsimp only
        rw [show acc ++ cPiece ⟨ConstraintKind.check, none⟩ = acc from by
          simp [cPiece]]
        exact ih acc
      | some e =>
        by_cases he : e.isEmpty = true
        · dsimp only
          rw [if_pos he,
            show acc ++ cPiece ⟨ConstraintKind.check, some e⟩ = acc from by
              simp [cPiece, he]]
          exact ih acc
        · dsimp only
          rw [if_neg he,
            show List.map pieceStr acc ++ ["[CHECK(".data ++ e ++ ")]".data]
              = List.map pieceStr (acc ++ [FlagPiece.chk e]) from by
                simp [pieceStr],
            show acc ++ cPiece ⟨ConstraintKind.check, some e⟩
              = acc ++ [FlagPiece.chk e] from by simp [cPiece, he]]
          exact ih (acc ++ [FlagPiece.chk e])

theorem mpdFlags_eq (col : MpdColumn) :
    (if col.isPrimaryKey then ["[PK]".data] else [])
      ++ col.constraints.foldl (fun fl c =>
        match c.kind with
        | ConstraintKind.notNull => fl ++ ["[NOT NULL]".data]
        | ConstraintKind.unique => fl ++ ["[UNIQUE]".data]
        | ConstraintKind.check =>
          match c.expression with
          | some e => if e.isEmpty then fl
              else fl ++ ["[CHECK(".data ++ e ++ ")]".data]
          | none => fl) []
      ++ (match col.foreignKey with
          | some fk =>
            ["[FK -> ".data ++ fk.referencedTable
              ++ '.' :: fk.referencedColumn
              ++ (match fk.onDelete with
                  | some a => " ON DELETE ".data ++ a.str
                  | none => [])
              ++ (match fk.onUpdate with
                  | some a => " ON UPDATE ".data ++ a.str
                  | none => [])
              ++ "]".data]
          | none => [])
    = (mpdPieces col).map pieceStr := by
  unfold mpdPieces
  rw [List.map_append, List.map_append]
  congr 1
  congr 1
  · cases col.isPrimaryKey <;> simp [pieceStr]
  · exact cflags_eq col.constraints []
  · cases col.foreignKey <;> simp [pieceStr]

theorem mpdFlagsPart_nil {col : MpdColumn} (hp : mpdPieces col = []) :
    mpdFlagsPart col = [] := by
  unfold mpdFlagsPart
  rw [hp]

theorem mpdFlagsPart_cons {col : MpdColumn} {q : FlagPiece}
    {P : List FlagPiece} (hp : mpdPieces col = q :: P) :
    mpdFlagsPart col = ' ' :: sJoin " ".data ((q :: P).map pieceStr) := by
  unfold mpdFlagsPart
  rw [hp]

theorem mpdFlagsPart_ne {col : MpdColumn} (hne : mpdPieces col ≠ []) :
    mpdFlagsPart col
      = ' ' :: sJoin " ".data ((mpdPieces col).map pieceStr) := by
  unfold mpdFlagsPart
  cases hp : mpdPieces col with
  | nil => exact absurd hp hne
  | cons q P => rfl

theorem mpdColLine_eq (col : MpdColumn) :
    mpdColLine col = "    ".data ++ (col.name
      ++ (' ' :: (col.sqlType ++ mpdFlagsPart col))) := by
  unfold mpdColLine
  dsimp only
  rw [mpdFlags_eq]
  cases hp : mpdPieces col with
  | nil => simp [mpdFlagsPart, hp, List.append_assoc]
  | cons q P => simp [mpdFlagsPart, hp, List.append_assoc]

theorem mpdColWF_parts {col : MpdColumn} (h : mpdColWF col = true) :
    isWordStr col.name = true ∧ sqlTypeShapeOk col.sqlType = true ∧
    constraintsWF col.constraints = true ∧
    ∀ fk, col.foreignKey = some fk →
      fk.columnName = col.name ∧ isWordStr fk.referencedTable = true ∧
        isWordStr fk.referencedColumn = true := by
  unfold mpdColWF at h
  have h1 := Bool.and_eq_true_iff.mp h
  have h2 := Bool.and_eq_true_iff.mp h1.1
  have h3 := Bool.and_eq_true_iff.mp h2.1
  refine ⟨h3.1, h3.2, h2.2, fun fk hfk => ?_⟩
  have h4 := h1.2
  rw [hfk] at h4
  have h5 : ((decide (fk.columnName = col.name)
      && isWordStr fk.referencedTable) && isWordStr fk.referencedColumn)
      = true := h4
  have h6 := Bool.and_eq_true_iff.mp h5
  have h7 := Bool.and_eq_true_iff.mp h6.1
  exact ⟨of_decide_eq_true h7.1, h7.2, h6.2⟩

theorem isNNc_shape {c : MpdConstraint} (h : isNNc c = true) :
    c = ⟨ConstraintKind.notNull, none⟩ := by
  obtain ⟨k, ex⟩ := c
  cases k <;> cases ex <;> first | rfl | exact Bool.noConfusion h

theorem isUQc_shape {c : MpdConstraint} (h : isUQc c = true) :
    c = ⟨ConstraintKind.unique, none⟩ := by
  obtain ⟨k, ex⟩ := c
  cases k <;> cases ex <;> first | rfl | exact Bool.noConfusion h

theorem isCHKc_shape {c : MpdConstraint} (h : isCHKc c = true) :
    ∃ e, c = ⟨ConstraintKind.check, some e⟩ ∧ e.isEmpty = false ∧
      e.contains ')' = false ∧ e.contains '[' = false ∧
      e.contains '\n' = false := by
  obtain ⟨k, ex⟩ := c
  cases k <;> cases ex <;> first
  | exact Bool.noConfusion h
  | (rename_i e
     have h2 : (((!e.isEmpty && !e.contains ')') && !e.contains '[')
         && !e.contains '\n') = true := h
     have h3 := Bool.and_eq_true_iff.mp h2
     have h4 := Bool.and_eq_true_iff.mp h3.1
     have h5 := Bool.and_eq_true_iff.mp h4.1
     exact ⟨e, rfl, by simpa using h5.1, by simpa using h5.2,
       by simpa using h4.2, by simpa using h3.2⟩)

theorem constraintsWF_mem {cs : List MpdConstraint}
    (h : constraintsWF cs = true) :
    ∀ c ∈ cs, (isNNc c || isUQc c || isCHKc c) = true := by
  intro c hc
  match cs, h, hc with
  | [a], h, hc =>
    have : c = a := by simpa using hc
    rw [this]
    exact h
  | [a, b], h, hc =>
    rcases Bool.or_eq_true_iff.mp h with h1 | h1
    · rcases Bool.or_eq_true_iff.mp h1 with h2 | h2 <;>
        have h3 := Bool.and_eq_true_iff.mp h2 <;>
        rcases (by simpa using hc : c = a ∨ c = b) with rfl | rfl <;>
        simp [h3.1, h3.2]
    · have h3 := Bool.and_eq_true_iff.mp h1
      rcases (by simpa using hc : c = a ∨ c = b) with rfl | rfl <;>
        simp [h3.1, h3.2]
  | [a, b, d], h, hc =>
    have h3 := Bool.and_eq_true_iff.mp h
    have h4 := Bool.and_eq_true_iff.mp h3.1
    rcases (by simpa using hc : c = a ∨ c = b ∨ c = d) with rfl | rfl | rfl <;>
      simp [h3.2, h4.1, h4.2]

theorem mem_cfold : ∀ (cs : List MpdConstraint) (acc : List FlagPiece)
    (q : FlagPiece), q ∈ cs.foldl (fun l c => l ++ cPiece c) acc →
    q ∈ acc ∨ ∃ c ∈ cs, q ∈ cPiece c := by
  intro cs
  induction cs with
  | nil => intro acc q hq; exact Or.inl hq
  | cons c cs ih =>
    intro acc q hq
    rw [List.foldl_cons] at hq
    rcases ih (acc ++ cPiece c) q hq with h1 | ⟨c2, hc2, h2⟩
    · rcases List.mem_append.mp h1 with h2 | h2
      · exact Or.inl h2
      · exact Or.inr ⟨c, List.mem_cons_self _ _, h2⟩
    · exact Or.inr ⟨c2, List.mem_cons_of_mem _ hc2, h2⟩

theorem cPiece_cases {c : MpdConstraint} {q : FlagPiece}
    (hwfc : (isNNc c || isUQc c || isCHKc c) = true) (hq : q ∈ cPiece c) :
    q = FlagPiece.nn ∨ q = FlagPiece.uq ∨
      ∃ e, q = FlagPiece.chk e ∧ pieceWF (FlagPiece.chk e) = true := by
  rcases Bool.or_eq_true_iff.mp hwfc with h1 | h1
  · rcases Bool.or_eq_true_iff.mp h1 with h2 | h2
    · rw [isNNc_shape h2] at hq
      exact Or.inl (by simpa [cPiece] using hq)
    · rw [isUQc_shape h2] at hq
      exact Or.inr (Or.inl (by simpa [cPiece] using hq))
  · obtain ⟨e, rfl, he1, he2, he3, he4⟩ := isCHKc_shape h1
    refine Or.inr (Or.inr ⟨e, ?_, ?_⟩)
    · have : cPiece ⟨ConstraintKind.check, some e⟩ = [FlagPiece.chk e] := by
        simp [cPiece, he1]
      rw [this] at hq
      simpa using hq
    · show (!e.isEmpty && !e.contains ')' && !e.contains '['
        && !e.contains '\n') = true
      rw [show e.isEmpty = false from he1, he2, he3, he4]
      rfl

theorem mpdPieces_wf {col : MpdColumn} (h : mpdColWF col = true) :
    ∀ q ∈ mpdPieces col, pieceWF q = true := by
  intro q hq
  obtain ⟨hname, hty, hcs, hfk⟩ := mpdColWF_parts h
  unfold mpdPieces at hq
  rcases List.mem_append.mp hq with h1 | h1
  · rcases List.mem_append.mp h1 with h2 | h2
    · have : q = FlagPiece.pk := by
        cases hpk : col.isPrimaryKey <;> rw [hpk] at h2
        · cases h2
        · simpa using h2
      rw [this]; rfl
    · rcases mem_cfold col.constraints [] q h2 with h3 | ⟨c, hc, h3⟩
      · cases h3
      · rcases cPiece_cases (constraintsWF_mem hcs c hc) h3
          with rfl | rfl | ⟨e, rfl, hwf⟩
        · rfl
        · rfl
        · exact hwf
  · cases hfk2 : col.foreignKey with
    | none => rw [hfk2] at h1; cases h1
    | some fk =>
      rw [hfk2] at h1
      have : q = FlagPiece.fkp fk.referencedTable fk.referencedColumn
          fk.onDelete fk.onUpdate := by simpa using h1
      rw [this]
      obtain ⟨_, hrt, hrc⟩ := hfk fk hfk2
      show (isWordStr fk.referencedTable
        && isWordStr fk.referencedColumn) = true
      rw [hrt, hrc]
      rfl

theorem rev_head_append {X Y : Str} (hY : Y ≠ []) :
    (X ++ Y).reverse.head? = Y.reverse.head? := by
  rw [List.reverse_append]
  cases hYr : Y.reverse with
  | nil => exact absurd (List.reverse_eq_nil_iff.mp hYr) hY
  | cons a r => rfl

theorem sqlTy_rev_head {ty : Str} (h : sqlTypeShapeOk ty = true) :
    ∀ ch, ty.reverse.head? = some ch →
      isSpaceChar ch = false ∧ ch ≠ ',' := by
  obtain ⟨hmem, hne, hsh⟩ := sqlTypeShape_decomp h
  intro ch hch
  rcases hsh with hw | ⟨Y, hY⟩
  · have hmm := isWordStr_mem hw ch
      (List.mem_reverse.mp (List.mem_of_mem_head? (by rw [hch]; rfl)))
    refine ⟨isWordChar_not_space hmm, fun he => ?_⟩
    rw [he] at hmm
    exact absurd hmm (by decide)
  · rw [hY, List.reverse_append] at hch
    have : ch = ')' := by simpa using hch.symm
    rw [this]
    exact ⟨rfl, by decide⟩

theorem mpdLine_rev_head {col : MpdColumn} (h : mpdColWF col = true) :
    ∀ ch, (col.name ++ (' ' :: (col.sqlType
        ++ mpdFlagsPart col))).reverse.head? = some ch →
      isSpaceChar ch = false ∧ ch ≠ ',' := by
  obtain ⟨hname, htysh, _, _⟩ := mpdColWF_parts h
  obtain ⟨_, htyne, _⟩ := sqlTypeShape_decomp htysh
  intro ch hch
  cases hp : mpdPieces col with
  | nil =>
    rw [mpdFlagsPart_nil hp, List.append_nil,
      show (' ' :: col.sqlType) = [' '] ++ col.sqlType from rfl,
      rev_head_append (by
        intro hx
        rcases List.append_eq_nil.mp hx with ⟨_, hx2⟩
        exact htyne hx2),
      rev_head_append htyne] at hch
    exact sqlTy_rev_head htysh ch hch
  | cons q P =>
    obtain ⟨Y, hY⟩ := sJoin_pieces_ends (q :: P) (by intro hc0; cases hc0)
    rw [mpdFlagsPart_cons hp, hY] at hch
    rw [show (' ' :: (col.sqlType ++ (' ' :: (Y ++ [']']))))
        = (' ' :: (col.sqlType ++ (' ' :: Y))) ++ [']'] from by
      simp [List.append_assoc],
      rev_head_append (by intro hx; cases hx),
      rev_head_append (by intro hx; cases hx)] at hch
    have : ch = ']' := by simpa using hch.symm
    rw [this]
    exact ⟨rfl, by decide⟩

theorem sTrim_mpdColLine (col : MpdColumn) (h : mpdColWF col = true) :
    sTrim (mpdColLine col)
      = col.name ++ (' ' :: (col.sqlType ++ mpdFlagsPart col)) := by
  have hname := (mpdColWF_parts h).1
  rw [mpdColLine_eq]
  apply sTrim_spaces_word _ _ hname
  exact fun ch hch => (mpdLine_rev_head h ch hch).1

theorem refAction_roundtrip :
    ∀ d : Option ReferentialAction,
      parseRefAction (d.map ReferentialAction.str) = d := by
  intro d
  cases d with
  | none => rfl
  | some a => cases a <;> decide

theorem cPiece_not_fkp {c : MpdConstraint} {q : FlagPiece}
    (hq : q ∈ cPiece c) :
    ∀ t c2 d u, q ≠ FlagPiece.fkp t c2 d u := by
  intro t c2 d u he
  obtain ⟨k, ex⟩ := c
  cases k with
  | notNull =>
    rw [show cPiece ⟨ConstraintKind.notNull, ex⟩ = [FlagPiece.nn]
      from rfl] at hq
    rw [he] at hq
    simp at hq
  | unique =>
    rw [show cPiece ⟨ConstraintKind.unique, ex⟩ = [FlagPiece.uq]
      from rfl] at hq
    rw [he] at hq
    simp at hq
  | check =>
    cases ex with
    | none => cases hq
    | some e =>
      by_cases hee : e.isEmpty = true
      · rw [show cPiece ⟨ConstraintKind.check, some e⟩ = [] from by
          simp [cPiece, hee]] at hq
        cases hq
      · rw [show cPiece ⟨ConstraintKind.check, some e⟩ = [FlagPiece.chk e]
          from by simp [cPiece, hee]] at hq
        rw [he] at hq
        simp at hq

theorem mpdPieces_dropLast_no_fkp {col : MpdColumn} :
    ∀ q ∈ (mpdPieces col).dropLast, ∀ t c d u,
      q ≠ FlagPiece.fkp t c d u := by
  intro q hq t c d u
  have hnf : ∀ p, p ∈ (if col.isPrimaryKey then [FlagPiece.pk] else [])
      ++ col.constraints.foldl (fun l c => l ++ cPiece c) [] →
      p ≠ FlagPiece.fkp t c d u := by
    intro p hp he
    rcases List.mem_append.mp hp with h1 | h1
    · cases hpk : col.isPrimaryKey <;> rw [hpk] at h1
      · cases h1
      · have : p = FlagPiece.pk := by simpa using h1
        rw [this] at he
        cases he
    · rcases mem_cfold col.constraints [] p h1 with h2 | ⟨c2, _, h2⟩
      · cases h2
      · exact cPiece_not_fkp h2 t c d u he
  unfold mpdPieces at hq
  cases hfk : col.foreignKey with
  | none =>
    rw [hfk, List.append_nil] at hq
    exact hnf q (List.dropLast_subset _ hq)
  | some fk =>
    rw [hfk, List.dropLast_concat] at hq
    exact hnf q hq

theorem mpdPieces_mem_cases {col : MpdColumn} (h : mpdColWF col = true)
    {q : FlagPiece} (hq : q ∈ mpdPieces col) :
    q = FlagPiece.pk ∨ q = FlagPiece.nn ∨ q = FlagPiece.uq ∨
    (∃ e, q = FlagPiece.chk e ∧ pieceWF (FlagPiece.chk e) = true) ∨
    (∃ fk, col.foreignKey = some fk ∧
      q = FlagPiece.fkp fk.referencedTable fk.referencedColumn
        fk.onDelete fk.onUpdate ∧
      isWordStr fk.referencedTable = true ∧
      isWordStr fk.referencedColumn = true) := by
  obtain ⟨hname, hty, hcs, hfkw⟩ := mpdColWF_parts h
  unfold mpdPieces at hq
  rcases List.mem_append.mp hq with h1 | h1
  · rcases List.mem_append.mp h1 with h2 | h2
    · left
      cases hpk : col.isPrimaryKey <;> rw [hpk] at h2
      · cases h2
      · simpa using h2
    · rcases mem_cfold col.constraints [] q h2 with h3 | ⟨c, hc, h3⟩
      · cases h3
      · rcases cPiece_cases (constraintsWF_mem hcs c hc) h3
          with rfl | rfl | ⟨e, rfl, hwf⟩
        · exact Or.inr (Or.inl rfl)
        · exact Or.inr (Or.inr (Or.inl rfl))
        · exact Or.inr (Or.inr (Or.inr (Or.inl ⟨e, rfl, hwf⟩)))
  · cases hfk2 : col.foreignKey with
    | none => rw [hfk2] at h1; cases h1
    | some fk =>
      rw [hfk2] at h1
      obtain ⟨_, hrt, hrc⟩ := hfkw fk hfk2
      exact Or.inr (Or.inr (Or.inr (Or.inr ⟨fk, rfl, by simpa using h1,
        hrt, hrc⟩)))

theorem mpd_scan_pk {col : MpdColumn} (h : mpdColWF col = true) :
    strSearch pkAt (sJoin " ".data ((mpdPieces col).map pieceStr))
      = (mpdPieces col).any isPkPiece := by
  refine strSearch_joinPieces pkAt (fun c s hx => pkAt_head hx) (by decide)
    isPkPiece _ (mpdPieces_wf h) (fun q hq X => ?_)
  rcases mpdPieces_mem_cases h hq
    with rfl | rfl | rfl | ⟨e, rfl, _⟩ | ⟨fk, _, rfl, _, _⟩
  · exact pkAt_at_pk X
  · exact pkAt_at_nn X
  · exact pkAt_at_uq X
  · exact pkAt_at_chk e X
  · exact pkAt_at_fkp _ _ _ _ X

theorem mpd_scan_nn {col : MpdColumn} (h : mpdColWF col = true) :
    strSearch notNullAt (sJoin " ".data ((mpdPieces col).map pieceStr))
      = (mpdPieces col).any isNnPiece := by
  refine strSearch_joinPieces notNullAt (fun c s hx => notNullAt_head hx)
    (by decide) isNnPiece _ (mpdPieces_wf h) (fun q hq X => ?_)
  rcases mpdPieces_mem_cases h hq
    with rfl | rfl | rfl | ⟨e, rfl, _⟩ | ⟨fk, _, rfl, _, _⟩
  · exact nnAt_at_pk X
  · exact nnAt_at_nn X
  · exact nnAt_at_uq X
  · exact nnAt_at_chk e X
  · exact nnAt_at_fkp _ _ _ _ X

theorem mpd_scan_uq {col : MpdColumn} (h : mpdColWF col = true) :
    strSearch uniqueAt (sJoin " ".data ((mpdPieces col).map pieceStr))
      = (mpdPieces col).any isUqPiece := by
  refine strSearch_joinPieces uniqueAt (fun c s hx => uniqueAt_head hx)
    (by decide) isUqPiece _ (mpdPieces_wf h) (fun q hq X => ?_)
  rcases mpdPieces_mem_cases h hq
    with rfl | rfl | rfl | ⟨e, rfl, _⟩ | ⟨fk, _, rfl, _, _⟩
  · exact uqAt_at_pk X
  · exact uqAt_at_nn X
  · exact uqAt_at_uq X
  · exact uqAt_at_chk e X
  · exact uqAt_at_fkp _ _ _ _ X

theorem mpd_scan_chk {col : MpdColumn} (h : mpdColWF col = true) :
    strSearchO checkAt (sJoin " ".data ((mpdPieces col).map pieceStr))
      = (mpdPieces col).findSome? chkOf := by
  refine strSearchO_joinPieces checkAt (fun c s r hx => checkAt_head hx)
    rfl chkOf _ (mpdPieces_wf h) (fun q hq X hq0 => ?_)
    (fun q hq r hqr => ?_) (fun q hq r hqr X => ?_)
  · rcases mpdPieces_mem_cases h hq
      with rfl | rfl | rfl | ⟨e, rfl, _⟩ | ⟨fk, _, rfl, _, _⟩
    · exact chkAt_at_pk X
    · exact chkAt_at_nn X
    · exact chkAt_at_uq X
    · cases hq0
    · exact chkAt_at_fkp _ _ _ _ X
  · rcases mpdPieces_mem_cases h hq
      with rfl | rfl | rfl | ⟨e, rfl, hwf⟩ | ⟨fk, _, rfl, _, _⟩
    · cases hqr
    · cases hqr
    · cases hqr
    · have h2 := checkAt_pos e hwf []
      rw [List.append_nil] at h2
      rw [← Option.some.inj hqr]
      exact h2
    · cases hqr
  · rcases mpdPieces_mem_cases h (List.dropLast_subset _ hq)
      with rfl | rfl | rfl | ⟨e, rfl, hwf⟩ | ⟨fk, _, rfl, _, _⟩
    · cases hqr
    · cases hqr
    · cases hqr
    · rw [← Option.some.inj hqr]
      exact checkAt_pos e hwf X
    · cases hqr

theorem mpd_scan_fk {col : MpdColumn} (h : mpdColWF col = true) :
    strSearchO mpdFkAt (sJoin " ".data ((mpdPieces col).map pieceStr))
      = (mpdPieces col).findSome? fkOfMpd := by
  refine strSearchO_joinPieces mpdFkAt (fun c s r hx => mpdFkAt_head hx)
    rfl fkOfMpd _ (mpdPieces_wf h) (fun q hq X hq0 => ?_)
    (fun q hq r hqr => ?_) (fun q hq r hqr X => ?_)
  · rcases mpdPieces_mem_cases h hq
      with rfl | rfl | rfl | ⟨e, rfl, _⟩ | ⟨fk, _, rfl, _, _⟩
    · exact mpdFkAt_at_pk X
    · exact mpdFkAt_at_nn X
    · exact mpdFkAt_at_uq X
    · exact mpdFkAt_at_chk e X
    · cases hq0
  · rcases mpdPieces_mem_cases h hq
      with rfl | rfl | rfl | ⟨e, rfl, _⟩ | ⟨fk, _, rfl, hrt, hrc⟩
    · cases hqr
    · cases hqr
    · cases hqr
    · cases hqr
    · rw [← Option.some.inj hqr]
      exact mpdFkAt_pos fk.referencedTable fk.referencedColumn
        fk.onDelete fk.onUpdate hrt hrc
  · rcases mpdPieces_mem_cases h (List.dropLast_subset _ hq)
      with rfl | rfl | rfl | ⟨e, rfl, _⟩ | ⟨fk, _, heq, _, _⟩
    · cases hqr
    · cases hqr
    · cases hqr
    · cases hqr
    · exact absurd heq (mpdPieces_dropLast_no_fkp q hq _ _ _ _)

theorem cPiece_shapes {c : MpdConstraint} {q : FlagPiece}
    (hq : q ∈ cPiece c) :
    q = FlagPiece.nn ∨ q = FlagPiece.uq ∨ ∃ e, q = FlagPiece.chk e := by
  obtain ⟨k, ex⟩ := c
  cases k with
  | notNull => exact Or.inl (by simpa [cPiece] using hq)
  | unique => exact Or.inr (Or.inl (by simpa [cPiece] using hq))
  | check =>
    cases ex with
    | none => cases hq
    | some e =>
      by_cases hee : e.isEmpty = true
      · rw [show cPiece ⟨ConstraintKind.check, some e⟩ = [] from by
          simp [cPiece, hee]] at hq
        cases hq
      · rw [show cPiece ⟨ConstraintKind.check, some e⟩ = [FlagPiece.chk e]
          from by simp [cPiece, hee]] at hq
        exact Or.inr (Or.inr ⟨e, by simpa using hq⟩)

theorem findSome?_none_front {γ : Type} (f : FlagPiece → Option γ) :
    ∀ (l₁ l₂ : List FlagPiece), (∀ x ∈ l₁, f x = none) →
      (l₁ ++ l₂).findSome? f = l₂.findSome? f := by
  intro l₁
  induction l₁ with
  | nil => intro l₂ _; rfl
  | cons x l ih =>
    intro l₂ hn
    rw [List.cons_append, List.findSome?_cons,
      hn x (List.mem_cons_self _ _)]
    exact ih l₂ (fun y hy => hn y (List.mem_cons_of_mem _ hy))

theorem cfold_any_pk (cs : List MpdConstraint) :
    (cs.foldl (fun l c => l ++ cPiece c) []).any isPkPiece = false := by
  rw [List.any_eq_false]
  intro q hq
  rcases mem_cfold cs [] q hq with h1 | ⟨c, _, h1⟩
  · cases h1
  · rcases cPiece_shapes h1 with rfl | rfl | ⟨e, rfl⟩ <;> simp [isPkPiece]

theorem mpdPieces_pk_field (col : MpdColumn) :
    (mpdPieces col).any isPkPiece = col.isPrimaryKey := by
  unfold mpdPieces
  rw [List.any_append, List.any_append, cfold_any_pk]
  cases hpk : col.isPrimaryKey <;> cases hfk : col.foreignKey <;>
    simp [isPkPiece]

theorem mpdPieces_fk_field (col : MpdColumn) (h : mpdColWF col = true) :
    (match (mpdPieces col).findSome? fkOfMpd with
     | some f => some ((⟨col.name, f.1, f.2.1, parseRefAction f.2.2.1,
          parseRefAction f.2.2.2⟩ : MpdForeignKey))
     | none => none) = col.foreignKey := by
  obtain ⟨_, _, _, hfkw⟩ := mpdColWF_parts h
  have hpre : ∀ x ∈ (if col.isPrimaryKey then [FlagPiece.pk] else [])
      ++ col.constraints.foldl (fun l c => l ++ cPiece c) [],
      fkOfMpd x = none := by
    intro x hx
    rcases List.mem_append.mp hx with h1 | h1
    · cases hpk : col.isPrimaryKey <;> rw [hpk] at h1
      · cases h1
      · rw [show x = FlagPiece.pk from by simpa using h1]
        rfl
    · rcases mem_cfold col.constraints [] x h1 with h2 | ⟨c, _, h2⟩
      · cases h2
      · rcases cPiece_shapes h2 with rfl | rfl | ⟨e, rfl⟩ <;> rfl
  unfold mpdPieces
  rw [findSome?_none_front _ _ _ hpre]
  cases hfk : col.foreignKey with
  | none => rfl
  | some fk =>
    obtain ⟨hcn, _, _⟩ := hfkw fk hfk
    rw [show List.findSome? fkOfMpd [FlagPiece.fkp fk.referencedTable
        fk.referencedColumn fk.onDelete fk.onUpdate]
        = some (fk.referencedTable, fk.referencedColumn,
            fk.onDelete.map ReferentialAction.str,
            fk.onUpdate.map ReferentialAction.str) from rfl]
    dsimp only
    rw [refAction_roundtrip, refAction_roundtrip, ← hcn]

theorem cfold_any_reduce (col : MpdColumn) (p : FlagPiece → Bool)
    (hpk : p FlagPiece.pk = false)
    (hfkp : ∀ t c d u, p (FlagPiece.fkp t c d u) = false) :
    (mpdPieces col).any p
      = (col.constraints.foldl (fun l c => l ++ cPiece c) []).any p := by
  unfold mpdPieces
  rw [List.any_append, List.any_append]
  have h1 : (if col.isPrimaryKey then [FlagPiece.pk] else []).any p
      = false := by
    cases col.isPrimaryKey <;> simp [hpk]
  have h2 : (match col.foreignKey with
      | some fk => [FlagPiece.fkp fk.referencedTable fk.referencedColumn
          fk.onDelete fk.onUpdate]
      | none => []).any p = false := by
    cases col.foreignKey <;> simp [hfkp]
  rw [h1, h2]
  simp

theorem cfold_findSome_reduce (col : MpdColumn) :
    (mpdPieces col).findSome? chkOf
      = (col.constraints.foldl (fun l c => l ++ cPiece c) []).findSome?
          chkOf := by
  unfold mpdPieces
  have hpre : ∀ x ∈ (if col.isPrimaryKey then [FlagPiece.pk] else []),
      chkOf x = none := by
    intro x hx
    cases hpk : col.isPrimaryKey <;> rw [hpk] at hx
    · cases hx
    · rw [show x = FlagPiece.pk from by simpa using hx]
      rfl
  rw [List.append_assoc, findSome?_none_front _ _ _ hpre]
  have : ∀ (L : List FlagPiece), (L ++ (match col.foreignKey with
      | some fk => [FlagPiece.fkp fk.referencedTable fk.referencedColumn
          fk.onDelete fk.onUpdate]
      | none => [])).findSome? chkOf = L.findSome? chkOf := by
    intro L
    induction L with
    | nil =>
      cases col.foreignKey <;> rfl
    | cons x L ih =>
      rw [List.cons_append, List.findSome?_cons, List.findSome?_cons]
      cases chkOf x with
      | none => exact ih
      | some e => rfl
  exact this _

theorem mpdPieces_constraints_field (col : MpdColumn)
    (h : mpdColWF col = true) :
    ((if (mpdPieces col).any isNnPiece then
        [({ kind := ConstraintKind.notNull, expression := none }
          : MpdConstraint)] else [])
      ++ (if (mpdPieces col).any isUqPiece then
        [({ kind := ConstraintKind.unique, expression := none }
          : MpdConstraint)] else [])
      ++ (match (mpdPieces col).findSome? chkOf with
          | some e => [((⟨ConstraintKind.check, some e⟩ : MpdConstraint))]
          | none => []))
      = col.constraints := by
  obtain ⟨_, _, hcs, _⟩ := mpdColWF_parts h
  rw [cfold_any_reduce col isNnPiece rfl (fun _ _ _ _ => rfl),
    cfold_any_reduce col isUqPiece rfl (fun _ _ _ _ => rfl),
    cfold_findSome_reduce col]
  rcases hcss : col.constraints with _ | ⟨a, _ | ⟨b, _ | ⟨c3, _ | ⟨d4, t4⟩⟩⟩⟩
  · rfl
  · rw [hcss] at hcs
    rcases Bool.or_eq_true_iff.mp hcs with h1 | h1
    · rcases Bool.or_eq_true_iff.mp h1 with h2 | h2
      · rw [isNNc_shape h2]
        rfl
      · rw [isUQc_shape h2]
        rfl
    · obtain ⟨e, rfl, he1, _, _, _⟩ := isCHKc_shape h1
      have he2 : e ≠ [] := by simpa using he1
      simp [cPiece, he1, he2, isNnPiece, isUqPiece, chkOf]
  · rw [hcss] at hcs
    rcases Bool.or_eq_true_iff.mp hcs with h1 | h1
    · rcases Bool.or_eq_true_iff.mp h1 with h2 | h2
      · have h3 := Bool.and_eq_true_iff.mp h2
        rw [isNNc_shape h3.1, isUQc_shape h3.2]
        rfl
      · have h3 := Bool.and_eq_true_iff.mp h2
        obtain ⟨e, rfl, he1, _, _, _⟩ := isCHKc_shape h3.2
        rw [isNNc_shape h3.1]
        have he2 : e ≠ [] := by simpa using he1
        simp [cPiece, he1, he2, isNnPiece, isUqPiece, chkOf]
    · have h3 := Bool.and_eq_true_iff.mp h1
      obtain ⟨e, rfl, he1, _, _, _⟩ := isCHKc_shape h3.2
      rw [isUQc_shape h3.1]
      have he2 : e ≠ [] := by simpa using he1
      simp [cPiece, he1, he2, isNnPiece, isUqPiece, chkOf]
  · rw [hcss] at hcs
    have h3 := Bool.and_eq_true_iff.mp hcs
    have h4 := Bool.and_eq_true_iff.mp h3.1
    obtain ⟨e, rfl, he1, _, _, _⟩ := isCHKc_shape h3.2
    rw [isNNc_shape h4.1, isUQc_shape h4.2]
    have he2 : e ≠ [] := by simpa using he1
    simp [cPiece, he1, he2, isNnPiece, isUqPiece, chkOf]
  · rw [hcss] at hcs
    exact Bool.noConfusion hcs


theorem parseMpdColumn_roundtrip (col : MpdColumn) (h : mpdColWF col = true)
    (tname : Str) (errs : List Str) :
    parseMpdColumn (col.name ++ (' ' :: (col.sqlType ++ mpdFlagsPart col)))
        tname errs = (some col, errs) := by
  obtain ⟨hname, htysh, hcs, hfkw⟩ := mpdColWF_parts h
  obtain ⟨n0, ns, hn⟩ := exists_cons_of_wordStr hname
  obtain ⟨htymem, htyne, _⟩ := sqlTypeShape_decomp htysh
  obtain ⟨ty0, tyr, hty0⟩ : ∃ a b, col.sqlType = a :: b := by
    cases hx : col.sqlType with
    | nil => exact absurd hx htyne
    | cons a b => exact ⟨a, b, rfl⟩
  have hclean : sTrim (stripTrailingComma (col.name
      ++ (' ' :: (col.sqlType ++ mpdFlagsPart col))))
      = col.name ++ (' ' :: (col.sqlType ++ mpdFlagsPart col)) := by
    rw [stripTrailingComma_eq_self (mpdLine_rev_head h)]
    apply sTrim_eq_self
    · intro ch hch
      rw [hn] at hch
      have : ch = n0 := by simpa using hch.symm
      rw [this]
      exact wordStr_head_not_space (hn ▸ hname)
    · exact fun ch hch => (mpdLine_rev_head h ch hch).1
  have hpart : mpdFlagsPart col = []
      ∨ ∃ rP, mpdFlagsPart col = ' ' :: rP := by
    cases hp : mpdPieces col with
    | nil => exact Or.inl (mpdFlagsPart_nil hp)
    | cons q P => exact Or.inr ⟨_, mpdFlagsPart_cons hp⟩
  unfold parseMpdColumn
  rw [hclean]
  dsimp only
  rw [hn, span_wordstr (hn ▸ hname) (Or.inr ⟨' ', _, rfl, by decide⟩)]
  conv_lhs => whnf
  rw [show List.dropWhile isSpaceChar
      (' ' :: (col.sqlType ++ mpdFlagsPart col))
      = col.sqlType ++ mpdFlagsPart col from by
    rw [hty0]
    rw [show ((ty0 :: tyr) ++ mpdFlagsPart col)
        = ty0 :: (tyr ++ mpdFlagsPart col) from rfl]
    exact dropWhile_one_space ty0 (tyChar_not_space (htymem ty0
      (by rw [hty0]; exact List.mem_cons_self _ _))) _]
  rw [sqlTypeMatch_tok col.sqlType htysh (mpdFlagsPart col) (by
    rcases hpart with h1 | ⟨rP, h1⟩
    · exact Or.inl h1
    · exact Or.inr ⟨rP, h1⟩)]
  dsimp only
  have hflag : (mpdFlagsPart col).dropWhile isSpaceChar
      = sJoin " ".data ((mpdPieces col).map pieceStr) := by
    cases hp : mpdPieces col with
    | nil => rw [mpdFlagsPart_nil hp]; rfl
    | cons q P =>
      rw [mpdFlagsPart_cons hp]
      obtain ⟨T, hT⟩ := joinPieces_head q P (mpdPieces_wf h q
        (by rw [hp]; exact List.mem_cons_self _ _))
      rw [hT]
      exact dropWhile_one_space '[' (by decide) T
  rw [hflag, mpd_scan_pk h, mpd_scan_nn h, mpd_scan_uq h, mpd_scan_chk h,
    mpd_scan_fk h, mpdPieces_pk_field col, ← hn, mpdPieces_fk_field col h,
    mpdPieces_constraints_field col h]


/-- The lines of one MPD table block, without the trailing blank line. -/
def mpdTableLines (t : MpdTable) : List Str :=
  tableHdr t.name :: (t.columns.map mpdColLine ++ ["\x7d".data])

/-- All lines of the generated MPD text after trimming: table blocks
separated by single blank lines. -/
def mpdAllLines : List MpdTable → List Str
  | [] => []
  | [t] => mpdTableLines t
  | t :: ts => mpdTableLines t ++ [] :: mpdAllLines ts

theorem mpdLines_eq : ∀ (ts : List MpdTable) (acc : List Str),
    ts.foldl (fun lines table =>
      lines ++ ["TABLE ".data ++ table.name ++ " \x7b".data]
        ++ table.columns.map mpdColLine ++ ["\x7d".data, []]) acc
      = acc ++ (ts.map (fun t => mpdTableLines t ++ [[]])).flatten := by
  intro ts
  induction ts with
  | nil => intro acc; simp
  | cons t ts ih =>
    intro acc
    rw [List.foldl_cons, ih]
    simp [mpdTableLines, tableHdr, List.append_assoc]

theorem flatten_mpdAllLines : ∀ (ts : List MpdTable), ts ≠ [] →
    (ts.map (fun t => mpdTableLines t ++ [[]])).flatten
      = mpdAllLines ts ++ [[]] := by
  intro ts
  induction ts with
  | nil => intro h; exact absurd rfl h
  | cons t ts ih =>
    intro _
    cases ts with
    | nil => simp [mpdAllLines]
    | cons t2 ts2 =>
      rw [List.map_cons, List.flatten_cons, ih (by intro hc; cases hc)]
      show _ = (mpdTableLines t ++ [] :: mpdAllLines (t2 :: ts2)) ++ [[]]
      simp [List.append_assoc]

theorem mpdAllLines_last : ∀ (ts : List MpdTable), ts ≠ [] →
    ∃ Init, mpdAllLines ts = Init ++ ["\x7d".data] := by
  intro ts
  induction ts with
  | nil => intro h; exact absurd rfl h
  | cons t ts ih =>
    intro _
    cases ts with
    | nil =>
      exact ⟨tableHdr t.name :: t.columns.map mpdColLine, by
        show mpdTableLines t = _
        rfl⟩
    | cons t2 ts2 =>
      obtain ⟨Init2, hInit2⟩ := ih (by intro hc; cases hc)
      refine ⟨mpdTableLines t ++ [] :: Init2, ?_⟩
      show mpdTableLines t ++ [] :: mpdAllLines (t2 :: ts2) = _
      rw [hInit2]
      simp [List.append_assoc]

theorem mpdAllLines_head (t : MpdTable) (ts : List MpdTable) :
    ∃ R, mpdAllLines (t :: ts) = tableHdr t.name :: R := by
  cases ts with
  | nil => exact ⟨t.columns.map mpdColLine ++ ["\x7d".data], rfl⟩
  | cons t2 ts2 =>
    exact ⟨(t.columns.map mpdColLine ++ ["\x7d".data])
      ++ [] :: mpdAllLines (t2 :: ts2), rfl⟩

theorem newline_not_mem_mpdColLine {col : MpdColumn}
    (h : mpdColWF col = true) :
    '\n' ∉ (col.name ++ (' ' :: (col.sqlType ++ mpdFlagsPart col))) := by
  obtain ⟨hname, htysh, _, _⟩ := mpdColWF_parts h
  obtain ⟨htymem, _, _⟩ := sqlTypeShape_decomp htysh
  intro hm
  rcases List.mem_append.mp hm with h1 | h1
  · exact absurd (isWordStr_mem hname _ h1) (by decide)
  · rcases List.mem_cons.mp h1 with h2 | h2
    · exact absurd h2 (by decide)
    · rcases List.mem_append.mp h2 with h3 | h3
      · exact absurd (htymem _ h3) (by decide)
      · cases hp : mpdPieces col with
        | nil => rw [mpdFlagsPart_nil hp] at h3; cases h3
        | cons q P =>
          rw [mpdFlagsPart_cons hp] at h3
          rcases List.mem_cons.mp h3 with h4 | h4
          · exact absurd h4 (by decide)
          · rcases mem_sJoin h4 with h5 | ⟨l, hl, h5⟩
            · exact absurd h5 (by decide)
            · obtain ⟨p, hp2, hpl⟩ := List.mem_map.mp hl
              rw [← hpl] at h5
              exact newline_not_mem_pieceStr p
                (mpdPieces_wf h p (by rw [hp]; exact hp2)) h5

theorem newline_not_mem_mpdColLine' {col : MpdColumn}
    (h : mpdColWF col = true) : '\n' ∉ mpdColLine col := by
  rw [mpdColLine_eq]
  intro hm
  rcases List.mem_append.mp hm with h1 | h1
  · exact absurd h1 (by decide)
  · exact newline_not_mem_mpdColLine h h1

theorem newline_not_mem_mpdAllLines :
    ∀ (ts : List MpdTable),
      (∀ t ∈ ts, isWordStr t.name = true ∧
        ∀ c ∈ t.columns, mpdColWF c = true) →
      ∀ l ∈ mpdAllLines ts, '\n' ∉ l := by
  intro ts
  induction ts with
  | nil => intro _ l hl; cases hl
  | cons t ts ih =>
    intro hwf l hl
    have hmem : l ∈ mpdTableLines t ∨ l = [] ∨ l ∈ mpdAllLines ts := by
      cases ts with
      | nil => exact Or.inl hl
      | cons t2 ts2 =>
        rcases List.mem_append.mp hl with h1 | h1
        · exact Or.inl h1
        · rcases List.mem_cons.mp h1 with h2 | h2
          · exact Or.inr (Or.inl h2)
          · exact Or.inr (Or.inr h2)
    have hwft := hwf t (List.mem_cons_self _ _)
    rcases hmem with h1 | h1 | h1
    · rcases List.mem_cons.mp h1 with h2 | h2
      · rw [h2]; exact newline_not_mem_hdr hwft.1
      · rcases List.mem_append.mp h2 with h3 | h3
        · obtain ⟨c, hc, hcl⟩ := List.mem_map.mp h3
          rw [← hcl]
          exact newline_not_mem_mpdColLine' (hwft.2 c hc)
        · have : l = "\x7d".data := by simpa using h3
          rw [this]; decide
    · rw [h1]; intro hm; cases hm
    · exact ih (fun t2 ht2 => hwf t2 (List.mem_cons_of_mem _ ht2)) l h1

theorem wordline_not_brace_start {name F : Str}
    (hn : isWordStr name = true) :
    sStarts "\x7d".data (name ++ F) = false := by
  obtain ⟨n0, ns, rfl⟩ := exists_cons_of_wordStr hn
  show (('\x7d' == n0) && List.isPrefixOf [] (ns ++ F)) = false
  have hne : ('\x7d' == n0) = false := by
    rw [beq_eq_false_iff_ne]
    intro he
    have hw := isWordStr_mem hn n0 (List.mem_cons_self _ _)
    rw [← he] at hw
    exact absurd hw (by decide)
  rw [hne, Bool.false_and]

theorem mpdColLoop_run (tname : Str) :
    ∀ (cols : List MpdColumn), (∀ c ∈ cols, mpdColWF c = true) →
    ∀ (fuel : Nat) (Rest : List Str) (acc : List MpdColumn)
      (errs : List Str), cols.length + 1 ≤ fuel →
      mpdColLoop tname fuel
          (cols.map mpdColLine ++ ("\x7d".data :: Rest)) acc errs
        = (acc ++ cols, errs, Rest) := by
  intro cols
  induction cols with
  | nil =>
    intro _ fuel Rest acc errs hfuel
    cases fuel with
    | zero => omega
    | succ f =>
      rw [show (List.map mpdColLine [] ++ ("\x7d".data :: Rest))
          = "\x7d".data :: Rest from rfl]
      rw [show mpdColLoop tname (f + 1) ("\x7d".data :: Rest) acc errs
          = (acc, errs, Rest) from rfl]
      rw [List.append_nil]
  | cons c cs ih =>
    intro hwf fuel Rest acc errs hfuel
    cases fuel with
    | zero => omega
    | succ f =>
      have hc := hwf c (List.mem_cons_self _ _)
      have hname := (mpdColWF_parts hc).1
      obtain ⟨n0, ns, hn0⟩ := exists_cons_of_wordStr hname
      rw [show (List.map mpdColLine (c :: cs) ++ ("\x7d".data :: Rest))
          = mpdColLine c :: (List.map mpdColLine cs ++ ("\x7d".data :: Rest))
          from rfl]
      show (let colLine := sTrim (mpdColLine c);
        if colLine = "\x7d".data || sStarts "\x7d".data colLine then
          (acc, errs, List.map mpdColLine cs ++ ("\x7d".data :: Rest))
        else if colLine.isEmpty then mpdColLoop tname f
          (List.map mpdColLine cs ++ ("\x7d".data :: Rest)) acc errs
        else
          match parseMpdColumn colLine tname errs with
          | (some col, errs2) => mpdColLoop tname f
              (List.map mpdColLine cs ++ ("\x7d".data :: Rest))
              (acc ++ [col]) errs2
          | (none, errs2) => mpdColLoop tname f
              (List.map mpdColLine cs ++ ("\x7d".data :: Rest))
              acc errs2) = _
      rw [sTrim_mpdColLine c hc]
      rw [if_neg (show ¬ (((c.name ++ (' ' :: (c.sqlType ++ mpdFlagsPart c)))
            = "\x7d".data
          || sStarts "\x7d".data (c.name ++ (' ' :: (c.sqlType
            ++ mpdFlagsPart c)))) = true) from by
        rw [Bool.or_eq_true_iff]
        rintro (h1 | h1)
        · exact wordline_ne_brace hname (of_decide_eq_true h1)
        · rw [wordline_not_brace_start hname] at h1
          exact Bool.noConfusion h1)]
      rw [if_neg (show ¬ ((c.name ++ (' ' :: (c.sqlType
            ++ mpdFlagsPart c))).isEmpty = true) from by
        rw [hn0]; intro hx; cases hx)]
      rw [parseMpdColumn_roundtrip c hc tname errs]
      show mpdColLoop tname f
          (List.map mpdColLine cs ++ ("\x7d".data :: Rest))
          (acc ++ [c]) errs = _
      rw [ih (fun x hx => hwf x (List.mem_cons_of_mem _ hx)) f Rest
        (acc ++ [c]) errs (by simp at hfuel ⊢; omega)]
      simp

theorem parseMpdLoop_cons (fuel : Nat) (l : Str) (rest : List Str)
    (st : MpdModel × List Str) :
    parseMpdLoop (fuel + 1) (l :: rest) st
      = (match tableHeaderMatch (sTrim l) with
         | some tname =>
           parseMpdLoop fuel (mpdColLoop tname rest.length rest [] st.2).2.2
             ({ tables := st.1.tables ++ [{ name := tname,
                                            columns := (mpdColLoop tname
                                              rest.length rest [] st.2).1 }] },
              (mpdColLoop tname rest.length rest [] st.2).2.1)
         | none => parseMpdLoop fuel rest st) := rfl

theorem parseMpdLoop_run :
    ∀ (ts : List MpdTable),
      (∀ t ∈ ts, isWordStr t.name = true ∧
        ∀ c ∈ t.columns, mpdColWF c = true) →
    ∀ (fuel : Nat) (acc : List MpdTable) (errs : List Str),
      (mpdAllLines ts).length ≤ fuel →
      parseMpdLoop fuel (mpdAllLines ts) ({ tables := acc }, errs)
        = ({ tables := acc ++ ts }, errs) := by
  intro ts
  induction ts with
  | nil =>
    intro _ fuel acc errs _
    rw [List.append_nil]
    cases fuel with
    | zero => rfl
    | succ f => rfl
  | cons t ts ih =>
    intro hwf fuel acc errs hfuel
    have hwft := hwf t (List.mem_cons_self _ _)
    have hlines : ∃ Sep, mpdAllLines (t :: ts)
        = tableHdr t.name :: (t.columns.map mpdColLine
            ++ ("\x7d".data :: Sep)) ∧
        (ts = [] → Sep = []) ∧ (ts ≠ [] → Sep = [] :: mpdAllLines ts) := by
      cases ts with
      | nil =>
        exact ⟨[], rfl, fun _ => rfl, fun hne => absurd rfl hne⟩
      | cons t2 ts2 =>
        refine ⟨[] :: mpdAllLines (t2 :: ts2), ?_, ?_, fun _ => rfl⟩
        · show mpdTableLines t ++ [] :: mpdAllLines (t2 :: ts2) = _
          unfold mpdTableLines
          simp [List.append_assoc]
        · intro hco; cases hco
    obtain ⟨Sep, hSep, hSepNil, hSepCons⟩ := hlines
    rw [hSep] at hfuel ⊢
    cases fuel with
    | zero => simp at hfuel
    | succ f =>
      rw [parseMpdLoop_cons, sTrim_hdr t.name hwft.1,
        tableHeaderMatch_hdr t.name hwft.1]
      dsimp only
      rw [mpdColLoop_run t.name t.columns hwft.2 _ Sep [] errs
        (by
          simp only [List.length_cons, List.length_append,
            List.length_map] at hfuel ⊢
          omega)]
      dsimp only
      rw [List.nil_append]
      have heta : ({ name := t.name, columns := t.columns } : MpdTable)
          = t := rfl
      rw [heta]
      cases ts with
      | nil =>
        rw [hSepNil rfl]
        cases f with
        | zero => rfl
        | succ f2 => rfl
      | cons t2 ts2 =>
        have hS := hSepCons (by intro hco; cases hco)
        rw [hS] at hfuel ⊢
        cases f with
        | zero =>
          exfalso
          obtain ⟨R, hR⟩ := mpdAllLines_head t2 ts2
          rw [hR] at hfuel
          simp at hfuel
        | succ f2 =>
          rw [parseMpdLoop_cons,
            show tableHeaderMatch (sTrim []) = none from rfl]
          dsimp only
          rw [ih (fun x hx => hwf x (List.mem_cons_of_mem _ hx)) f2 _ errs
            (by
              simp only [List.length_cons, List.length_append,
                List.length_map] at hfuel ⊢
              omega)]
          rw [List.append_assoc]
          rfl

/-- Well-formedness of an MPD model for the round-trip. -/
def mpdWF (m : MpdModel) : Bool :=
  m.tables.all (fun t => isWordStr t.name && t.columns.all mpdColWF)

theorem mpdWF_fields {m : MpdModel} (h : mpdWF m = true) :
    ∀ t ∈ m.tables, isWordStr t.name = true ∧
      ∀ c ∈ t.columns, mpdColWF c = true := by
  intro t ht
  have h2 := List.all_eq_true.mp h t ht
  have h3 := Bool.and_eq_true_iff.mp h2
  exact ⟨h3.1, fun c hc => List.all_eq_true.mp h3.2 c hc⟩

theorem parseMpd_roundtrip (m : MpdModel) (h : mpdWF m = true) :
    parseMpd (generateMpdText m) = (m, []) := by
  have hws := mpdWF_fields h
  cases hts : m.tables with
  | nil =>
    have hm : m = { tables := [] } := by rw [← hts]
    rw [hm]
    rfl
  | cons t ts =>
    have hne : m.tables ≠ [] := by rw [hts]; intro hc; cases hc
    have hALne : mpdAllLines m.tables ≠ [] := by
      rw [hts]
      obtain ⟨R, hR⟩ := mpdAllLines_head t ts
      rw [hR]
      intro hc; cases hc
    have hhd : ∃ Z, sJoin "\n".data (mpdAllLines m.tables) = 'T' :: Z := by
      rw [hts]
      obtain ⟨R, hR⟩ := mpdAllLines_head t ts
      rw [hR, show tableHdr t.name
          = 'T' :: ("ABLE ".data ++ t.name ++ " \x7b".data) from rfl]
      exact sJoin_head_cons _ 'T' _ R
    obtain ⟨Z, hZ⟩ := hhd
    obtain ⟨Init, hInit⟩ := mpdAllLines_last m.tables hne
    obtain ⟨Y, hY⟩ := sJoin_ends "\n".data "\x7d".data Init
    unfold generateMpdText
    rw [mpdLines_eq m.tables [], List.nil_append,
      flatten_mpdAllLines m.tables hne,
      sJoin_append_empty _ _ hALne,
      show sJoin "\n".data (mpdAllLines m.tables) ++ "\n".data
        = sJoin "\n".data (mpdAllLines m.tables) ++ ['\n'] from rfl,
      sTrim_append_newline
        (fun c hc => by
          rw [hZ] at hc
          rw [(Option.some.inj hc).symm]
          decide)
        (fun c hc => by
          rw [hInit, hY, show Y ++ "\x7d".data = (Y ++ ['\x7d']).reverse.reverse
            from by rw [List.reverse_reverse]] at hc
          rw [List.reverse_reverse, List.reverse_append] at hc
          rw [(Option.some.inj hc).symm]
          decide)]
    unfold parseMpd
    rw [splitChar_sJoin _ (newline_not_mem_mpdAllLines m.tables hws) hALne,
      parseMpdLoop_run m.tables hws _ [] [] le_rfl, List.nil_append]

/-- A well-formed MLD model exercising primary-key and foreign-key flags. -/
def c3MldExample : MldModel :=
  ⟨[⟨"users".data,
     [⟨"id_user".data, true, none⟩,
      ⟨"id_role".data, false,
        some ⟨"id_role".data, "roles".data, "id_role".data⟩⟩]⟩,
    ⟨"roles".data, [⟨"id_role".data, true, none⟩]⟩]⟩

/-- A well-formed MPD model exercising primary keys, parameterized SQL
types, the three constraint kinds in canonical order, and a foreign key
with referential actions. -/
def c3MpdExample : MpdModel :=
  ⟨[⟨"users".data,
     [⟨"id_user".data, "INT".data, true, none, []⟩,
      ⟨"email".data, "VARCHAR(255)".data, false, none,
        [⟨ConstraintKind.notNull, none⟩, ⟨ConstraintKind.unique, none⟩,
         ⟨ConstraintKind.check, some "email > 0".data⟩]⟩,
      ⟨"id_role".data, "INT".data, false,
        some ⟨"id_role".data, "roles".data, "id_role".data,
              some ReferentialAction.cascade,
              some ReferentialAction.setNull⟩, []⟩]⟩,
    ⟨"roles".data, [⟨"id_role".data, "INT".data, true, none, []⟩]⟩]⟩

/-- C3 (amended): for every logical model all of whose table names and
column names are non-empty `\w` strings and whose foreign keys carry the
owning column's name and word-string references (`mldWF`), and every
physical model additionally having well-shaped SQL type tokens,
constraints in the canonical `NOT NULL, UNIQUE, CHECK` order with at most
one of each kind and non-empty bracket-free check expressions (`mpdWF`),
serializing with `generateMldText` / `generateMpdText` and re-parsing
with `parseMld` / `parseMpd` returns exactly the original model — not
merely up to table/column ordering — together with an empty error list.
The claim as frozen is refuted separately: constraint order inside a
column is not preserved, which no table/column reordering can repair. -/
theorem c3_roundtrip (mld : MldModel) (mpd : MpdModel)
    (hmld : mldWF mld = true) (hmpd : mpdWF mpd = true) :
    parseMld (generateMldText mld) = (mld, [])
      ∧ parseMpd (generateMpdText mpd) = (mpd, []) :=
  ⟨parseMld_roundtrip mld hmld, parseMpd_roundtrip mpd hmpd⟩

/-- Witness: `c3_roundtrip` applied to the concrete example models. -/
theorem c3_roundtrip_witness :
    (mldWF c3MldExample = true ∧ mpdWF c3MpdExample = true)
    ∧ parseMld (generateMldText c3MldExample) = (c3MldExample, [])
    ∧ parseMpd (generateMpdText c3MpdExample) = (c3MpdExample, []) :=
  ⟨⟨by decide, by decide⟩,
   c3_roundtrip c3MldExample c3MpdExample (by decide) (by decide)⟩

end Merise
